import Mathlib

/-!
# NextPrimes: table lookup, segment progression and bit decoding

A shallow embedding of `src/NextPrimes.cpp` (primesieve): the small-prime
tables, the bounds resolver (`getStartIdx`, `getStopIdx`), the table-prefix
step (`initSmallPrimes`), `init`, the two `sieveSegment` overloads, the
sieving-prime registration loop and `fill`.

Machine integers (`uint64_t`, `size_t`) are natural numbers, reduced modulo
`2 ^ 64` wherever the C++ arithmetic can wrap.  Code whose behaviour is
undefined in C++ (an out-of-bounds table read, a subscript `smallPrimes[i]`
with `i >= smallPrimes.size()`, a reversed copy range) returns `none`.
-/

set_option maxRecDepth 100000
set_option maxHeartbeats 4000000

namespace NextPrimes

/-! ## Static tables -/

/-- First 64 primes (`NextPrimes::smallPrimes`). -/
def smallPrimes : List Nat :=
  [   2,   3,   5,   7,  11,  13,  17,  19,
     23,  29,  31,  37,  41,  43,  47,  53,
     59,  61,  67,  71,  73,  79,  83,  89,
     97, 101, 103, 107, 109, 113, 127, 131,
    137, 139, 149, 151, 157, 163, 167, 173,
    179, 181, 191, 193, 197, 199, 211, 223,
    227, 229, 233, 239, 241, 251, 257, 263,
    269, 271, 277, 281, 283, 293, 307, 311 ]

/-- Number of primes `<= n` (`NextPrimes::primePi`), indexed `0..311`. -/
def primePi : List Nat :=
  [  0,  0,  1,  2,  2,  3,  3,  4,  4,  4,
     4,  5,  5,  6,  6,  6,  6,  7,  7,  8,
     8,  8,  8,  9,  9,  9,  9,  9,  9, 10,
    10, 11, 11, 11, 11, 11, 11, 12, 12, 12,
    12, 13, 13, 14, 14, 14, 14, 15, 15, 15,
    15, 15, 15, 16, 16, 16, 16, 16, 16, 17,
    17, 18, 18, 18, 18, 18, 18, 19, 19, 19,
    19, 20, 20, 21, 21, 21, 21, 21, 21, 22,
    22, 22, 22, 23, 23, 23, 23, 23, 23, 24,
    24, 24, 24, 24, 24, 24, 24, 25, 25, 25,
    25, 26, 26, 27, 27, 27, 27, 28, 28, 29,
    29, 29, 29, 30, 30, 30, 30, 30, 30, 30,
    30, 30, 30, 30, 30, 30, 30, 31, 31, 31,
    31, 32, 32, 32, 32, 32, 32, 33, 33, 34,
    34, 34, 34, 34, 34, 34, 34, 34, 34, 35,
    35, 36, 36, 36, 36, 36, 36, 37, 37, 37,
    37, 37, 37, 38, 38, 38, 38, 39, 39, 39,
    39, 39, 39, 40, 40, 40, 40, 40, 40, 41,
    41, 42, 42, 42, 42, 42, 42, 42, 42, 42,
    42, 43, 43, 44, 44, 44, 44, 45, 45, 46,
    46, 46, 46, 46, 46, 46, 46, 46, 46, 46,
    46, 47, 47, 47, 47, 47, 47, 47, 47, 47,
    47, 47, 47, 48, 48, 48, 48, 49, 49, 50,
    50, 50, 50, 51, 51, 51, 51, 51, 51, 52,
    52, 53, 53, 53, 53, 53, 53, 53, 53, 53,
    53, 54, 54, 54, 54, 54, 54, 55, 55, 55,
    55, 55, 55, 56, 56, 56, 56, 56, 56, 57,
    57, 58, 58, 58, 58, 58, 58, 59, 59, 59,
    59, 60, 60, 61, 61, 61, 61, 61, 61, 61,
    61, 61, 61, 62, 62, 62, 62, 62, 62, 62,
    62, 62, 62, 62, 62, 62, 62, 63, 63, 63,
    63, 64 ]

/-- The value of `smallPrimes.back()`: the last entry of the table. -/
def smallPrimesBack : Nat := smallPrimes.getLastD 0

/-- The width of `uint64_t` and of `size_t`: values live in `[0, 2 ^ 64)`. -/
def U64 : Nat := 2 ^ 64

/-! ## Bounds resolver -/

/-- The body of `NextPrimes::getStartIdx`: `0` unless `start_ > 1`, in which
case the table entry `primePi[start_ - 1]` (`none` when that read is out of
bounds). -/
def getStartIdx (start_ : Nat) : Option Nat :=
  if start_ > 1 then primePi[start_ - 1]? else some 0

/-- The body of `NextPrimes::getStopIdx`: `primePi[stop_]` when `stop_` is
below the last table prime (`none` when that read is out of bounds), else
`smallPrimes.size()`. -/
def getStopIdx (stop_ : Nat) : Option Nat :=
  if stop_ < smallPrimesBack then primePi[stop_]? else some smallPrimes.length

/-- The table primes `p` with `start <= p <= stop`, in table order. -/
def tablePrimesIn (start stop : Nat) : List Nat :=
  smallPrimes.filter (fun p => decide (start ≤ p ∧ p ≤ stop))

/-- The range `[&smallPrimes[a], &smallPrimes[b])` that `std::copy` reads in
`initSmallPrimes`.  Both ends are formed with the subscript `operator[]` of the
64-entry `std::array`, which is defined only for an index below
`smallPrimes.size()`; the copy is defined only for `a <= b`. -/
def tableSlice (a b : Nat) : Option (List Nat) := do
  let _ ← smallPrimes[a]?
  let _ ← smallPrimes[b]?
  if a ≤ b then some ((smallPrimes.drop a).take (b - a)) else none

/-- Trial division: with `fuel` divisors still to try from `d` upwards, `true`
when no `d' >= d` with `d' * d' <= n` divides `n`. -/
def trialDiv (n : Nat) : Nat → Nat → Bool
  | 0, _ => true
  | fuel + 1, d =>
    if n < d * d then true
    else if n % d = 0 then false
    else trialDiv n fuel (d + 1)

/-- An executable primality test, the independent check of the outputs. -/
def isPrime (n : Nat) : Bool := decide (2 ≤ n) && trialDiv n n 2

/-- The ascending list of the primes `p` with `start <= p <= stop`. -/
def primesIn (start stop : Nat) : List Nat :=
  (List.range (stop + 1)).filter (fun p => decide (start ≤ p) && isPrime p)

/-! ## Table-prefix step -/

/-- The vector overload of `NextPrimes::initSmallPrimes`: nothing when `start_` is
past the last table prime, else the table range `[a, b)` is appended to
`primes` (`std::copy` through a `back_inserter`). -/
def initSmallPrimesVec (start_ stop_ : Nat) (primes : List Nat) : Option (List Nat) :=
  if start_ > smallPrimesBack then some primes
  else do
    let a ← getStartIdx start_
    let b ← getStopIdx stop_
    let slice ← tableSlice a b
    some (primes ++ slice)

/-- Writing the values `xs` into a caller's buffer from index 0 on; the buffer
is the memory from the pointer onwards, its capacity is the caller's business. -/
def writeBuf (buf xs : List Nat) : List Nat := xs ++ buf.drop xs.length

/-- The buffer overload of `NextPrimes::initSmallPrimes`: nothing when `start_` is
past the last table prime, else `*size = b - a` (in `size_t`) and the table
range `[a, b)` is copied to the start of the buffer. -/
def initSmallPrimesBuf (start_ stop_ : Nat) (primes : List Nat) (size : Nat) :
    Option (List Nat × Nat) :=
  if start_ > smallPrimesBack then some (primes, size)
  else do
    let a ← getStartIdx start_
    let b ← getStopIdx stop_
    let size1 := (b + U64 - a) % U64
    let slice ← tableSlice a b
    some (writeBuf primes slice, size1)

/-! ## External collaborators

`Erat` (the wheel sieve), `SievingPrimes` (the generator) and the class
declaration `NextPrimes.hpp` are not part of the sources at hand.  They enter
as a parameter: what the wheel sieve does is recorded as the sequence of
segments it produces for a range.
-/

/-- Modelled from the spec: one segment of the Wheel-Sieve Engine, missing
with `Erat`.  `segmentLow` and `segmentHigh` are the values of `segmentLow_`
and `segmentHigh_` while the segment is the next to be sieved; `sieveSize` and
`sieve` are `sieveSize_` and the bytes of `sieve_` once `Erat::sieveSegment()`
has produced it. -/
structure Segment where
  segmentLow : Nat
  segmentHigh : Nat
  sieveSize : Nat
  sieve : List Nat
deriving DecidableEq

/-- Modelled from the spec: the external collaborators of the core (`Erat`,
`SievingPrimes`, `get_sieve_size`), taken as a parameter.
`segments start stop` are the segments the wheel sieve produces, in order,
after `Erat::init(start, stop, ..)`; `initSieveSize start stop` is `sieveSize_`
after that call; `nextPrime k` is the value of the call number `k` of
`sievingPrimes_.nextPrime()`; `bitValue i` is the decode offset of bit
position `i` of a 64-bit word. -/
structure Collab where
  segments : Nat → Nat → List Segment
  initSieveSize : Nat → Nat → Nat
  nextPrime : Nat → Nat
  bitValue : Nat → Nat

/-- What the engine does to its collaborators and which of its own steps it
runs, recorded in call order. -/
inductive Event where
  | tableStep
  | eratInit (start stop : Nat)
  | sievingPrimesInit
  | hasNextSegment (answer : Bool)
  | nextPrime (p : Nat)
  | addSievingPrime (p : Nat)
  | eratSieveSegment (low high : Nat)
deriving DecidableEq

/-- Modelled from the spec: the data members of `NextPrimes` and of its base
`Erat` that the core reads and writes (the class declarations are missing).
`pending` are the segments `Erat` has not sieved yet, `generated` counts the
calls of `sievingPrimes_.nextPrime()`, `trace` is the record of events. -/
structure State where
  start_ : Nat
  stop_ : Nat
  isInit_ : Bool
  finished_ : Bool
  low_ : Nat
  sieveIdx_ : Nat
  sievingPrime_ : Nat
  sieveSize_ : Nat
  sieve_ : List Nat
  pending : List Segment
  generated : Nat
  trace : List Event
deriving DecidableEq

/-- Modelled from the spec: the engine as `NextPrimes(start, stop)` constructs
it (the member initialisers are in the missing class declaration): not
initialised, not finished, no segment and no sieve buffer yet, the decode
cursor at the largest 64-bit value, so that the first query asks for a
segment. -/
def fresh (start stop : Nat) : State :=
  { start_ := start, stop_ := stop, isInit_ := false, finished_ := false,
    low_ := 0, sieveIdx_ := U64 - 1, sievingPrime_ := 0, sieveSize_ := 0,
    sieve_ := [], pending := [], generated := 0, trace := [] }

/-- Modelled from the spec: `Erat::hasNextSegment()`, a segment remains to be
sieved. -/
def hasNextSegment (s : State) : Bool := !s.pending.isEmpty

/-- Modelled from the spec: `finished()`, the completion flag. -/
def finished (s : State) : Bool := s.finished_

/-- Modelled from the spec: `isqrt` of `pmath.hpp`, the integer square root. -/
def isqrt (n : Nat) : Nat := Nat.sqrt n

/-- `NextPrimes::init`: the sieve start is raised to `max(start_, 312)`, then
`Erat::init(start_, stop_, sieveSize, preSieve_)` and `sievingPrimes_.init`
are called. -/
def init (E : Collab) (s : State) : State :=
  let minStart := (smallPrimesBack + 1) % U64
  let start1 := max s.start_ minStart
  { s with
    start_ := start1
    pending := E.segments start1 s.stop_
    sieveSize_ := E.initSieveSize start1 s.stop_ % U64
    generated := 0
    trace := s.trace ++ [Event.eratInit start1 s.stop_, Event.sievingPrimesInit] }

/-- The call `sievingPrime_ = sievingPrimes_.nextPrime()`. -/
def fetchSievingPrime (E : Collab) (s : State) : State :=
  { s with
    sievingPrime_ := E.nextPrime s.generated
    generated := s.generated + 1
    trace := s.trace ++ [Event.nextPrime (E.nextPrime s.generated)] }

/-- The loop `while (sievingPrime_ <= sqrtHigh)` of `NextPrimes::sieveSegment()`:
each turn registers the cursor with `addSievingPrime` and fetches the next
sieving prime.  `fuel` bounds the number of turns; `none` when the loop has
not left within that bound. -/
def registerLoop (E : Collab) (sqrtHigh : Nat) : Nat → State → Option State
  | 0, s => if s.sievingPrime_ ≤ sqrtHigh then none else some s
  | fuel + 1, s =>
    if s.sievingPrime_ ≤ sqrtHigh then
      registerLoop E sqrtHigh fuel
        (fetchSievingPrime E
          { s with trace := s.trace ++ [Event.addSievingPrime s.sievingPrime_] })
    else some s

/-- `NextPrimes::sieveSegment()`: the decode cursor and `low_` are reset, the
sieving primes up to `isqrt(min(segmentHigh_, stop_))` are registered, and
`Erat::sieveSegment()` produces the next segment.  A strictly increasing
generator leaves the loop within `sqrtHigh + 2` turns, the bound used here.
Called only when a segment remains; `none` otherwise. -/
def sieveSegment (E : Collab) (s : State) : Option State :=
  match s.pending with
  | [] => none
  | seg :: rest =>
    let s1 := { s with sieveIdx_ := 0, low_ := seg.segmentLow }
    let high := min seg.segmentHigh s1.stop_
    let sqrtHigh := isqrt high
    let s2 := if s1.sievingPrime_ = 0 then fetchSievingPrime E s1 else s1
    match registerLoop E sqrtHigh (sqrtHigh + 2) s2 with
    | none => none
    | some s3 =>
      some { s3 with
        sieve_ := seg.sieve
        sieveSize_ := seg.sieveSize
        pending := rest
        trace := s3.trace ++ [Event.eratSieveSegment seg.segmentLow seg.segmentHigh] }

/-- The query `hasNextSegment()` of both `sieveSegment` overloads, with its
record in the trace. -/
def queryNextSegment (s : State) : Bool × State :=
  (hasNextSegment s, { s with trace := s.trace ++ [Event.hasNextSegment (hasNextSegment s)] })

/-- `NextPrimes::sieveSegment(vector<uint64_t>&)`; `reserve` changes only the
capacity of the container and is left out.  Returns the `bool` result, the
engine and the container. -/
def sieveSegmentVec (E : Collab) (s : State) (primes : List Nat) :
    Option (Bool × State × List Nat) :=
  let rest := fun (s : State) (primes : List Nat) =>
    let (more, s1) := queryNextSegment s
    if !more then some (false, { s1 with finished_ := true }, primes)
    else (sieveSegment E s1).map (fun s2 => (true, s2, primes))
  if !s.isInit_ then
    let s1 := { s with isInit_ := true, trace := s.trace ++ [Event.tableStep] }
    match initSmallPrimesVec s1.start_ s1.stop_ primes with
    | none => none
    | some primes1 =>
      let s2 := init E s1
      if !primes1.isEmpty then some (false, s2, primes1)
      else rest s2 primes1
  else rest s primes

/-- `NextPrimes::sieveSegment(uint64_t*, size_t*)`.  Returns the `bool` result,
the engine, the buffer and `*size`. -/
def sieveSegmentBuf (E : Collab) (s : State) (primes : List Nat) (size : Nat) :
    Option (Bool × State × List Nat × Nat) :=
  let rest := fun (s : State) (primes : List Nat) (size : Nat) =>
    let (more, s1) := queryNextSegment s
    if !more then
      let primes1 := writeBuf primes [U64 - 1]
      some (false, { s1 with finished_ := decide (primes1.headD 0 > s1.stop_) }, primes1, 1)
    else (sieveSegment E s1).map (fun s2 => (true, s2, primes, size))
  if !s.isInit_ then
    let s1 := { s with isInit_ := true, trace := s.trace ++ [Event.tableStep] }
    match initSmallPrimesBuf s1.start_ s1.stop_ primes size with
    | none => none
    | some (primes1, size1) =>
      let s2 := init E s1
      if size1 > 0 then some (false, s2, primes1, size1)
      else rest s2 primes1 size1
  else rest s primes size

/-! ## Bit decoding -/

/-- Modelled from the spec: `littleendian_cast<uint64_t>(&sieve_[i])`, the
64-bit word made of the 8 bytes from index `i` on, lowest byte first; `none`
when the read leaves the buffer. -/
def readWord (sieve : List Nat) (i : Nat) : Option Nat :=
  if i + 8 ≤ sieve.length then
    some (((sieve.drop i).take 8).foldr (fun b acc => b % 256 + 256 * acc) 0)
  else none

/-- The position of the lowest set bit of a non-zero 64-bit word. -/
def lowestSetBit (bits : Nat) : Nat :=
  ((List.range 64).find? (fun i => bits.testBit i)).getD 0

/-- Modelled from the spec: `Erat::getPrime(&bits, low)`: takes the lowest set
bit of `bits`, returns `low` plus the decode offset of its position (in
`uint64_t`) and `bits` with that bit cleared. -/
def getPrime (E : Collab) (bits low : Nat) : Nat × Nat :=
  let i := lowestSetBit bits
  ((low + E.bitValue i) % U64, bits ^^^ 2 ^ i)

/-- The loop `while (bits != 0) primes.push_back(getPrime(&bits, low_))` of
`fill`: the values pushed, in order.  A 64-bit word has at most 64 set bits,
so 64 turns are enough. -/
def decodeWord (E : Collab) (low : Nat) : Nat → Nat → List Nat
  | 0, _ => []
  | fuel + 1, bits =>
    if bits = 0 then []
    else (getPrime E bits low).1 :: decodeWord E low fuel (getPrime E bits low).2

/-- The second half of the body of the loop of `fill`: one word is read at the
decode cursor, the cursor moves on by 8, the word is decoded onto the
container and `low_` moves on by `8 * 30`. -/
def decodeStep (E : Collab) (s : State) (primes : List Nat) : Option (State × List Nat) :=
  match readWord s.sieve_ s.sieveIdx_ with
  | none => none
  | some bits =>
    some ({ s with sieveIdx_ := (s.sieveIdx_ + 8) % U64, low_ := (s.low_ + 8 * 30) % U64 },
          primes ++ decodeWord E s.low_ 64 bits)

/-- One turn of the loop of `NextPrimes::fill`, entered with `finished()` false. -/
def fillBody (E : Collab) (s : State) (primes : List Nat) : Option (State × List Nat) :=
  if s.sieveIdx_ ≥ s.sieveSize_ then
    match sieveSegmentVec E s primes with
    | none => none
    | some (ok, s1, primes1) =>
      if !ok then some (s1, primes1)
      else decodeStep E s1 primes1
  else decodeStep E s primes

/-- `NextPrimes::fill(vector<uint64_t>&)`: the loop `while (!finished())`, at
most `fuel` turns; `none` when the loop has not left within `fuel` turns. -/
def fill (E : Collab) : Nat → State → List Nat → Option (State × List Nat)
  | 0, s, primes => if finished s then some (s, primes) else none
  | fuel + 1, s, primes =>
    if finished s then some (s, primes)
    else
      match fillBody E s primes with
      | none => none
      | some (s1, primes1) => fill E fuel s1 primes1

/-! ## The contract of the wheel sieve -/

/-- The values a 64-bit word marks when it sits at numeric base `base`: one
per set bit, in ascending bit order. -/
def wordValues (E : Collab) (base bits : Nat) : List Nat :=
  ((List.range 64).filter (fun i => bits.testBit i)).map (fun i => base + E.bitValue i)

/-- The number of 64-bit words of a segment of `sieveSize` bytes. -/
def wordCount (sieveSize : Nat) : Nat := (sieveSize + 7) / 8

/-- The values a segment marks: word `j` of its buffer sits at numeric base
`segmentLow + 240 * j`. -/
def segmentValues (E : Collab) (seg : Segment) : List Nat :=
  (List.range (wordCount seg.sieveSize)).flatMap
    (fun j => wordValues E (seg.segmentLow + 240 * j) ((readWord seg.sieve (8 * j)).getD 0))

/-- The contract of the collaborators for the range `[lo, stop]` handed to
`Erat::init`: the decode offset is strictly increasing in the bit position and
stays within one block of 240; every segment has a 64-bit `segmentLow` and a
non-empty buffer that holds all its words; the segments mark only primes of `[lo, stop]`, mark each of them,
and come in ascending order; the generator is strictly increasing. -/
structure EratContract (E : Collab) (lo stop : Nat) : Prop where
  bitValue_mono : ∀ i j, i < j → j < 64 → E.bitValue i < E.bitValue j
  bitValue_block : E.bitValue 63 < E.bitValue 0 + 240
  size_ok : ∀ seg ∈ E.segments lo stop,
    seg.segmentLow < U64 ∧ 0 < seg.sieveSize ∧ seg.sieveSize + 8 ≤ U64
  buffer_ok : ∀ seg ∈ E.segments lo stop, 8 * wordCount seg.sieveSize ≤ seg.sieve.length
  sound : ∀ seg ∈ E.segments lo stop, ∀ v ∈ segmentValues E seg,
    Nat.Prime v ∧ lo ≤ v ∧ v ≤ stop
  complete : ∀ p, Nat.Prime p → lo ≤ p → p ≤ stop →
    ∃ seg ∈ E.segments lo stop, p ∈ segmentValues E seg
  ordered : (E.segments lo stop).Pairwise
    (fun s t => ∀ a ∈ segmentValues E s, ∀ b ∈ segmentValues E t, a < b)
  nextPrime_mono : StrictMono E.nextPrime

/-! ## A reference wheel sieve

A small executable instance of the collaborators: a modulo 30 wheel with the
residues 7, 11, 13, 17, 19, 23, 29, 31 per byte, segments of one word, bits
found by trial division.
-/

/-- The wheel residues of the 8 bits of a byte. -/
def wheelOffsets : List Nat := [7, 11, 13, 17, 19, 23, 29, 31]

/-- The decode offset of bit `i` of a word: byte `i / 8`, bit `i % 8`. -/
def refBitValue (i : Nat) : Nat := 30 * (i / 8) + wheelOffsets.getD (i % 8) 0

/-- The byte of the reference sieve for the 30 numbers above `base`. -/
def refByte (start stop base : Nat) : Nat :=
  ((List.range 8).map (fun i =>
    let v := base + wheelOffsets.getD i 0
    if start ≤ v ∧ v ≤ stop ∧ isPrime v = true then 2 ^ i else 0)).sum

/-- A segment of the reference sieve: one word, 8 bytes, 240 numbers. -/
def refSegment (start stop low : Nat) : Segment :=
  { segmentLow := low
    segmentHigh := low + 8 * 30 + 6
    sieveSize := 8
    sieve := (List.range 8).map (fun b => refByte start stop (low + 30 * b)) }

/-- The segments of the reference sieve for `[start, stop]`: none when
`start > stop`, else one per 240 numbers from the byte boundary below `start`. -/
def refSegments (start stop : Nat) : List Segment :=
  if start > stop then []
  else
    let rem := if start % 30 ≤ 6 then start % 30 + 30 else start % 30
    let low := start - rem
    (List.range ((stop - low) / 240 + 1)).map (fun k => refSegment start stop (low + 240 * k))

/-- The generator of the reference sieve: the 64 table primes, then the odd
numbers from 313 on (every prime is among them, which is all a sieve needs). -/
def refNextPrime (k : Nat) : Nat := smallPrimes.getD k (2 * k + 185)

/-- The reference collaborators. -/
def refCollab : Collab :=
  { segments := refSegments
    initSieveSize := fun _ _ => 8
    nextPrime := refNextPrime
    bitValue := refBitValue }

/-! ## Sequences of calls -/

/-- A call of one of the two `sieveSegment` overloads, with the caller's
output as it is handed in: the container, or the buffer and `*size`. -/
inductive Call where
  | vec (primes : List Nat)
  | buf (primes : List Nat) (size : Nat)

/-- The engine after one call. -/
def runCall (E : Collab) (s : State) : Call → Option State
  | Call.vec primes => (sieveSegmentVec E s primes).map (fun r => r.2.1)
  | Call.buf primes size => (sieveSegmentBuf E s primes size).map (fun r => r.2.1)

/-- The engine after a sequence of calls. -/
def runCalls (E : Collab) : State → List Call → Option State
  | s, [] => some s
  | s, c :: cs =>
    match runCall E s c with
    | none => none
    | some s1 => runCalls E s1 cs

/-- The number of times the table-prefix step was entered. -/
def tableSteps (s : State) : Nat := s.trace.count Event.tableStep

/-- The number of times `Erat::init` was called. -/
def eratInits (s : State) : Nat :=
  (s.trace.filter (fun e => match e with
    | Event.eratInit _ _ => true
    | _ => false)).length

/-- The positions of the set bits of a 64-bit word, in ascending order. -/
def setBits (bits : Nat) : List Nat := (List.range 64).filter (fun i => bits.testBit i)

/-! ## Frames of the proofs -/

/-- What the registration of sieving primes leaves alone: `t` differs from `s`
at most in the sieving-prime cursor, the generator and register events of the
trace. -/
structure RegisterFrame (s t : State) : Prop where
  start_eq : t.start_ = s.start_
  stop_eq : t.stop_ = s.stop_
  isInit_eq : t.isInit_ = s.isInit_
  finished_eq : t.finished_ = s.finished_
  low_eq : t.low_ = s.low_
  sieveIdx_eq : t.sieveIdx_ = s.sieveIdx_
  sieveSize_eq : t.sieveSize_ = s.sieveSize_
  sieve_eq : t.sieve_ = s.sieve_
  pending_eq : t.pending = s.pending
  tableSteps_eq : tableSteps t = tableSteps s
  eratInits_eq : eratInits t = eratInits s

/-- The engine `t` right after `NextPrimes::sieveSegment()` has sieved the
segment `seg` out of the engine `s`, with the segments `rest` left. -/
structure Sieved (seg : Segment) (rest : List Segment) (s t : State) : Prop where
  start_eq : t.start_ = s.start_
  stop_eq : t.stop_ = s.stop_
  isInit_eq : t.isInit_ = s.isInit_
  finished_eq : t.finished_ = s.finished_
  low_eq : t.low_ = seg.segmentLow
  sieveIdx_eq : t.sieveIdx_ = 0
  sieveSize_eq : t.sieveSize_ = seg.sieveSize
  sieve_eq : t.sieve_ = seg.sieve
  pending_eq : t.pending = rest
  tableSteps_eq : tableSteps t = tableSteps s
  eratInits_eq : eratInits t = eratInits s

/-- The engine inside the segment `seg`, about to decode its word `j`, with the
segments `rest` left. -/
structure Decoding (seg : Segment) (rest : List Segment) (j : Nat) (s : State) : Prop where
  isInit_eq : s.isInit_ = true
  finished_eq : s.finished_ = false
  sieve_eq : s.sieve_ = seg.sieve
  sieveSize_eq : s.sieveSize_ = seg.sieveSize
  sieveIdx_eq : s.sieveIdx_ = 8 * j
  low_eq : s.low_ = (seg.segmentLow + 240 * j) % U64
  pending_eq : s.pending = rest

/-- The initialised engine between two segments: the decode cursor has reached
the end of the buffer and the segments `rest` are left. -/
structure AtBoundary (rest : List Segment) (s : State) : Prop where
  isInit_eq : s.isInit_ = true
  finished_eq : s.finished_ = false
  cursor : s.sieveSize_ ≤ s.sieveIdx_
  pending_eq : s.pending = rest

/-- What the decoding of a segment relies on: a 64-bit `segmentLow`, a
non-empty buffer that holds all its words, and marked values that fit 64 bits. -/
structure SegmentOk (E : Collab) (seg : Segment) : Prop where
  low_lt : seg.segmentLow < U64
  size_pos : 0 < seg.sieveSize
  size_le : seg.sieveSize + 8 ≤ U64
  buffer_ok : 8 * wordCount seg.sieveSize ≤ seg.sieve.length
  values_lt : ∀ v ∈ segmentValues E seg, v < U64

/-- The values word `j` of a segment marks. -/
def segmentWord (E : Collab) (seg : Segment) (j : Nat) : List Nat :=
  wordValues E (seg.segmentLow + 240 * j) ((readWord seg.sieve (8 * j)).getD 0)

/-- A sequence of calls of the buffer overload, each with the caller's buffer
and `*size` as handed in: the engine after the last call and, per call, the
`bool` result, the buffer and `*size` as handed back. -/
def runBuf (E : Collab) : State → List (List Nat × Nat) →
    Option (State × List (Bool × List Nat × Nat))
  | s, [] => some (s, [])
  | s, (buf, size) :: cs =>
    match sieveSegmentBuf E s buf size with
    | none => none
    | some (ok, s1, out, size1) =>
      match runBuf E s1 cs with
      | none => none
      | some (t, outs) => some (t, (ok, out, size1) :: outs)

/-- The engine of the reference sieve on `[312, 320]` right after its only
segment, the one with base 300, was sieved, before the first word is decoded. -/
def sieved300 : State :=
  { start_ := 312, stop_ := 320, isInit_ := true, finished_ := false,
    low_ := 300, sieveIdx_ := 0, sievingPrime_ := 19, sieveSize_ := 8,
    sieve_ := [12, 0, 0, 0, 0, 0, 0, 0], pending := [], generated := 8,
    trace := [Event.tableStep, Event.eratInit 312 320, Event.sievingPrimesInit,
      Event.hasNextSegment true, Event.nextPrime 2, Event.addSievingPrime 2,
      Event.nextPrime 3, Event.addSievingPrime 3, Event.nextPrime 5,
      Event.addSievingPrime 5, Event.nextPrime 7, Event.addSievingPrime 7,
      Event.nextPrime 11, Event.addSievingPrime 11, Event.nextPrime 13,
      Event.addSievingPrime 13, Event.nextPrime 17, Event.addSievingPrime 17,
      Event.nextPrime 19, Event.eratSieveSegment 300 546] }

/-! ## Observations on the trace -/

/-- The number of calls of `Erat::sieveSegment()`. -/
def sieveCalls (s : State) : Nat :=
  (s.trace.filter (fun e => match e with
    | Event.eratSieveSegment _ _ => true
    | _ => false)).length

/-- The sieving primes passed to `addSievingPrime`, in call order. -/
def registered (s : State) : List Nat :=
  s.trace.filterMap (fun e => match e with
    | Event.addSievingPrime p => some p
    | _ => none)

/-- The engine once a first call has set `isInit_` and entered the table-prefix
step. -/
def enterTableStep (s : State) : State :=
  { s with isInit_ := true, trace := s.trace ++ [Event.tableStep] }

/-- The engine as it stands at the query `hasNextSegment()` of a call: itself
when initialised, else after the table-prefix step and `init`. -/
def queryState (E : Collab) (s : State) : State :=
  if s.isInit_ then s else init E (enterTableStep s)

/-- The engine after a call has found no segment left, vector overload. -/
def exhaustedVec (s : State) : State :=
  { s with finished_ := true, trace := s.trace ++ [Event.hasNextSegment false] }

/-- The engine after a call has found no segment left, buffer overload: the
flag is the comparison of the sentinel with `stop_`. -/
def exhaustedBuf (s : State) : State :=
  { s with
    finished_ := decide (s.stop_ < U64 - 1)
    trace := s.trace ++ [Event.hasNextSegment false] }

/-- The registration in progress: `k + 1` sieving primes were requested, the
cursor holds the last of them and the `k` before it are registered, in order. -/
def Registering (E : Collab) (s : State) (k : Nat) : Prop :=
  s.generated = k + 1 ∧ s.sievingPrime_ = E.nextPrime k ∧
    registered s = (List.range k).map E.nextPrime

/-- The registration between two calls: nothing requested and nothing
registered yet, or a non-zero cursor that holds the last requested sieving
prime with all the earlier ones registered, in order. -/
def RegInv (E : Collab) (s : State) : Prop :=
  (s.sievingPrime_ = 0 ∧ s.generated = 0 ∧ registered s = []) ∨
  (∃ k, Registering E s k ∧ s.sievingPrime_ ≠ 0)

/-! # Theorems -/

/-! ## Generic facts -/

theorem smallPrimesBack_eq : smallPrimesBack = 311 := by decide

theorem smallPrimes_length : smallPrimes.length = 64 := by decide

theorem smallPrimes_pairwise : smallPrimes.Pairwise (· < ·) := by decide

theorem smallPrimes_le_back : ∀ p ∈ smallPrimes, p ≤ 311 := by decide

theorem trialDiv_iff (n : Nat) (hn : 2 ≤ n) :
    ∀ (fuel d : Nat), 2 ≤ d → (∀ m, 2 ≤ m → m < d → ¬ m ∣ n) →
      n < (d + fuel) * (d + fuel) → (trialDiv n fuel d = true ↔ Nat.Prime n) := by
  have key : ∀ d : Nat, (∀ m, 2 ≤ m → m < d → ¬ m ∣ n) → n < d * d → Nat.Prime n := by
    intro d hd hlt
    rw [Nat.prime_def_le_sqrt]
    refine ⟨hn, fun m hm hms => hd m hm ?_⟩
    have h1 : m * m ≤ n := Nat.le_sqrt.mp hms
    by_contra hge
    have h2 : d ≤ m := Nat.le_of_not_lt hge
    have h3 : d * d ≤ m * m := Nat.mul_le_mul h2 h2
    omega
  intro fuel
  induction fuel with
  | zero =>
    intro d _ hd hlt
    simp only [trialDiv, true_iff]
    exact key d hd (by simpa using hlt)
  | succ f ih =>
    intro d hd2 hd hlt
    unfold trialDiv
    by_cases h1 : n < d * d
    · simp only [h1, if_true, true_iff]
      exact key d hd h1
    · by_cases h2 : n % d = 0
      · simp only [h1, h2, if_true, if_false, Bool.false_eq_true, false_iff]
        intro hp
        have hdvd : d ∣ n := Nat.dvd_of_mod_eq_zero h2
        rcases (Nat.dvd_prime hp).mp hdvd with h | h
        · omega
        · subst h
          have : d * 2 ≤ d * d := Nat.mul_le_mul_left d hd2
          have : d * d ≤ d := Nat.le_of_not_lt h1
          omega
      · simp only [h1, h2, if_false]
        apply ih (d + 1) (by omega)
        · intro m hm hmd
          by_cases hmd2 : m = d
          · subst hmd2
            intro hdvd
            exact h2 (Nat.mod_eq_zero_of_dvd hdvd)
          · exact hd m hm (by omega)
        · have : d + 1 + f = d + (f + 1) := by omega
          rw [this]; exact hlt

theorem isPrime_iff (n : Nat) : isPrime n = true ↔ Nat.Prime n := by
  unfold isPrime
  by_cases hn : 2 ≤ n
  · simp only [hn, decide_True, Bool.true_and]
    apply trialDiv_iff n hn n 2 (le_refl 2)
    · intro m hm hlt; omega
    · nlinarith
  · simp only [hn, decide_False, Bool.false_and, Bool.false_eq_true, false_iff]
    intro hp
    exact hn hp.two_le

theorem mem_primesIn (start stop p : Nat) :
    p ∈ primesIn start stop ↔ Nat.Prime p ∧ start ≤ p ∧ p ≤ stop := by
  unfold primesIn
  simp only [List.mem_filter, List.mem_range, Bool.and_eq_true, decide_eq_true_eq, isPrime_iff]
  constructor
  · rintro ⟨h1, h2, h3⟩; exact ⟨h3, h2, by omega⟩
  · rintro ⟨h1, h2, h3⟩; exact ⟨by omega, h2, h1⟩

theorem primesIn_sorted (start stop : Nat) : (primesIn start stop).Pairwise (· < ·) := by
  unfold primesIn
  exact List.Pairwise.filter _ (List.pairwise_lt_range _)

theorem smallPrimes_eq_filter : (List.range 312).filter isPrime = smallPrimes := by decide!

theorem primePi_eq_map :
    primePi = (List.range 312).map
      (fun n => (smallPrimes.filter (fun p => decide (p ≤ n))).length) := by decide!


theorem map_range_eq_apply {α : Type} {f g : Nat → α} {n : Nat}
    (h : (List.range n).map f = (List.range n).map g) (i : Nat) (hi : i < n) : f i = g i :=
  List.map_inj_left.mp h i (List.mem_range.mpr hi)

theorem primePi_getElem (n : Nat) (h : n ≤ 311) :
    primePi[n]? = some ((smallPrimes.filter (fun p => decide (p ≤ n))).length) := by
  rw [primePi_eq_map, List.getElem?_map, List.getElem?_range (by omega)]
  rfl

theorem primePi_length : primePi.length = 312 := by
  rw [primePi_eq_map]; simp

theorem filter_le_eq_self (n : Nat) (h : 311 ≤ n) :
    smallPrimes.filter (fun p => decide (p ≤ n)) = smallPrimes := by
  rw [List.filter_eq_self]
  intro p hp
  have := smallPrimes_le_back p hp
  simp only [decide_eq_true_eq]; omega

theorem filter_lt_succ (l : List Nat) (n : Nat) :
    l.filter (fun p => decide (p < n + 1)) = l.filter (fun p => decide (p ≤ n)) := by
  apply List.filter_congr
  intro p _
  simp only [decide_eq_decide]; omega

/-- In a strictly increasing list the entries `<= t` are a prefix. -/
theorem take_filter_le (l : List Nat) (hl : l.Pairwise (· < ·)) (t : Nat) :
    l.take (l.filter (fun p => decide (p ≤ t))).length = l.filter (fun p => decide (p ≤ t)) := by
  induction l with
  | nil => rfl
  | cons x xs ih =>
    rw [List.pairwise_cons] at hl
    by_cases hx : x ≤ t
    · simp only [List.filter_cons, hx, decide_True, if_true, List.length_cons, List.take_succ_cons]
      rw [ih hl.2]
    · have hnil : xs.filter (fun p => decide (p ≤ t)) = [] := by
        rw [List.filter_eq_nil_iff]
        intro p hp
        have := hl.1 p hp
        simp only [decide_eq_true_eq]; omega
      simp [List.filter_cons, hx, hnil]

/-- In a strictly increasing list, dropping the entries `< s` and keeping up to
the entries `<= t` leaves the entries of `[s, t]`. -/
theorem drop_take_filter (l : List Nat) (hl : l.Pairwise (· < ·)) (s t : Nat) (hst : s ≤ t) :
    (l.drop (l.filter (fun p => decide (p < s))).length).take
        ((l.filter (fun p => decide (p ≤ t))).length - (l.filter (fun p => decide (p < s))).length)
      = l.filter (fun p => decide (s ≤ p ∧ p ≤ t)) := by
  induction l with
  | nil => rfl
  | cons x xs ih =>
    have hl0 := hl
    rw [List.pairwise_cons] at hl
    by_cases hx : x < s
    · have hxt : x ≤ t := by omega
      have hns : ¬ (s ≤ x ∧ x ≤ t) := by omega
      have e1 : (x :: xs).filter (fun p => decide (p < s))
          = x :: xs.filter (fun p => decide (p < s)) := by simp [List.filter_cons, hx]
      have e2 : (x :: xs).filter (fun p => decide (p ≤ t))
          = x :: xs.filter (fun p => decide (p ≤ t)) := by simp [List.filter_cons, hxt]
      have e3 : (x :: xs).filter (fun p => decide (s ≤ p ∧ p ≤ t))
          = xs.filter (fun p => decide (s ≤ p ∧ p ≤ t)) := by
        rw [List.filter_cons]; simp only [hns, decide_False, Bool.false_eq_true, if_false]
      rw [e1, e2, e3]
      simp only [List.length_cons, List.drop_succ_cons, Nat.add_sub_add_right]
      exact ih hl.2
    · have hnil : (x :: xs).filter (fun p => decide (p < s)) = [] := by
        rw [List.filter_eq_nil_iff]
        intro p hp
        simp only [decide_eq_true_eq]
        rcases List.mem_cons.mp hp with h | h
        · omega
        · have := hl.1 p h; omega
      rw [hnil]
      simp only [List.length_nil, List.drop_zero, Nat.sub_zero]
      rw [take_filter_le _ hl0 t]
      apply List.filter_congr
      intro p hp
      have hsp : s ≤ p := by
        rcases List.mem_cons.mp hp with h | h
        · omega
        · have := hl.1 p h; omega
      simp only [decide_eq_decide]
      constructor
      · intro h; exact ⟨hsp, h⟩
      · intro h; exact h.2

theorem filter_length_mono (l : List Nat) (s t : Nat) (hst : s ≤ t + 1) :
    (l.filter (fun p => decide (p < s))).length ≤ (l.filter (fun p => decide (p ≤ t))).length := by
  induction l with
  | nil => simp
  | cons x xs ih =>
    simp only [List.filter_cons]
    by_cases h1 : x < s
    · have h2 : x ≤ t := by omega
      simp [h1, h2, ih]
    · by_cases h2 : x ≤ t
      · simp [h1, h2]; omega
      · simp [h1, h2, ih]

theorem getStartIdx_eq (start : Nat) (h : start ≤ 312) :
    getStartIdx start = some ((smallPrimes.filter (fun p => decide (p < start))).length) := by
  unfold getStartIdx
  by_cases h1 : start > 1
  · simp only [h1, if_true]
    obtain ⟨n, rfl⟩ : ∃ n, start = n + 1 := ⟨start - 1, by omega⟩
    rw [Nat.add_sub_cancel, primePi_getElem n (by omega), filter_lt_succ]
  · simp only [h1, if_false]
    have : smallPrimes.filter (fun p => decide (p < start)) = [] := by
      rw [List.filter_eq_nil_iff]
      have h2 : ∀ p ∈ smallPrimes, 2 ≤ p := by decide
      intro p hp
      have := h2 p hp
      simp only [decide_eq_true_eq]; omega
    rw [this]; rfl

theorem getStopIdx_eq (stop : Nat) :
    getStopIdx stop = some ((smallPrimes.filter (fun p => decide (p ≤ stop))).length) := by
  unfold getStopIdx
  rw [smallPrimesBack_eq]
  by_cases h1 : stop < 311
  · simp only [h1, if_true]
    exact primePi_getElem stop (by omega)
  · simp only [h1, if_false]
    rw [filter_le_eq_self stop (by omega)]

/-! ## The tables (C2, C3) -/

/-- In a strictly increasing list, the entries from index `#{p < s}` on are the
entries `>= s`. -/
theorem drop_filter_lt (l : List Nat) (hl : l.Pairwise (· < ·)) (s : Nat) :
    l.drop (l.filter (fun p => decide (p < s))).length = l.filter (fun p => decide (s ≤ p)) := by
  induction l with
  | nil => rfl
  | cons x xs ih =>
    have hl0 := hl
    rw [List.pairwise_cons] at hl
    by_cases hx : x < s
    · have e1 : (x :: xs).filter (fun p => decide (p < s))
          = x :: xs.filter (fun p => decide (p < s)) := by simp [List.filter_cons, hx]
      have e2 : (x :: xs).filter (fun p => decide (s ≤ p))
          = xs.filter (fun p => decide (s ≤ p)) := by
        rw [List.filter_cons]
        have : ¬ s ≤ x := by omega
        simp only [this, decide_False, Bool.false_eq_true, if_false]
      rw [e1, e2]
      simpa using ih hl.2
    · have e1 : (x :: xs).filter (fun p => decide (p < s)) = [] := by
        rw [List.filter_eq_nil_iff]
        intro p hp
        simp only [decide_eq_true_eq]
        rcases List.mem_cons.mp hp with h | h
        · omega
        · have := hl.1 p h; omega
      have e2 : (x :: xs).filter (fun p => decide (s ≤ p)) = x :: xs := by
        rw [List.filter_eq_self]
        intro p hp
        simp only [decide_eq_true_eq]
        rcases List.mem_cons.mp hp with h | h
        · omega
        · have := hl.1 p h; omega
      rw [e1, e2]; rfl

/-- Two strictly increasing lists with the same members are equal. -/
theorem eq_of_pairwise_lt_of_mem_iff {l₁ l₂ : List Nat} (h₁ : l₁.Pairwise (· < ·))
    (h₂ : l₂.Pairwise (· < ·)) (h : ∀ a, a ∈ l₁ ↔ a ∈ l₂) : l₁ = l₂ := by
  have n₁ : l₁.Nodup := h₁.imp (fun hab => Nat.ne_of_lt hab)
  have n₂ : l₂.Nodup := h₂.imp (fun hab => Nat.ne_of_lt hab)
  exact List.eq_of_perm_of_sorted ((List.perm_ext_iff_of_nodup n₁ n₂).mpr h) h₁ h₂

theorem head?_of_pairwise_lt {l : List Nat} (hl : l.Pairwise (· < ·)) {p : Nat} (hp : p ∈ l)
    (hmin : ∀ q ∈ l, p ≤ q) : l.head? = some p := by
  cases l with
  | nil => cases hp
  | cons x xs =>
    rw [List.pairwise_cons] at hl
    simp only [List.head?_cons, Option.some.injEq]
    rcases List.mem_cons.mp hp with h | h
    · exact h.symm
    · have h1 := hl.1 p h
      have h2 := hmin x (List.mem_cons_self _ _)
      omega

theorem getLast?_of_pairwise_lt {l : List Nat} (hl : l.Pairwise (· < ·)) {p : Nat} (hp : p ∈ l)
    (hmax : ∀ q ∈ l, q ≤ p) : l.getLast? = some p := by
  induction l with
  | nil => cases hp
  | cons x xs ih =>
    rw [List.pairwise_cons] at hl
    cases xs with
    | nil =>
      rcases List.mem_cons.mp hp with h | h
      · simp [h]
      · cases h
    | cons y ys =>
      rw [List.getLast?_cons_cons]
      have hy : p ∈ y :: ys := by
        rcases List.mem_cons.mp hp with h | h
        · have h1 := hl.1 y (List.mem_cons_self _ _)
          have h2 := hmax y (List.mem_cons_of_mem _ (List.mem_cons_self _ _))
          omega
        · exact h
      exact ih hl.2 hy (fun q hq => hmax q (List.mem_cons_of_mem _ hq))

theorem mem_smallPrimes_iff (p : Nat) : p ∈ smallPrimes ↔ Nat.Prime p ∧ p ≤ 311 := by
  rw [← smallPrimes_eq_filter]
  simp only [List.mem_filter, List.mem_range, isPrime_iff]
  constructor
  · rintro ⟨h1, h2⟩; exact ⟨h2, by omega⟩
  · rintro ⟨h1, h2⟩; exact ⟨by omega, h1⟩

theorem tablePrimesIn_eq (start stop : Nat) :
    tablePrimesIn start stop = primesIn start (min stop 311) := by
  apply eq_of_pairwise_lt_of_mem_iff
  · exact List.Pairwise.filter _ smallPrimes_pairwise
  · exact primesIn_sorted _ _
  · intro a
    rw [mem_primesIn]
    unfold tablePrimesIn
    simp only [List.mem_filter, decide_eq_true_eq, mem_smallPrimes_iff]
    constructor
    · rintro ⟨⟨h1, h2⟩, h3, h4⟩; exact ⟨h1, h3, by omega⟩
    · rintro ⟨h1, h2, h3⟩; exact ⟨⟨h1, by omega⟩, h2, by omega⟩

/-- C2: for every `n` in `0..311`, `primePi[n]` is the number of entries of
`smallPrimes` that are `<= n`, and `primePi` has exactly 312 entries. -/
theorem primePi_counts_table_primes (n : Nat) (h : n ≤ 311) :
    primePi[n]? = some ((smallPrimes.filter (fun p => decide (p ≤ n))).length) ∧
    primePi.length = 312 :=
  ⟨primePi_getElem n h, primePi_length⟩

theorem primePi_counts_table_primes_witness :
    100 ≤ 311 ∧ (primePi[100]? = some ((smallPrimes.filter (fun p => decide (p ≤ 100))).length) ∧
      primePi.length = 312) :=
  ⟨by decide, primePi_counts_table_primes 100 (by decide)⟩

/-- C3: `smallPrimes` is exactly the first 64 primes: 64 entries, strictly
increasing, first entry 2, last entry 311, every entry prime, every prime
`<= 311` among them. -/
theorem smallPrimes_first_64_primes :
    smallPrimes.length = 64 ∧ smallPrimes.Pairwise (· < ·) ∧
    smallPrimes.head? = some 2 ∧ smallPrimes.getLast? = some 311 ∧
    (∀ p ∈ smallPrimes, Nat.Prime p) ∧
    (∀ p, Nat.Prime p → p ≤ 311 → p ∈ smallPrimes) :=
  ⟨smallPrimes_length, smallPrimes_pairwise, by decide, by decide,
    fun p hp => ((mem_smallPrimes_iff p).mp hp).1,
    fun p hp hle => (mem_smallPrimes_iff p).mpr ⟨hp, hle⟩⟩

/-! ## The bounds resolver (C4, C5, C6) -/

/-- For `start <= 311` the table holds a prime `>= start`, and the entry at the
index `#{p < start}` is the least of them. -/
theorem first_table_prime_ge (start : Nat) (h : start ≤ 311) :
    ∃ p, smallPrimes[(smallPrimes.filter (fun p => decide (p < start))).length]? = some p ∧
      start ≤ p ∧ ∀ q ∈ smallPrimes, start ≤ q → p ≤ q := by
  have hdrop := drop_filter_lt smallPrimes smallPrimes_pairwise start
  have hmem : 311 ∈ smallPrimes.filter (fun p => decide (start ≤ p)) := by
    rw [List.mem_filter]
    exact ⟨by decide, by simpa using h⟩
  have hsorted : (smallPrimes.filter (fun p => decide (start ≤ p))).Pairwise (· < ·) :=
    List.Pairwise.filter _ smallPrimes_pairwise
  cases hf : smallPrimes.filter (fun p => decide (start ≤ p)) with
  | nil => rw [hf] at hmem; cases hmem
  | cons x xs =>
    refine ⟨x, ?_, ?_, ?_⟩
    · rw [← List.head?_drop, hdrop, hf]; rfl
    · have : x ∈ smallPrimes.filter (fun p => decide (start ≤ p)) := by
        rw [hf]; exact List.mem_cons_self _ _
      simpa using (List.mem_filter.mp this).2
    · intro q hq hsq
      have hq2 : q ∈ x :: xs := by
        rw [← hf, List.mem_filter]; exact ⟨hq, by simpa using hsq⟩
      rw [hf, List.pairwise_cons] at hsorted
      rcases List.mem_cons.mp hq2 with h1 | h1
      · omega
      · have := hsorted.1 q h1; omega

/-- C4: `getStartIdx` returns 0 when `start <= 1` and `primePi[start - 1]` when
`start > 1`; for `start <= 311` this is the number of table primes `< start`,
the index of the first table prime `>= start`. -/
theorem getStartIdx_spec (start : Nat) :
    (start ≤ 1 → getStartIdx start = some 0) ∧
    (1 < start → getStartIdx start = primePi[start - 1]?) ∧
    (start ≤ 311 →
      ∃ a, getStartIdx start = some a ∧
        a = (smallPrimes.filter (fun p => decide (p < start))).length ∧
        smallPrimes.drop a = smallPrimes.filter (fun p => decide (start ≤ p)) ∧
        ∃ p, smallPrimes[a]? = some p ∧ start ≤ p ∧ ∀ q ∈ smallPrimes, start ≤ q → p ≤ q) := by
  refine ⟨?_, ?_, ?_⟩
  · intro h
    have : ¬ start > 1 := by omega
    simp [getStartIdx, this]
  · intro h
    simp [getStartIdx, h]
  · intro h
    exact ⟨_, getStartIdx_eq start (by omega), rfl,
      drop_filter_lt smallPrimes smallPrimes_pairwise start, first_table_prime_ge start h⟩

theorem getStartIdx_spec_witness :
    getStartIdx 1 = some 0 ∧
    getStartIdx 100 = primePi[100 - 1]? ∧
    ∃ a, getStartIdx 100 = some a ∧
      a = (smallPrimes.filter (fun p => decide (p < 100))).length ∧
      smallPrimes.drop a = smallPrimes.filter (fun p => decide (100 ≤ p)) ∧
      ∃ p, smallPrimes[a]? = some p ∧ 100 ≤ p ∧ ∀ q ∈ smallPrimes, 100 ≤ q → p ≤ q :=
  ⟨(getStartIdx_spec 1).1 (by decide), (getStartIdx_spec 100).2.1 (by decide),
    (getStartIdx_spec 100).2.2 (by decide)⟩

/-- C5: `getStopIdx` returns `primePi[stop]` when `stop < 311` and 64 otherwise;
this is the number of table primes `<= stop` (0 when `stop < 2`), the index one
past the last table prime `<= stop`. -/
theorem getStopIdx_spec (stop : Nat) :
    (stop < 311 → getStopIdx stop = primePi[stop]?) ∧
    (311 ≤ stop → getStopIdx stop = some 64) ∧
    (stop < 2 → getStopIdx stop = some 0) ∧
    ∃ b, getStopIdx stop = some b ∧
      b = (smallPrimes.filter (fun p => decide (p ≤ stop))).length ∧
      smallPrimes.take b = smallPrimes.filter (fun p => decide (p ≤ stop)) ∧
      smallPrimes.drop b = smallPrimes.filter (fun p => decide (stop < p)) := by
  refine ⟨?_, ?_, ?_, ?_⟩
  · intro h
    simp [getStopIdx, smallPrimesBack_eq, h]
  · intro h
    have : ¬ stop < 311 := by omega
    simp [getStopIdx, smallPrimesBack_eq, this, smallPrimes_length]
  · intro h
    rw [getStopIdx_eq]
    have : smallPrimes.filter (fun p => decide (p ≤ stop)) = [] := by
      rw [List.filter_eq_nil_iff]
      have h2 : ∀ p ∈ smallPrimes, 2 ≤ p := by decide
      intro p hp
      have := h2 p hp
      simp only [decide_eq_true_eq]; omega
    rw [this]; rfl
  · refine ⟨_, getStopIdx_eq stop, rfl, take_filter_le smallPrimes smallPrimes_pairwise stop, ?_⟩
    have h1 := drop_filter_lt smallPrimes smallPrimes_pairwise (stop + 1)
    rw [filter_lt_succ] at h1
    rw [h1]
    apply List.filter_congr
    intro p _
    simp only [decide_eq_decide]; omega

theorem getStopIdx_spec_witness :
    getStopIdx 10 = primePi[10]? ∧
    getStopIdx 1000 = some 64 ∧
    getStopIdx 1 = some 0 ∧
    ∃ b, getStopIdx 10 = some b ∧
      b = (smallPrimes.filter (fun p => decide (p ≤ 10))).length ∧
      smallPrimes.take b = smallPrimes.filter (fun p => decide (p ≤ 10)) ∧
      smallPrimes.drop b = smallPrimes.filter (fun p => decide (10 < p)) :=
  ⟨(getStopIdx_spec 10).1 (by decide), (getStopIdx_spec 1000).2.1 (by decide),
    (getStopIdx_spec 1).2.2.1 (by decide), (getStopIdx_spec 10).2.2.2⟩

theorem tableSlice_eq (a b : Nat) :
    tableSlice a b
      = if a < 64 ∧ b < 64 ∧ a ≤ b then some ((smallPrimes.drop a).take (b - a)) else none := by
  have hlen := smallPrimes_length
  unfold tableSlice
  by_cases ha : a < 64
  · by_cases hb : b < 64
    · rw [List.getElem?_eq_getElem (show a < smallPrimes.length by omega),
        List.getElem?_eq_getElem (show b < smallPrimes.length by omega)]
      by_cases hab : a ≤ b
      · simp [ha, hb, hab]
      · simp [ha, hb, hab]
    · rw [List.getElem?_eq_getElem (show a < smallPrimes.length by omega),
        List.getElem?_eq_none (show smallPrimes.length ≤ b by omega)]
      simp [hb]
  · rw [List.getElem?_eq_none (show smallPrimes.length ≤ a by omega)]
    simp [ha]

/-- The two resolved indices, for `start <= stop`. -/
theorem resolved_indices (start stop : Nat) (h : start ≤ stop) :
    (smallPrimes.filter (fun p => decide (p < start))).length
      ≤ (smallPrimes.filter (fun p => decide (p ≤ stop))).length ∧
    (smallPrimes.filter (fun p => decide (p ≤ stop))).length ≤ 64 := by
  refine ⟨filter_length_mono smallPrimes start stop (by omega), ?_⟩
  have := List.length_filter_le (fun p => decide (p ≤ stop)) smallPrimes
  rw [smallPrimes_length] at this; exact this

/-- Below the last table prime the stop index is a valid subscript of the
table. -/
theorem stopIdx_lt (stop : Nat) (h : stop < 311) :
    (smallPrimes.filter (fun p => decide (p ≤ stop))).length < 64 := by
  have h1 : smallPrimes.filter (fun p => decide (p ≤ stop))
      = (smallPrimes.filter (fun p => decide (p ≤ 310))).filter
          (fun p => decide (p ≤ stop)) := by
    rw [List.filter_filter]
    apply List.filter_congr
    intro p _
    by_cases hp : p ≤ stop
    · have : p ≤ 310 := by omega
      simp [hp, this]
    · simp [hp]
  have h2 := List.length_filter_le (fun p => decide (p ≤ stop))
    (smallPrimes.filter (fun p => decide (p ≤ 310)))
  have h3 : (smallPrimes.filter (fun p => decide (p ≤ 310))).length = 63 := by decide
  rw [h1]
  omega

/-- From the last table prime on the stop index is `smallPrimes.size()`. -/
theorem stopIdx_eq_size (stop : Nat) (h : 311 ≤ stop) :
    (smallPrimes.filter (fun p => decide (p ≤ stop))).length = 64 := by
  rw [filter_le_eq_self stop h]
  exact smallPrimes_length

/-- Up to the last table prime the start index is a valid subscript of the
table. -/
theorem startIdx_lt (start : Nat) (h : start ≤ 311) :
    (smallPrimes.filter (fun p => decide (p < start))).length < 64 := by
  have h1 : smallPrimes.filter (fun p => decide (p < start))
      = (smallPrimes.filter (fun p => decide (p < 311))).filter
          (fun p => decide (p < start)) := by
    rw [List.filter_filter]
    apply List.filter_congr
    intro p _
    by_cases hp : p < start
    · have : p < 311 := by omega
      simp [hp, this]
    · simp [hp]
  have h2 := List.length_filter_le (fun p => decide (p < start))
    (smallPrimes.filter (fun p => decide (p < 311)))
  have h3 : (smallPrimes.filter (fun p => decide (p < 311))).length = 63 := by decide
  rw [h1]
  omega

/-- The copy range between the two resolved indices, below the last table
prime. -/
theorem tableSlice_resolved (start stop : Nat) (h : start ≤ stop) (hs : stop < 311) :
    tableSlice (smallPrimes.filter (fun p => decide (p < start))).length
        (smallPrimes.filter (fun p => decide (p ≤ stop))).length
      = some (tablePrimesIn start stop) := by
  obtain ⟨h1, _⟩ := resolved_indices start stop h
  have h2 := stopIdx_lt stop hs
  rw [tableSlice_eq, if_pos ⟨by omega, h2, h1⟩,
    drop_take_filter smallPrimes smallPrimes_pairwise start stop h]
  rfl

/-- From the last table prime on, the end of the copy range is the subscript
`smallPrimes[64]`. -/
theorem tableSlice_undefined (a stop : Nat) (hs : 311 ≤ stop) :
    tableSlice a (smallPrimes.filter (fun p => decide (p ≤ stop))).length = none := by
  rw [tableSlice_eq, stopIdx_eq_size stop hs, if_neg (by omega)]

/-- C6: for `start <= stop` and `start <= 311`, `getStartIdx() <= getStopIdx() <= 64`
and the half-open slice of `smallPrimes` between them is exactly the table
primes `p` with `start <= p <= stop`.  The copy range that `initSmallPrimes`
forms from the two indices is that slice when `stop < 311`; for `stop >= 311`
the index `b` is 64 and the end of the range, `&smallPrimes[64]`, is a subscript
out of range. -/
theorem resolver_slice (start stop : Nat) (h : start ≤ stop) (h311 : start ≤ 311) :
    ∃ a b, getStartIdx start = some a ∧ getStopIdx stop = some b ∧ a ≤ b ∧ b ≤ 64 ∧
      (stop < 311 → tableSlice a b = some (tablePrimesIn start stop)) ∧
      (311 ≤ stop → b = 64 ∧ tableSlice a b = none) ∧
      (smallPrimes.drop a).take (b - a) = tablePrimesIn start stop ∧
      ∀ p, p ∈ tablePrimesIn start stop ↔ p ∈ smallPrimes ∧ start ≤ p ∧ p ≤ stop := by
  obtain ⟨h1, h2⟩ := resolved_indices start stop h
  refine ⟨_, _, getStartIdx_eq start (by omega), getStopIdx_eq stop, h1, h2,
    fun hs => tableSlice_resolved start stop h hs,
    fun hs => ⟨stopIdx_eq_size stop hs, tableSlice_undefined _ stop hs⟩, ?_, ?_⟩
  · rw [drop_take_filter smallPrimes smallPrimes_pairwise start stop h]; rfl
  · intro p
    simp [tablePrimesIn]

theorem resolver_slice_witness :
    10 ≤ 50 ∧ 10 ≤ 311 ∧
    ∃ a b, getStartIdx 10 = some a ∧ getStopIdx 50 = some b ∧ a ≤ b ∧ b ≤ 64 ∧
      (50 < 311 → tableSlice a b = some (tablePrimesIn 10 50)) ∧
      (311 ≤ 50 → b = 64 ∧ tableSlice a b = none) ∧
      (smallPrimes.drop a).take (b - a) = tablePrimesIn 10 50 ∧
      ∀ p, p ∈ tablePrimesIn 10 50 ↔ p ∈ smallPrimes ∧ 10 ≤ p ∧ p ≤ 50 :=
  ⟨by decide, by decide, resolver_slice 10 50 (by decide) (by decide)⟩

/-- The resolved indices and the copy range on `[10, 50]` and on `[300, 320]`. -/
theorem resolver_10_50_300_320 :
    getStartIdx 10 = some 4 ∧ getStopIdx 50 = some 15 ∧
    tableSlice 4 15 = some [11, 13, 17, 19, 23, 29, 31, 37, 41, 43, 47] ∧
    getStartIdx 300 = some 62 ∧ getStopIdx 320 = some 64 ∧
    (smallPrimes.drop 62).take (64 - 62) = [307, 311] ∧ tableSlice 62 64 = none := by
  decide!

/-! ## The table-prefix step (C7, C8, C9) -/

theorem initSmallPrimesVec_skip (start stop : Nat) (primes : List Nat) (h : 311 < start) :
    initSmallPrimesVec start stop primes = some primes := by
  simp [initSmallPrimesVec, smallPrimesBack_eq, h]

theorem initSmallPrimesBuf_skip (start stop : Nat) (buf : List Nat) (size : Nat)
    (h : 311 < start) : initSmallPrimesBuf start stop buf size = some (buf, size) := by
  simp [initSmallPrimesBuf, smallPrimesBack_eq, h]

theorem initSmallPrimesVec_table (start stop : Nat) (primes : List Nat) (h : start ≤ stop)
    (hs : stop < 311) :
    initSmallPrimesVec start stop primes = some (primes ++ primesIn start (min stop 311)) := by
  have h3 := tableSlice_resolved start stop h hs
  have hn : ¬ start > 311 := by omega
  simp only [initSmallPrimesVec, smallPrimesBack_eq, hn, if_false,
    getStartIdx_eq start (by omega), getStopIdx_eq stop, Option.bind_eq_bind, Option.some_bind, h3,
    tablePrimesIn_eq]

theorem initSmallPrimesBuf_table (start stop : Nat) (buf : List Nat) (size : Nat)
    (h : start ≤ stop) (hs : stop < 311) :
    initSmallPrimesBuf start stop buf size
      = some (writeBuf buf (primesIn start (min stop 311)),
              (primesIn start (min stop 311)).length) := by
  obtain ⟨h1, h2⟩ := resolved_indices start stop h
  have h3 := tableSlice_resolved start stop h hs
  have hn : ¬ start > 311 := by omega
  have hlen : (tablePrimesIn start stop).length
      = (smallPrimes.filter (fun p => decide (p ≤ stop))).length
        - (smallPrimes.filter (fun p => decide (p < start))).length := by
    have hs2 : (smallPrimes.drop (smallPrimes.filter (fun p => decide (p < start))).length).take
        ((smallPrimes.filter (fun p => decide (p ≤ stop))).length
          - (smallPrimes.filter (fun p => decide (p < start))).length)
        = tablePrimesIn start stop := by
      rw [drop_take_filter smallPrimes smallPrimes_pairwise start stop h]; rfl
    have hs3 := congrArg List.length hs2
    rw [← hs3, List.length_take, List.length_drop, smallPrimes_length]
    omega
  have hsize : ((smallPrimes.filter (fun p => decide (p ≤ stop))).length + U64
      - (smallPrimes.filter (fun p => decide (p < start))).length) % U64
      = (primesIn start (min stop 311)).length := by
    rw [← tablePrimesIn_eq, hlen]
    have hU : U64 = 18446744073709551616 := by decide
    rw [hU]
    omega
  simp only [initSmallPrimesBuf, smallPrimesBack_eq, hn, if_false,
    getStartIdx_eq start (by omega), getStopIdx_eq stop, Option.bind_eq_bind, Option.some_bind, h3,
    hsize, tablePrimesIn_eq]

/-- The vector overload across the end of the table: for `start <= 311 <= stop`
the end of the copy range is `&smallPrimes[64]`. -/
theorem initSmallPrimesVec_undefined (start stop : Nat) (primes : List Nat) (h1 : start ≤ 311)
    (h2 : 311 ≤ stop) : initSmallPrimesVec start stop primes = none := by
  have hn : ¬ start > 311 := by omega
  simp only [initSmallPrimesVec, smallPrimesBack_eq, hn, if_false,
    getStartIdx_eq start (by omega), getStopIdx_eq stop, Option.bind_eq_bind, Option.some_bind,
    tableSlice_undefined _ stop h2, Option.none_bind]

/-- The buffer overload across the end of the table. -/
theorem initSmallPrimesBuf_undefined (start stop : Nat) (buf : List Nat) (size : Nat)
    (h1 : start ≤ 311) (h2 : 311 ≤ stop) : initSmallPrimesBuf start stop buf size = none := by
  have hn : ¬ start > 311 := by omega
  simp only [initSmallPrimesBuf, smallPrimesBack_eq, hn, if_false,
    getStartIdx_eq start (by omega), getStopIdx_eq stop, Option.bind_eq_bind, Option.some_bind,
    tableSlice_undefined _ stop h2, Option.none_bind]

theorem primesIn_eq_nil (start stop : Nat) (h : stop < start) : primesIn start stop = [] := by
  rw [List.eq_nil_iff_forall_not_mem]
  intro p hp
  rw [mem_primesIn] at hp
  omega

/-- The table-prefix step (both overloads of `initSmallPrimes`) on the ranges
that do not reach across the end of the table: it leaves the container, the
buffer and `*size` unchanged when `start > 311`; for `start <= stop < 311` it
emits exactly the primes of `[start, stop]` in ascending order: appended after
the untouched content of the container, or written from index 0 of the buffer
with `*size` set to their count.  For `start <= 311 <= stop` both overloads are
undefined. -/
theorem initSmallPrimes_defined (start stop : Nat) (primes buf : List Nat) (size : Nat) :
    (311 < start →
      initSmallPrimesVec start stop primes = some primes ∧
      initSmallPrimesBuf start stop buf size = some (buf, size)) ∧
    (start ≤ stop → stop < 311 →
      initSmallPrimesVec start stop primes = some (primes ++ primesIn start stop) ∧
      initSmallPrimesBuf start stop buf size
        = some (primesIn start stop ++ buf.drop (primesIn start stop).length,
                (primesIn start stop).length) ∧
      (primesIn start stop).Pairwise (· < ·) ∧
      ∀ p, p ∈ primesIn start stop ↔ Nat.Prime p ∧ start ≤ p ∧ p ≤ stop) ∧
    (start ≤ 311 → 311 ≤ stop →
      initSmallPrimesVec start stop primes = none ∧
      initSmallPrimesBuf start stop buf size = none) := by
  refine ⟨fun h => ⟨initSmallPrimesVec_skip start stop primes h,
      initSmallPrimesBuf_skip start stop buf size h⟩, fun h hs => ?_,
    fun h1 h2 => ⟨initSmallPrimesVec_undefined start stop primes h1 h2,
      initSmallPrimesBuf_undefined start stop buf size h1 h2⟩⟩
  have hmin : min stop 311 = stop := Nat.min_eq_left (by omega)
  have hv := initSmallPrimesVec_table start stop primes h hs
  have hb := initSmallPrimesBuf_table start stop buf size h hs
  rw [hmin] at hv hb
  exact ⟨hv, hb, primesIn_sorted _ _, fun p => mem_primesIn _ _ p⟩

/-- C7: the table-prefix step on `[0, 400]`, where the claim has it emit the
primes of `[0, 311]`, the whole table: `getStartIdx` returns 0 and `getStopIdx`
returns 64, which is `smallPrimes.size()`; the end of the copy range is formed
as `&smallPrimes[64]`, a subscript out of the range of the 64-entry table, and
both overloads of `initSmallPrimes` are undefined.  The slice `[0, 64)` that the
two indices designate is the whole table. -/
theorem initSmallPrimes_undefined_0_400 :
    getStartIdx 0 = some 0 ∧ getStopIdx 400 = some 64 ∧
    smallPrimes.length = 64 ∧ smallPrimes[0]? = some 2 ∧ smallPrimes[64]? = none ∧
    (smallPrimes.drop 0).take (64 - 0) = primesIn 0 (min 400 311) ∧
    tableSlice 0 64 = none ∧
    initSmallPrimesVec 0 400 [] = none ∧
    initSmallPrimesBuf 0 400 (List.replicate 64 0) 0 = none := by
  refine ⟨by decide!, by decide!, by decide!, by decide!, by decide!, ?_, by decide!,
    by decide!, by decide!⟩
  have h := tablePrimesIn_eq 0 400
  rw [← h]
  decide!

/-- The scenario `[0, 10]` of the table-prefix step, both overloads. -/
theorem initSmallPrimes_0_10 :
    initSmallPrimesVec 0 10 [] = some [2, 3, 5, 7] ∧
    initSmallPrimesBuf 0 10 [0, 0, 0, 0, 0, 0] 0 = some ([2, 3, 5, 7, 0, 0], 4) := by
  decide!

/-- The scenario `[10, 50]` of the table-prefix step, both overloads. -/
theorem initSmallPrimes_10_50 :
    initSmallPrimesVec 10 50 [] = some [11, 13, 17, 19, 23, 29, 31, 37, 41, 43, 47] ∧
    initSmallPrimesBuf 10 50 [] 0 = some ([11, 13, 17, 19, 23, 29, 31, 37, 41, 43, 47], 11) := by
  decide!

/-- The table-prefix step on an empty container, on the ranges that do not
reach across the end of the table. -/
theorem initSmallPrimesVec_nil (start stop : Nat) (h : start ≤ stop)
    (hd : 311 < start ∨ stop < 311) :
    initSmallPrimesVec start stop [] = some (primesIn start (min stop 311)) := by
  by_cases h311 : start ≤ 311
  · have hs : stop < 311 := by omega
    simpa using initSmallPrimesVec_table start stop [] h hs
  · rw [initSmallPrimesVec_skip start stop [] (by omega), primesIn_eq_nil]
    omega

/-- Inclusive bounds of the emitted sequence below the last table prime: from
`start` 0 or 1 with `2 <= stop < 311` it begins with 2; from a prime `p` with
`p <= stop < 311` it begins with `p`; up to a prime `p < 311` from `start <= p`
the table-derived sequence ends with `p`.  The first two hold of the
table-prefix step, which emits the head of the sequence, and of the full list of
primes of the range. -/
theorem inclusive_bounds_defined (start stop p : Nat) :
    (start ≤ 1 → 2 ≤ stop → stop < 311 →
      (∃ out, initSmallPrimesVec start stop [] = some out ∧ out.head? = some 2) ∧
      (primesIn start stop).head? = some 2) ∧
    (Nat.Prime p → p ≤ stop → stop < 311 →
      (∃ out, initSmallPrimesVec p stop [] = some out ∧ out.head? = some p) ∧
      (primesIn p stop).head? = some p) ∧
    (Nat.Prime p → p < 311 → start ≤ p →
      ∃ out, initSmallPrimesVec start p [] = some out ∧ out.getLast? = some p) := by
  refine ⟨?_, ?_, ?_⟩
  · intro h1 h2 h3
    refine ⟨⟨_, initSmallPrimesVec_nil start stop (by omega) (Or.inr h3), ?_⟩, ?_⟩
    · apply head?_of_pairwise_lt (primesIn_sorted _ _)
      · rw [mem_primesIn]; exact ⟨Nat.prime_two, by omega, by omega⟩
      · intro q hq
        rw [mem_primesIn] at hq
        exact hq.1.two_le
    · apply head?_of_pairwise_lt (primesIn_sorted _ _)
      · rw [mem_primesIn]; exact ⟨Nat.prime_two, by omega, by omega⟩
      · intro q hq
        rw [mem_primesIn] at hq
        exact hq.1.two_le
  · intro hp h2 h3
    refine ⟨⟨_, initSmallPrimesVec_nil p stop h2 (Or.inr h3), ?_⟩, ?_⟩
    · apply head?_of_pairwise_lt (primesIn_sorted _ _)
      · rw [mem_primesIn]; exact ⟨hp, le_refl p, by omega⟩
      · intro q hq
        rw [mem_primesIn] at hq
        exact hq.2.1
    · apply head?_of_pairwise_lt (primesIn_sorted _ _)
      · rw [mem_primesIn]; exact ⟨hp, le_refl p, h2⟩
      · intro q hq
        rw [mem_primesIn] at hq
        exact hq.2.1
  · intro hp h1 h2
    refine ⟨_, initSmallPrimesVec_nil start p h2 (Or.inr h1), ?_⟩
    apply getLast?_of_pairwise_lt (primesIn_sorted _ _)
    · rw [mem_primesIn]; exact ⟨hp, h2, by omega⟩
    · intro q hq
      rw [mem_primesIn] at hq
      omega

/-- C8: the inclusive bounds at the end of the table.  The claim has the
sequence of `[1, 311]` begin with 2 and end with 311, the one of `[311, 311]` be
311 alone, and the one of `[2, 1000]` begin with 2; 2 and 311 are primes and
311 is the last entry of the table.  On each of the three ranges `getStopIdx`
returns 64 and the table-prefix step, which is to emit the head of the sequence
and, up to 311, its last element, subscripts `smallPrimes[64]`: it is
undefined. -/
theorem inclusive_bounds_undefined_311 :
    isPrime 2 = true ∧ isPrime 311 = true ∧ smallPrimes.getLast? = some 311 ∧
    (primesIn 1 311).head? = some 2 ∧ (primesIn 1 311).getLast? = some 311 ∧
    primesIn 311 311 = [311] ∧
    getStopIdx 311 = some 64 ∧ getStopIdx 1000 = some 64 ∧ smallPrimes[64]? = none ∧
    initSmallPrimesVec 1 311 [] = none ∧
    initSmallPrimesVec 311 311 [] = none ∧
    initSmallPrimesVec 2 1000 [] = none := by
  refine ⟨by decide!, by decide!, by decide!, ?_, ?_, ?_, by decide!, by decide!, by decide!,
    by decide!, by decide!, by decide!⟩
  · have h := tablePrimesIn_eq 1 311
    rw [show min 311 311 = 311 from rfl] at h
    rw [← h]
    decide!
  · have h := tablePrimesIn_eq 1 311
    rw [show min 311 311 = 311 from rfl] at h
    rw [← h]
    decide!
  · have h := tablePrimesIn_eq 311 311
    rw [show min 311 311 = 311 from rfl] at h
    rw [← h]
    decide!

/-- The scenario `[2, 2]`. -/
theorem initSmallPrimes_2_2 : initSmallPrimesVec 2 2 [] = some [2] := by decide!

/-! ## The registration loop and `sieveSegment()` -/

theorem registerFrame_refl (s : State) : RegisterFrame s s :=
  ⟨rfl, rfl, rfl, rfl, rfl, rfl, rfl, rfl, rfl, rfl, rfl⟩

theorem registerFrame_trans {s t u : State} (h₁ : RegisterFrame s t) (h₂ : RegisterFrame t u) :
    RegisterFrame s u :=
  ⟨h₂.start_eq.trans h₁.start_eq, h₂.stop_eq.trans h₁.stop_eq, h₂.isInit_eq.trans h₁.isInit_eq,
    h₂.finished_eq.trans h₁.finished_eq, h₂.low_eq.trans h₁.low_eq,
    h₂.sieveIdx_eq.trans h₁.sieveIdx_eq, h₂.sieveSize_eq.trans h₁.sieveSize_eq,
    h₂.sieve_eq.trans h₁.sieve_eq, h₂.pending_eq.trans h₁.pending_eq,
    h₂.tableSteps_eq.trans h₁.tableSteps_eq, h₂.eratInits_eq.trans h₁.eratInits_eq⟩

theorem registerFrame_fetch (E : Collab) (s : State) :
    RegisterFrame s (fetchSievingPrime E s) := by
  refine ⟨rfl, rfl, rfl, rfl, rfl, rfl, rfl, rfl, rfl, ?_, ?_⟩
  · simp [tableSteps, fetchSievingPrime, List.count_append]
  · simp [eratInits, fetchSievingPrime, List.filter_append]

theorem registerFrame_add (s : State) (p : Nat) :
    RegisterFrame s { s with trace := s.trace ++ [Event.addSievingPrime p] } := by
  refine ⟨rfl, rfl, rfl, rfl, rfl, rfl, rfl, rfl, rfl, ?_, ?_⟩
  · simp [tableSteps, List.count_append]
  · simp [eratInits, List.filter_append]

theorem registerLoop_frame (E : Collab) (q : Nat) :
    ∀ (fuel : Nat) (s t : State), registerLoop E q fuel s = some t → RegisterFrame s t := by
  intro fuel
  induction fuel with
  | zero =>
    intro s t h
    unfold registerLoop at h
    split at h
    · cases h
    · cases h; exact registerFrame_refl s
  | succ f ih =>
    intro s t h
    unfold registerLoop at h
    split at h
    · exact registerFrame_trans
        (registerFrame_trans (registerFrame_add s s.sievingPrime_) (registerFrame_fetch E _))
        (ih _ _ h)
    · cases h; exact registerFrame_refl s

/-- A strictly increasing generator leaves the loop within the bound. -/
theorem registerLoop_total (E : Collab) (hE : StrictMono E.nextPrime) (q : Nat) :
    ∀ (fuel : Nat) (s : State), q + 1 ≤ E.nextPrime s.generated + fuel →
      ∃ t, registerLoop E q (fuel + 1) s = some t := by
  intro fuel
  induction fuel with
  | zero =>
    intro s h
    unfold registerLoop
    by_cases hc : s.sievingPrime_ ≤ q
    · rw [if_pos hc]
      unfold registerLoop
      have : ¬ (fetchSievingPrime E
          { s with trace := s.trace ++ [Event.addSievingPrime s.sievingPrime_] }).sievingPrime_ ≤ q := by
        simp only [fetchSievingPrime]; omega
      rw [if_neg this]
      exact ⟨_, rfl⟩
    · rw [if_neg hc]; exact ⟨_, rfl⟩
  | succ f ih =>
    intro s h
    unfold registerLoop
    by_cases hc : s.sievingPrime_ ≤ q
    · rw [if_pos hc]
      apply ih
      have h1 : E.nextPrime s.generated < E.nextPrime (s.generated + 1) :=
        hE (Nat.lt_succ_self _)
      simp only [fetchSievingPrime]
      omega
    · rw [if_neg hc]; exact ⟨_, rfl⟩

theorem sieveSegment_sieved (E : Collab) (hE : StrictMono E.nextPrime) (s : State)
    (seg : Segment) (rest : List Segment) (hp : s.pending = seg :: rest) :
    ∃ t, sieveSegment E s = some t ∧ Sieved seg rest s t := by
  rcases s with ⟨st, sp, ii, fin, lo, si, cur, ss, sv, pend, gen, tr⟩
  simp only at hp
  subst hp
  simp only [sieveSegment]
  generalize hs2 : (ite (cur = 0) _ _ : State) = s2
  have hf : RegisterFrame
      ⟨st, sp, ii, fin, seg.segmentLow, 0, cur, ss, sv, seg :: rest, gen, tr⟩ s2 := by
    rw [← hs2]
    split
    · exact registerFrame_fetch E _
    · exact registerFrame_refl _
  obtain ⟨t, ht⟩ := registerLoop_total E hE (isqrt (min seg.segmentHigh sp))
    (isqrt (min seg.segmentHigh sp) + 1) s2 (by omega)
  rw [ht]
  have hf2 := registerFrame_trans hf (registerLoop_frame E _ _ _ _ ht)
  refine ⟨_, rfl, ?_⟩
  refine ⟨hf2.start_eq, hf2.stop_eq, hf2.isInit_eq, hf2.finished_eq, hf2.low_eq,
    hf2.sieveIdx_eq, rfl, rfl, rfl, ?_, ?_⟩
  · have := hf2.tableSteps_eq
    simp only [tableSteps] at this ⊢
    simp [List.count_append, this]
  · have := hf2.eratInits_eq
    simp only [eratInits] at this ⊢
    simp [List.filter_append, this]

/-! ## `init` and the boundary between table and sieve (C9) -/

theorem minStart_eq : (smallPrimesBack + 1) % U64 = 312 := by decide

theorem initSmallPrimesVec_any (start stop : Nat) (primes : List Nat) (h : start ≤ stop)
    (hd : 311 < start ∨ stop < 311) :
    initSmallPrimesVec start stop primes = some (primes ++ primesIn start (min stop 311)) := by
  by_cases h311 : start ≤ 311
  · exact initSmallPrimesVec_table start stop primes h (by omega)
  · rw [initSmallPrimesVec_skip start stop primes (by omega), primesIn_eq_nil _ _ (by omega),
      List.append_nil]

theorem initSmallPrimesBuf_any (start stop : Nat) (buf : List Nat) (size : Nat)
    (h : start ≤ stop) (hd : 311 < start ∨ stop < 311) :
    ∃ r, initSmallPrimesBuf start stop buf size = some r := by
  by_cases h311 : start ≤ 311
  · exact ⟨_, initSmallPrimesBuf_table start stop buf size h (by omega)⟩
  · exact ⟨_, initSmallPrimesBuf_skip start stop buf size (by omega)⟩

/-- The boundary between table and sieve: `init` hands `Erat::init` the range
`[max(start, 312), stop]` with `stop` unchanged; the range `[start, min(stop, 311)]`
left to the table and that range are disjoint with union `[start, stop]`, and
every value of the sieve range is `> 311` and above every value of the table
range.  The table-prefix step covers its range, emitting the primes of
`[start, min(stop, 311)]`, when `start > 311` or `stop < 311`; for
`start <= 311 <= stop` it is undefined. -/
theorem table_sieve_boundary_defined (E : Collab) (s : State) (h : s.start_ ≤ s.stop_) :
    (init E s).start_ = max s.start_ 312 ∧
    (init E s).stop_ = s.stop_ ∧
    (init E s).pending = E.segments (max s.start_ 312) s.stop_ ∧
    (init E s).trace
      = s.trace ++ [Event.eratInit (max s.start_ 312) s.stop_, Event.sievingPrimesInit] ∧
    (311 < s.start_ ∨ s.stop_ < 311 →
      initSmallPrimesVec s.start_ s.stop_ [] = some (primesIn s.start_ (min s.stop_ 311))) ∧
    (s.start_ ≤ 311 → 311 ≤ s.stop_ → initSmallPrimesVec s.start_ s.stop_ [] = none) ∧
    (∀ p, p ∈ primesIn s.start_ (min s.stop_ 311) ↔
      Nat.Prime p ∧ s.start_ ≤ p ∧ p ≤ min s.stop_ 311) ∧
    (∀ n, (s.start_ ≤ n ∧ n ≤ s.stop_) ↔
      ((s.start_ ≤ n ∧ n ≤ min s.stop_ 311) ∨ (max s.start_ 312 ≤ n ∧ n ≤ s.stop_))) ∧
    (∀ n, ¬ ((s.start_ ≤ n ∧ n ≤ min s.stop_ 311) ∧ (max s.start_ 312 ≤ n ∧ n ≤ s.stop_))) ∧
    (∀ v, max s.start_ 312 ≤ v → v ≤ s.stop_ →
      311 < v ∧ ∀ p ∈ primesIn s.start_ (min s.stop_ 311), p < v) := by
  refine ⟨?_, rfl, ?_, ?_, fun hd => initSmallPrimesVec_nil _ _ h hd,
    fun h1 h2 => initSmallPrimesVec_undefined _ _ [] h1 h2, fun p => mem_primesIn _ _ p, ?_, ?_, ?_⟩
  · simp only [init, minStart_eq]
  · simp only [init, minStart_eq]
  · simp only [init, minStart_eq]
  · intro n; omega
  · intro n; omega
  · intro v hv _
    refine ⟨by omega, fun p hp => ?_⟩
    rw [mem_primesIn] at hp
    omega

/-- The boundary on `[10, 50]` and on `[400, 500]`: all of the range is left to
the table, or all of it to the sieve. -/
theorem boundary_10_50_400_500 :
    initSmallPrimesVec 10 50 [] = some [11, 13, 17, 19, 23, 29, 31, 37, 41, 43, 47] ∧
    (init refCollab (fresh 10 50)).trace
      = [Event.eratInit 312 50, Event.sievingPrimesInit] ∧
    initSmallPrimesVec 400 500 [] = some [] ∧
    (init refCollab (fresh 400 500)).trace
      = [Event.eratInit 400 500, Event.sievingPrimesInit] := by
  decide!

/-- C9: the boundary between table and sieve on `[300, 320]`.  `init` hands
`Erat::init` the range `[312, 320]` and leaves `stop_`; the table prefix is to
cover `[300, 311]`, which holds 307 and 311, the slice `[62, 64)` of the table.
The table-prefix step forms the end of that slice as `&smallPrimes[64]`, a
subscript out of the range of the 64-entry table: it is undefined in both
overloads, and so is the first call of either `sieveSegment` overload, so that
on the code the part `[300, 311]` of the range is not covered. -/
theorem boundary_undefined_300_320 :
    (init refCollab (fresh 300 320)).start_ = 312 ∧
    (init refCollab (fresh 300 320)).stop_ = 320 ∧
    (init refCollab (fresh 300 320)).trace
      = [Event.eratInit 312 320, Event.sievingPrimesInit] ∧
    getStartIdx 300 = some 62 ∧ getStopIdx 320 = some 64 ∧ smallPrimes[64]? = none ∧
    tablePrimesIn 300 320 = [307, 311] ∧
    initSmallPrimesVec 300 320 [] = none ∧
    initSmallPrimesBuf 300 320 [0, 0] 0 = none ∧
    sieveSegmentVec refCollab (fresh 300 320) [] = none ∧
    sieveSegmentBuf refCollab (fresh 300 320) [0, 0] 0 = none := by
  decide!

/-! ## The two `sieveSegment` overloads (C10) -/

theorem tableSteps_query (s : State) : tableSteps (queryNextSegment s).2 = tableSteps s := by
  simp [tableSteps, queryNextSegment, List.count_append]

theorem eratInits_query (s : State) : eratInits (queryNextSegment s).2 = eratInits s := by
  simp [eratInits, queryNextSegment, List.filter_append]

theorem hasNextSegment_false_iff (s : State) : hasNextSegment s = false ↔ s.pending = [] := by
  cases hp : s.pending <;> simp [hasNextSegment, hp]

/-- A call of the vector overload on an initialised engine: the container is
untouched, the engine stays initialised, no table step and no `Erat::init`. -/
theorem sieveSegmentVec_later (E : Collab) (hE : StrictMono E.nextPrime) (s : State)
    (primes : List Nat) (hi : s.isInit_ = true) :
    ∃ ok t, sieveSegmentVec E s primes = some (ok, t, primes) ∧ t.isInit_ = true ∧
      t.start_ = s.start_ ∧ t.stop_ = s.stop_ ∧
      tableSteps t = tableSteps s ∧ eratInits t = eratInits s := by
  simp only [sieveSegmentVec, hi, Bool.not_true, Bool.false_eq_true, if_false]
  cases hp : s.pending with
  | nil =>
    have hq : hasNextSegment s = false := (hasNextSegment_false_iff s).mpr hp
    simp only [queryNextSegment, hq, Bool.not_false, if_true]
    refine ⟨_, _, rfl, hi, rfl, rfl, ?_, ?_⟩
    · simp [tableSteps, List.count_append]
    · simp [eratInits, List.filter_append]
  | cons seg rest =>
    have hq : hasNextSegment s = true := by simp [hasNextSegment, hp]
    obtain ⟨t, ht, hs⟩ := sieveSegment_sieved E hE (queryNextSegment s).2 seg rest
      (by simpa [queryNextSegment] using hp)
    simp only [queryNextSegment, hq, Bool.not_true, Bool.false_eq_true, if_false] at ht ⊢
    rw [ht]
    refine ⟨_, _, rfl, ?_, ?_, ?_, ?_, ?_⟩
    · rw [hs.isInit_eq]; exact hi
    · rw [hs.start_eq]; rfl
    · rw [hs.stop_eq]; rfl
    · rw [hs.tableSteps_eq]; exact tableSteps_query s
    · rw [hs.eratInits_eq]; exact eratInits_query s

/-- A call of the buffer overload on an initialised engine: the buffer is
untouched or receives the sentinel, the engine stays initialised, no table
step and no `Erat::init`. -/
theorem sieveSegmentBuf_later (E : Collab) (hE : StrictMono E.nextPrime) (s : State)
    (buf : List Nat) (size : Nat) (hi : s.isInit_ = true) :
    ∃ ok t out size1, sieveSegmentBuf E s buf size = some (ok, t, out, size1) ∧
      (out = buf ∨ out = writeBuf buf [U64 - 1]) ∧ t.isInit_ = true ∧
      t.start_ = s.start_ ∧ t.stop_ = s.stop_ ∧
      tableSteps t = tableSteps s ∧ eratInits t = eratInits s := by
  simp only [sieveSegmentBuf, hi, Bool.not_true, Bool.false_eq_true, if_false]
  cases hp : s.pending with
  | nil =>
    have hq : hasNextSegment s = false := (hasNextSegment_false_iff s).mpr hp
    simp only [queryNextSegment, hq, Bool.not_false, if_true]
    refine ⟨_, _, _, _, rfl, Or.inr rfl, hi, rfl, rfl, ?_, ?_⟩
    · simp [tableSteps, List.count_append]
    · simp [eratInits, List.filter_append]
  | cons seg rest =>
    have hq : hasNextSegment s = true := by simp [hasNextSegment, hp]
    obtain ⟨t, ht, hs⟩ := sieveSegment_sieved E hE (queryNextSegment s).2 seg rest
      (by simpa [queryNextSegment] using hp)
    simp only [queryNextSegment, hq, Bool.not_true, Bool.false_eq_true, if_false] at ht ⊢
    rw [ht]
    refine ⟨_, _, _, _, rfl, Or.inl rfl, ?_, ?_, ?_, ?_, ?_⟩
    · rw [hs.isInit_eq]; exact hi
    · rw [hs.start_eq]; rfl
    · rw [hs.stop_eq]; rfl
    · rw [hs.tableSteps_eq]; exact tableSteps_query s
    · rw [hs.eratInits_eq]; exact eratInits_query s

/-- The engine between the table-prefix step and the segment query of a first
call. -/
theorem init_counts (E : Collab) (s : State) :
    (init E { s with isInit_ := true, trace := s.trace ++ [Event.tableStep] }).isInit_ = true ∧
    tableSteps (init E { s with isInit_ := true, trace := s.trace ++ [Event.tableStep] })
      = tableSteps s + 1 ∧
    eratInits (init E { s with isInit_ := true, trace := s.trace ++ [Event.tableStep] })
      = eratInits s + 1 := by
  refine ⟨rfl, ?_, ?_⟩
  · simp [tableSteps, init, List.count_append]
  · simp [eratInits, init, List.filter_append]

/-- The first call, vector overload: the table-prefix step and `init` run once. -/
theorem sieveSegmentVec_first (E : Collab) (hE : StrictMono E.nextPrime) (s : State)
    (primes : List Nat) (hi : s.isInit_ = false) (h : s.start_ ≤ s.stop_)
    (hd : 311 < s.start_ ∨ s.stop_ < 311) :
    ∃ ok t, sieveSegmentVec E s primes
        = some (ok, t, primes ++ primesIn s.start_ (min s.stop_ 311)) ∧
      t.isInit_ = true ∧ tableSteps t = tableSteps s + 1 ∧ eratInits t = eratInits s + 1 := by
  obtain ⟨c1, c2, c3⟩ := init_counts E s
  by_cases he : (primes ++ primesIn s.start_ (min s.stop_ 311)).isEmpty = true
  · obtain ⟨ok, t, ht, h1, _, _, h2, h3⟩ := sieveSegmentVec_later E hE
      (init E { s with isInit_ := true, trace := s.trace ++ [Event.tableStep] })
      (primes ++ primesIn s.start_ (min s.stop_ 311)) c1
    refine ⟨ok, t, ?_, h1, by rw [h2, c2], by rw [h3, c3]⟩
    rw [← ht]
    simp only [sieveSegmentVec, hi, initSmallPrimesVec_any _ _ primes h hd, he, c1,
      Bool.not_false, Bool.not_true, Bool.false_eq_true, if_true, if_false]
  · refine ⟨false, _, ?_, c1, c2, c3⟩
    simp only [sieveSegmentVec, hi, initSmallPrimesVec_any _ _ primes h hd, he,
      Bool.not_false, if_true]

/-- The first call, buffer overload: the table-prefix step and `init` run once. -/
theorem sieveSegmentBuf_first (E : Collab) (hE : StrictMono E.nextPrime) (s : State)
    (buf : List Nat) (size : Nat) (hi : s.isInit_ = false) (h : s.start_ ≤ s.stop_)
    (hd : 311 < s.start_ ∨ s.stop_ < 311) :
    ∃ r, sieveSegmentBuf E s buf size = some r ∧
      r.2.1.isInit_ = true ∧ tableSteps r.2.1 = tableSteps s + 1 ∧
      eratInits r.2.1 = eratInits s + 1 := by
  obtain ⟨c1, c2, c3⟩ := init_counts E s
  obtain ⟨⟨buf1, size1⟩, hr⟩ := initSmallPrimesBuf_any s.start_ s.stop_ buf size h hd
  by_cases he : size1 > 0
  · refine ⟨(false, _, buf1, size1), ?_, c1, c2, c3⟩
    simp only [sieveSegmentBuf, hi, hr, he, Bool.not_false, if_true]
    rfl
  · obtain ⟨ok, t, out, size2, ht, _, h1, _, _, h2, h3⟩ := sieveSegmentBuf_later E hE
      (init E { s with isInit_ := true, trace := s.trace ++ [Event.tableStep] }) buf1 size1 c1
    refine ⟨(ok, t, out, size2), ?_, h1, by rw [h2, c2], by rw [h3, c3]⟩
    rw [← ht]
    simp only [sieveSegmentBuf, hi, hr, he, c1,
      Bool.not_false, Bool.not_true, Bool.false_eq_true, if_true, if_false]

theorem runCall_later (E : Collab) (hE : StrictMono E.nextPrime) (s : State) (c : Call)
    (hi : s.isInit_ = true) :
    ∃ t, runCall E s c = some t ∧ t.isInit_ = true ∧
      tableSteps t = tableSteps s ∧ eratInits t = eratInits s := by
  cases c with
  | vec primes =>
    obtain ⟨ok, t, ht, h1, _, _, h2, h3⟩ := sieveSegmentVec_later E hE s primes hi
    exact ⟨t, by simp [runCall, ht], h1, h2, h3⟩
  | buf primes size =>
    obtain ⟨ok, t, out, size1, ht, _, h1, _, _, h2, h3⟩ :=
      sieveSegmentBuf_later E hE s primes size hi
    exact ⟨t, by simp [runCall, ht], h1, h2, h3⟩

theorem runCall_first (E : Collab) (hE : StrictMono E.nextPrime) (s : State) (c : Call)
    (hi : s.isInit_ = false) (h : s.start_ ≤ s.stop_) (hd : 311 < s.start_ ∨ s.stop_ < 311) :
    ∃ t, runCall E s c = some t ∧ t.isInit_ = true ∧
      tableSteps t = tableSteps s + 1 ∧ eratInits t = eratInits s + 1 := by
  cases c with
  | vec primes =>
    obtain ⟨ok, t, ht, h1, h2, h3⟩ := sieveSegmentVec_first E hE s primes hi h hd
    exact ⟨t, by simp [runCall, ht], h1, h2, h3⟩
  | buf primes size =>
    obtain ⟨r, ht, h1, h2, h3⟩ := sieveSegmentBuf_first E hE s primes size hi h hd
    exact ⟨r.2.1, by simp [runCall, ht], h1, h2, h3⟩

theorem runCalls_later (E : Collab) (hE : StrictMono E.nextPrime) (calls : List Call) :
    ∀ s : State, s.isInit_ = true →
      ∃ t, runCalls E s calls = some t ∧ t.isInit_ = true ∧
        tableSteps t = tableSteps s ∧ eratInits t = eratInits s := by
  induction calls with
  | nil => intro s hi; exact ⟨s, rfl, hi, rfl, rfl⟩
  | cons c cs ih =>
    intro s hi
    obtain ⟨t, ht, h1, h2, h3⟩ := runCall_later E hE s c hi
    obtain ⟨u, hu, g1, g2, g3⟩ := ih t h1
    refine ⟨u, ?_, g1, g2.trans h2, g3.trans h3⟩
    simp only [runCalls, ht]
    exact hu

theorem refNextPrime_strictMono : StrictMono refNextPrime := by
  apply strictMono_nat_of_lt_succ
  intro n
  by_cases hn : n < 63
  · have hall : (List.range 63).map (fun n => decide (refNextPrime n < refNextPrime (n + 1)))
        = (List.range 63).map (fun _ => true) := by decide!
    simpa using map_range_eq_apply hall n hn
  · unfold refNextPrime
    have hlen := smallPrimes_length
    by_cases h63 : n = 63
    · subst h63; decide
    · rw [List.getD_eq_default _ _ (by omega), List.getD_eq_default _ _ (by omega)]
      omega

/-- The first call of the vector overload across the end of the table: its
table-prefix step is undefined. -/
theorem sieveSegmentVec_undefined (E : Collab) (s : State) (primes : List Nat)
    (hi : s.isInit_ = false) (h1 : s.start_ ≤ 311) (h2 : 311 ≤ s.stop_) :
    sieveSegmentVec E s primes = none := by
  simp only [sieveSegmentVec, hi, initSmallPrimesVec_undefined _ _ primes h1 h2,
    Bool.not_false, if_true]

/-- The first call of the buffer overload across the end of the table. -/
theorem sieveSegmentBuf_undefined (E : Collab) (s : State) (buf : List Nat) (size : Nat)
    (hi : s.isInit_ = false) (h1 : s.start_ ≤ 311) (h2 : 311 ≤ s.stop_) :
    sieveSegmentBuf E s buf size = none := by
  simp only [sieveSegmentBuf, hi, initSmallPrimesBuf_undefined _ _ buf size h1 h2,
    Bool.not_false, if_true]

theorem runCall_undefined (E : Collab) (s : State) (c : Call) (hi : s.isInit_ = false)
    (h1 : s.start_ ≤ 311) (h2 : 311 ≤ s.stop_) : runCall E s c = none := by
  cases c with
  | vec primes => simp [runCall, sieveSegmentVec_undefined E s primes hi h1 h2]
  | buf primes size => simp [runCall, sieveSegmentBuf_undefined E s primes size hi h1 h2]

/-- Across the end of the table no run of calls on a fresh engine gets past its
first call. -/
theorem runCalls_undefined (E : Collab) (start stop : Nat) (c : Call) (cs : List Call)
    (h1 : start ≤ 311) (h2 : 311 ≤ stop) : runCalls E (fresh start stop) (c :: cs) = none := by
  simp only [runCalls, runCall_undefined E (fresh start stop) c rfl h1 h2]

/-- The counters over a run of calls on a fresh engine whose table-prefix step
is defined. -/
theorem runCalls_counts (E : Collab) (hE : StrictMono E.nextPrime) (start stop : Nat)
    (h : start ≤ stop) (hd : 311 < start ∨ stop < 311) (calls : List Call) :
    ∃ t, runCalls E (fresh start stop) calls = some t ∧
      (calls = [] → t.isInit_ = false ∧ tableSteps t = 0 ∧ eratInits t = 0) ∧
      (calls ≠ [] → t.isInit_ = true ∧ tableSteps t = 1 ∧ eratInits t = 1 ∧
        (∀ primes, ∃ ok u, sieveSegmentVec E t primes = some (ok, u, primes) ∧
          u.isInit_ = true ∧ tableSteps u = 1 ∧ eratInits u = 1) ∧
        (∀ buf size, ∃ ok u out size1, sieveSegmentBuf E t buf size = some (ok, u, out, size1) ∧
          (out = buf ∨ out = writeBuf buf [U64 - 1]) ∧
          u.isInit_ = true ∧ tableSteps u = 1 ∧ eratInits u = 1)) := by
  cases calls with
  | nil =>
    exact ⟨fresh start stop, rfl, fun _ => ⟨rfl, rfl, rfl⟩, fun hne => absurd rfl hne⟩
  | cons c cs =>
    obtain ⟨t, ht, h1, h2, h3⟩ := runCall_first E hE (fresh start stop) c rfl h hd
    obtain ⟨u, hu, g1, g2, g3⟩ := runCalls_later E hE cs t h1
    have k2 : tableSteps u = 1 := by rw [g2, h2]; rfl
    have k3 : eratInits u = 1 := by rw [g3, h3]; rfl
    refine ⟨u, ?_, (fun hnil => by cases hnil), fun _ => ⟨g1, k2, k3, ?_, ?_⟩⟩
    · simp only [runCalls, ht]
      exact hu
    · intro primes
      obtain ⟨ok, v, hv, v1, _, _, v2, v3⟩ := sieveSegmentVec_later E hE u primes g1
      exact ⟨ok, v, hv, v1, v2.trans k2, v3.trans k3⟩
    · intro buf size
      obtain ⟨ok, v, out, size1, hv, ho, v1, _, _, v2, v3⟩ :=
        sieveSegmentBuf_later E hE u buf size g1
      exact ⟨ok, v, out, size1, hv, ho, v1, v2.trans k2, v3.trans k3⟩

/-- C10: the engine is initialised exactly once: whatever the sequence of calls
of the two `sieveSegment` overloads on a fresh engine, in every run of it the
first call sets `isInit_` and runs the table-prefix step and `Erat::init` once,
`isInit_` stays true, and no later call runs either of them or touches the
caller's output other than by the end-of-range sentinel.  Every sequence of
calls runs to its end when `start > 311` or `stop < 311`; for
`start <= 311 <= stop` the table-prefix step of the first call is undefined and
only the empty sequence has a run. -/
theorem init_exactly_once (E : Collab) (hE : StrictMono E.nextPrime) (start stop : Nat)
    (h : start ≤ stop) (calls : List Call) :
    (311 < start ∨ stop < 311 → ∃ t, runCalls E (fresh start stop) calls = some t) ∧
    ∀ t, runCalls E (fresh start stop) calls = some t →
      (calls = [] → t.isInit_ = false ∧ tableSteps t = 0 ∧ eratInits t = 0) ∧
      (calls ≠ [] → t.isInit_ = true ∧ tableSteps t = 1 ∧ eratInits t = 1 ∧
        (∀ primes, ∃ ok u, sieveSegmentVec E t primes = some (ok, u, primes) ∧
          u.isInit_ = true ∧ tableSteps u = 1 ∧ eratInits u = 1) ∧
        (∀ buf size, ∃ ok u out size1, sieveSegmentBuf E t buf size = some (ok, u, out, size1) ∧
          (out = buf ∨ out = writeBuf buf [U64 - 1]) ∧
          u.isInit_ = true ∧ tableSteps u = 1 ∧ eratInits u = 1)) := by
  refine ⟨fun hd => ?_, fun t ht => ?_⟩
  · obtain ⟨t, ht, _⟩ := runCalls_counts E hE start stop h hd calls
    exact ⟨t, ht⟩
  · by_cases hd : 311 < start ∨ stop < 311
    · obtain ⟨u, hu, hP⟩ := runCalls_counts E hE start stop h hd calls
      have htu : t = u := Option.some.inj (ht.symm.trans hu)
      rw [htu]
      exact hP
    · cases calls with
      | nil =>
        have htf : fresh start stop = t := Option.some.inj ht
        rw [← htf]
        exact ⟨fun _ => ⟨rfl, rfl, rfl⟩, fun hne => absurd rfl hne⟩
      | cons c cs =>
        rw [runCalls_undefined E start stop c cs (by omega) (by omega)] at ht
        cases ht

theorem init_exactly_once_witness :
    StrictMono refCollab.nextPrime ∧ 10 ≤ 50 ∧
    (∃ t, runCalls refCollab (fresh 10 50) [Call.vec [], Call.buf [0] 0, Call.vec [11, 13]]
        = some t) ∧
    ∀ t, runCalls refCollab (fresh 10 50) [Call.vec [], Call.buf [0] 0, Call.vec [11, 13]]
        = some t →
      t.isInit_ = true ∧ tableSteps t = 1 ∧ eratInits t = 1 ∧
      (∀ primes, ∃ ok u, sieveSegmentVec refCollab t primes = some (ok, u, primes) ∧
        u.isInit_ = true ∧ tableSteps u = 1 ∧ eratInits u = 1) ∧
      (∀ buf size, ∃ ok u out size1,
        sieveSegmentBuf refCollab t buf size = some (ok, u, out, size1) ∧
        (out = buf ∨ out = writeBuf buf [U64 - 1]) ∧
        u.isInit_ = true ∧ tableSteps u = 1 ∧ eratInits u = 1) :=
  ⟨refNextPrime_strictMono, by decide,
    (init_exactly_once refCollab refNextPrime_strictMono 10 50 (by decide)
      [Call.vec [], Call.buf [0] 0, Call.vec [11, 13]]).1 (Or.inr (by decide)),
    fun t ht => ((init_exactly_once refCollab refNextPrime_strictMono 10 50 (by decide)
      [Call.vec [], Call.buf [0] 0, Call.vec [11, 13]]).2 t ht).2 (by simp)⟩

/-- A run of three calls on `[10, 50]`, all of it in the table, and one on
`[312, 320]`, all of it in the sieve: the table step and `Erat::init` occur once,
in the first call. -/
theorem run_10_50_312_320 :
    (runCalls refCollab (fresh 10 50)
        [Call.vec [], Call.buf [0] 0, Call.vec [11, 13]]).map (fun t => t.trace)
      = some [Event.tableStep, Event.eratInit 312 50, Event.sievingPrimesInit,
          Event.hasNextSegment false, Event.hasNextSegment false] ∧
    (runCalls refCollab (fresh 312 320)
        [Call.vec [], Call.buf [0] 0, Call.vec [313, 317]]).map (fun t => t.trace)
      = some [Event.tableStep, Event.eratInit 312 320, Event.sievingPrimesInit,
          Event.hasNextSegment true, Event.nextPrime 2, Event.addSievingPrime 2,
          Event.nextPrime 3, Event.addSievingPrime 3, Event.nextPrime 5,
          Event.addSievingPrime 5, Event.nextPrime 7, Event.addSievingPrime 7,
          Event.nextPrime 11, Event.addSievingPrime 11, Event.nextPrime 13,
          Event.addSievingPrime 13, Event.nextPrime 17, Event.addSievingPrime 17,
          Event.nextPrime 19, Event.eratSieveSegment 300 546,
          Event.hasNextSegment false, Event.hasNextSegment false] := by
  refine ⟨by decide!, by decide!⟩

/-! ## Bit decoding -/

theorem filter_cons_of_first (l : List Nat) (hl : l.Pairwise (· < ·)) (p : Nat → Bool) (i : Nat)
    (hi : i ∈ l) (hpi : p i = true) (hmin : ∀ j ∈ l, j < i → p j = false) :
    l.filter p = i :: l.filter (fun j => p j && decide (j ≠ i)) := by
  induction l with
  | nil => cases hi
  | cons x xs ih =>
    rw [List.pairwise_cons] at hl
    by_cases hx : x = i
    · subst hx
      have e : xs.filter p = xs.filter (fun j => p j && decide (j ≠ x)) := by
        apply List.filter_congr
        intro j hj
        have := hl.1 j hj
        have hne : j ≠ x := by omega
        simp [hne]
      rw [List.filter_cons, if_pos hpi, e, List.filter_cons]
      simp
    · have hxi : i ∈ xs := by
        rcases List.mem_cons.mp hi with h | h
        · exact absurd h.symm hx
        · exact h
      have hlt : x < i := hl.1 i hxi
      have hpx : p x = false := hmin x (List.mem_cons_self _ _) hlt
      rw [List.filter_cons, List.filter_cons]
      simp only [hpx, Bool.false_eq_true, if_false, Bool.false_and]
      exact ih hl.2 hxi (fun j hj => hmin j (List.mem_cons_of_mem _ hj))

theorem setBits_zero : setBits 0 = [] := by
  unfold setBits
  rw [List.filter_eq_nil_iff]
  intro i _
  simp

theorem lowestSetBit_spec (bits : Nat) (h0 : bits ≠ 0) (hlt : bits < 2 ^ 64) :
    lowestSetBit bits < 64 ∧ bits.testBit (lowestSetBit bits) = true ∧
      ∀ j, j < lowestSetBit bits → bits.testBit j = false := by
  obtain ⟨k, hk⟩ := Nat.ne_zero_implies_bit_true h0
  have hk64 : k < 64 := by
    by_contra hge
    have h1 : bits < 2 ^ k :=
      lt_of_lt_of_le hlt (Nat.pow_le_pow_right (by decide) (by omega))
    rw [Nat.testBit_lt_two_pow h1] at hk
    cases hk
  cases hf : (List.range 64).find? (fun i => bits.testBit i) with
  | none =>
    rw [List.find?_range_eq_none] at hf
    have := hf k hk64
    simp [hk] at this
  | some i =>
    have hl : lowestSetBit bits = i := by simp [lowestSetBit, hf]
    rw [List.find?_range_eq_some] at hf
    rw [hl]
    refine ⟨List.mem_range.mp hf.2.1, hf.1, fun j hj => ?_⟩
    have := hf.2.2 j hj
    simpa using this

theorem setBits_clear (bits : Nat) (h0 : bits ≠ 0) (hlt : bits < 2 ^ 64) :
    setBits bits = lowestSetBit bits :: setBits (bits ^^^ 2 ^ lowestSetBit bits) := by
  obtain ⟨h1, h2, h3⟩ := lowestSetBit_spec bits h0 hlt
  unfold setBits
  rw [filter_cons_of_first (List.range 64) (List.pairwise_lt_range 64)
    (fun i => bits.testBit i) (lowestSetBit bits) (List.mem_range.mpr h1) h2
    (fun j _ hj => h3 j hj)]
  congr 1
  apply List.filter_congr
  intro j _
  rw [Nat.testBit_xor, Nat.testBit_two_pow]
  by_cases hj : j = lowestSetBit bits
  · subst hj; simp [h2]
  · have : ¬ lowestSetBit bits = j := fun h => hj h.symm
    simp [hj, this]

theorem clear_lt (bits : Nat) (h0 : bits ≠ 0) (hlt : bits < 2 ^ 64) :
    bits ^^^ 2 ^ lowestSetBit bits < 2 ^ 64 :=
  Nat.xor_lt_two_pow hlt
    (Nat.pow_lt_pow_right (by decide) (lowestSetBit_spec bits h0 hlt).1)

theorem setBits_length_le (bits : Nat) : (setBits bits).length ≤ 64 := by
  unfold setBits
  have := List.length_filter_le (fun i => bits.testBit i) (List.range 64)
  simpa using this

/-- The loop over the set bits pushes one value per set bit, in ascending bit
order, given fuel for every set bit. -/
theorem decodeWord_eq (E : Collab) (low : Nat) :
    ∀ (fuel bits : Nat), bits < 2 ^ 64 → (setBits bits).length ≤ fuel →
      decodeWord E low fuel bits = (setBits bits).map (fun i => (low + E.bitValue i) % U64) := by
  intro fuel
  induction fuel with
  | zero =>
    intro bits _ hlen
    have : setBits bits = [] := List.length_eq_zero.mp (Nat.le_zero.mp hlen)
    rw [this]; rfl
  | succ f ih =>
    intro bits hlt hlen
    unfold decodeWord
    by_cases h0 : bits = 0
    · subst h0
      rw [if_pos rfl, setBits_zero]; rfl
    · rw [if_neg h0]
      have hs := setBits_clear bits h0 hlt
      rw [hs] at hlen ⊢
      simp only [getPrime, List.map_cons]
      rw [ih _ (clear_lt bits h0 hlt) (by simpa using hlen)]

theorem decodeWord_64 (E : Collab) (low bits : Nat) (hlt : bits < 2 ^ 64) :
    decodeWord E low 64 bits = (setBits bits).map (fun i => (low + E.bitValue i) % U64) :=
  decodeWord_eq E low 64 bits hlt (setBits_length_le bits)

theorem foldr_bytes_lt (l : List Nat) :
    l.foldr (fun b acc => b % 256 + 256 * acc) 0 < 256 ^ l.length := by
  induction l with
  | nil => simp
  | cons x xs ih =>
    simp only [List.foldr_cons, List.length_cons, pow_succ]
    have := Nat.mod_lt x (show 256 > 0 by decide)
    omega

theorem readWord_lt (sieve : List Nat) (i bits : Nat) (h : readWord sieve i = some bits) :
    bits < 2 ^ 64 := by
  unfold readWord at h
  split at h
  · cases h
    have h1 := foldr_bytes_lt ((sieve.drop i).take 8)
    have h2 : ((sieve.drop i).take 8).length ≤ 8 := by
      rw [List.length_take]; exact Nat.min_le_left _ _
    calc _ < 256 ^ ((sieve.drop i).take 8).length := h1
      _ ≤ 256 ^ 8 := Nat.pow_le_pow_right (by decide) h2
      _ = 2 ^ 64 := by norm_num
  · cases h

/-! ## The loop of `fill` -/

theorem U64_eq : U64 = 18446744073709551616 := by decide

theorem segmentValues_eq (E : Collab) (seg : Segment) :
    segmentValues E seg = (List.range (wordCount seg.sieveSize)).flatMap (segmentWord E seg) :=
  rfl

theorem fill_step (E : Collab) (n : Nat) (s t : State) (primes out : List Nat)
    (hf : s.finished_ = false) (hb : fillBody E s primes = some (t, out)) :
    fill E (n + 1) s primes = fill E n t out := by
  simp only [fill, finished, hf, Bool.false_eq_true, if_false, hb]

theorem fill_done (E : Collab) (n : Nat) (s : State) (primes : List Nat)
    (hf : s.finished_ = true) : fill E n s primes = some (s, primes) := by
  cases n <;> simp [fill, finished, hf]

/-- One word of a segment: the decode step appends the values the word marks
and moves on to the next word. -/
theorem decodeStep_word (E : Collab) (seg : Segment) (rest : List Segment) (j : Nat) (s : State)
    (primes : List Nat) (hd : Decoding seg rest j s) (hok : SegmentOk E seg)
    (hj : j < wordCount seg.sieveSize) :
    ∃ t, decodeStep E s primes = some (t, primes ++ segmentWord E seg j) ∧
      Decoding seg rest (j + 1) t := by
  have hU := U64_eq
  have hsz := hok.size_le
  have hbuf := hok.buffer_ok
  have hwc : 8 * wordCount seg.sieveSize ≤ seg.sieveSize + 7 := by
    unfold wordCount; omega
  have hread : 8 * j + 8 ≤ seg.sieve.length := by omega
  obtain ⟨bits, hbits⟩ : ∃ bits, readWord seg.sieve (8 * j) = some bits := by
    unfold readWord
    rw [if_pos hread]
    exact ⟨_, rfl⟩
  have hlt := readWord_lt _ _ _ hbits
  have hvals : decodeWord E s.low_ 64 bits = segmentWord E seg j := by
    rw [decodeWord_64 E _ _ hlt, hd.low_eq]
    unfold segmentWord wordValues
    rw [hbits]
    apply List.map_congr_left
    intro i hi
    have hmem : seg.segmentLow + 240 * j + E.bitValue i ∈ segmentValues E seg := by
      rw [segmentValues_eq, List.mem_flatMap]
      refine ⟨j, List.mem_range.mpr hj, ?_⟩
      unfold segmentWord wordValues
      rw [hbits]
      exact List.mem_map.mpr ⟨i, hi, rfl⟩
    have hv := hok.values_lt _ hmem
    rw [Nat.add_mod, Nat.mod_mod, ← Nat.add_mod]
    exact Nat.mod_eq_of_lt hv
  unfold decodeStep
  rw [hd.sieve_eq, hd.sieveIdx_eq, hbits]
  simp only
  rw [hvals]
  refine ⟨_, rfl, ?_⟩
  refine ⟨hd.isInit_eq, hd.finished_eq, rfl, hd.sieveSize_eq, ?_, ?_, hd.pending_eq⟩
  · show (8 * j + 8) % U64 = 8 * (j + 1)
    rw [hU]; omega
  · show (s.low_ + 8 * 30) % U64 = (seg.segmentLow + 240 * (j + 1)) % U64
    rw [hd.low_eq, hU]; omega

theorem fillBody_word (E : Collab) (seg : Segment) (rest : List Segment) (j : Nat) (s : State)
    (primes : List Nat) (hd : Decoding seg rest j s) (hok : SegmentOk E seg)
    (hj : j < wordCount seg.sieveSize) :
    ∃ t, fillBody E s primes = some (t, primes ++ segmentWord E seg j) ∧
      Decoding seg rest (j + 1) t := by
  have hlt : ¬ s.sieveIdx_ ≥ s.sieveSize_ := by
    rw [hd.sieveIdx_eq, hd.sieveSize_eq]
    unfold wordCount at hj
    omega
  unfold fillBody
  rw [if_neg hlt]
  exact decodeStep_word E seg rest j s primes hd hok hj

theorem decoding_boundary (seg : Segment) (rest : List Segment) (s : State)
    (hd : Decoding seg rest (wordCount seg.sieveSize) s) : AtBoundary rest s := by
  refine ⟨hd.isInit_eq, hd.finished_eq, ?_, hd.pending_eq⟩
  rw [hd.sieveIdx_eq, hd.sieveSize_eq]
  unfold wordCount
  omega

/-- The remaining words of a segment, from word `j` on. -/
theorem fill_words (E : Collab) (seg : Segment) (rest : List Segment) (hok : SegmentOk E seg) :
    ∀ (k j : Nat) (s : State) (primes : List Nat), Decoding seg rest j s →
      j + k = wordCount seg.sieveSize →
      ∃ t, AtBoundary rest t ∧ ∀ n, fill E (n + k) s primes
        = fill E n t (primes ++ (List.range' j k).flatMap (segmentWord E seg)) := by
  intro k
  induction k with
  | zero =>
    intro j s primes hd hjk
    refine ⟨s, decoding_boundary seg rest s (by rw [← hjk]; exact hd), fun n => ?_⟩
    simp
  | succ k ih =>
    intro j s primes hd hjk
    obtain ⟨t, ht, hdt⟩ := fillBody_word E seg rest j s primes hd hok (by omega)
    obtain ⟨u, hu, hfill⟩ := ih (j + 1) t (primes ++ segmentWord E seg j) hdt (by omega)
    refine ⟨u, hu, fun n => ?_⟩
    rw [← Nat.add_assoc, fill_step E (n + k) s t _ _ hd.finished_eq ht, hfill n]
    simp [List.range'_succ, List.flatMap_cons, List.append_assoc]

theorem sieveSegmentVec_sieve (E : Collab) (hE : StrictMono E.nextPrime) (s : State)
    (primes : List Nat) (seg : Segment) (rest : List Segment) (hi : s.isInit_ = true)
    (hp : s.pending = seg :: rest) :
    ∃ t, sieveSegmentVec E s primes = some (true, t, primes) ∧ Sieved seg rest s t := by
  have hq : hasNextSegment s = true := by simp [hasNextSegment, hp]
  obtain ⟨t, ht, hs⟩ := sieveSegment_sieved E hE (queryNextSegment s).2 seg rest
    (by simpa [queryNextSegment] using hp)
  refine ⟨t, ?_, ?_⟩
  · simp only [sieveSegmentVec, hi, Bool.not_true, Bool.false_eq_true, if_false]
    simp only [queryNextSegment, hq, Bool.not_true, Bool.false_eq_true, if_false] at ht ⊢
    rw [ht]; rfl
  · exact ⟨hs.start_eq, hs.stop_eq, hs.isInit_eq, hs.finished_eq, hs.low_eq, hs.sieveIdx_eq,
      hs.sieveSize_eq, hs.sieve_eq, hs.pending_eq, hs.tableSteps_eq.trans (tableSteps_query s),
      hs.eratInits_eq.trans (eratInits_query s)⟩

theorem sieveSegmentVec_done (E : Collab) (s : State) (primes : List Nat)
    (hi : s.isInit_ = true) (hp : s.pending = []) :
    ∃ t, sieveSegmentVec E s primes = some (false, t, primes) ∧ t.finished_ = true := by
  have hq : hasNextSegment s = false := (hasNextSegment_false_iff s).mpr hp
  refine ⟨{ (queryNextSegment s).2 with finished_ := true }, ?_, rfl⟩
  simp only [sieveSegmentVec, hi, Bool.not_true, Bool.false_eq_true, if_false,
    queryNextSegment, hq, Bool.not_false, if_true]

/-- The turn of the loop that sieves a segment also decodes its first word. -/
theorem fillBody_segment (E : Collab) (hE : StrictMono E.nextPrime) (seg : Segment)
    (rest : List Segment) (s : State) (primes : List Nat) (hb : AtBoundary (seg :: rest) s)
    (hok : SegmentOk E seg) :
    ∃ t, fillBody E s primes = some (t, primes ++ segmentWord E seg 0) ∧
      Decoding seg rest 1 t := by
  obtain ⟨t0, ht0, hs⟩ := sieveSegmentVec_sieve E hE s primes seg rest hb.isInit_eq hb.pending_eq
  have hd0 : Decoding seg rest 0 t0 := by
    refine ⟨hs.isInit_eq.trans hb.isInit_eq, hs.finished_eq.trans hb.finished_eq, hs.sieve_eq,
      hs.sieveSize_eq, hs.sieveIdx_eq, ?_, hs.pending_eq⟩
    rw [hs.low_eq, Nat.mul_zero, Nat.add_zero, Nat.mod_eq_of_lt hok.low_lt]
  have hwc : 0 < wordCount seg.sieveSize := by
    have := hok.size_pos
    unfold wordCount; omega
  obtain ⟨t, ht, hd⟩ := decodeStep_word E seg rest 0 t0 primes hd0 hok hwc
  refine ⟨t, ?_, hd⟩
  unfold fillBody
  rw [if_pos hb.cursor, ht0]
  simp only [Bool.not_true, Bool.false_eq_true, if_false]
  exact ht

/-- From a segment boundary `fill` sieves and decodes every remaining segment
and then finishes. -/
theorem fill_segments (E : Collab) (hE : StrictMono E.nextPrime) :
    ∀ (segs : List Segment) (s : State) (primes : List Nat), AtBoundary segs s →
      (∀ seg ∈ segs, SegmentOk E seg) →
      ∃ N, ∀ fuel, N ≤ fuel →
        ∃ t, fill E fuel s primes = some (t, primes ++ segs.flatMap (segmentValues E)) ∧
          t.finished_ = true := by
  intro segs
  induction segs with
  | nil =>
    intro s primes hb _
    obtain ⟨t, ht, hfin⟩ := sieveSegmentVec_done E s primes hb.isInit_eq hb.pending_eq
    have hbody : fillBody E s primes = some (t, primes) := by
      unfold fillBody
      rw [if_pos hb.cursor, ht]
      simp
    refine ⟨1, fun fuel hfuel => ⟨t, ?_, hfin⟩⟩
    obtain ⟨n, rfl⟩ : ∃ n, fuel = n + 1 := ⟨fuel - 1, by omega⟩
    rw [fill_step E n s t _ _ hb.finished_eq hbody, fill_done E n t _ hfin]
    simp
  | cons seg rest ih =>
    intro s primes hb hok
    have hseg := hok seg (List.mem_cons_self _ _)
    obtain ⟨t1, ht1, hd1⟩ := fillBody_segment E hE seg rest s primes hb hseg
    have hwc : 0 < wordCount seg.sieveSize := by
      have := hseg.size_pos
      unfold wordCount; omega
    obtain ⟨t2, hb2, hfill⟩ := fill_words E seg rest hseg (wordCount seg.sieveSize - 1) 1 t1
      (primes ++ segmentWord E seg 0) hd1 (by omega)
    obtain ⟨N, hN⟩ := ih t2 _ hb2 (fun g hg => hok g (List.mem_cons_of_mem _ hg))
    refine ⟨N + (wordCount seg.sieveSize - 1) + 1, fun fuel hfuel => ?_⟩
    obtain ⟨n, rfl⟩ : ∃ n, fuel = n + (wordCount seg.sieveSize - 1) + 1 :=
      ⟨fuel - (wordCount seg.sieveSize - 1) - 1, by omega⟩
    obtain ⟨t, ht, hfin⟩ := hN n (by omega)
    refine ⟨t, ?_, hfin⟩
    rw [fill_step E _ s t1 _ _ hb.finished_eq ht1, hfill n, ht]
    have hsplit : segmentValues E seg
        = segmentWord E seg 0
          ++ (List.range' 1 (wordCount seg.sieveSize - 1)).flatMap (segmentWord E seg) := by
      rw [segmentValues_eq, List.range_eq_range']
      obtain ⟨m, hm⟩ : ∃ m, wordCount seg.sieveSize = m + 1 :=
        ⟨wordCount seg.sieveSize - 1, by omega⟩
      rw [hm, List.range'_succ, List.flatMap_cons]
      simp
    rw [List.flatMap_cons, hsplit]
    simp [List.append_assoc]

/-! ## The output of `fill` (C1) -/

theorem mem_wordValues (E : Collab) (base bits v : Nat) :
    v ∈ wordValues E base bits ↔ ∃ i, i < 64 ∧ bits.testBit i = true ∧ v = base + E.bitValue i := by
  unfold wordValues
  simp only [List.mem_map, List.mem_filter, List.mem_range]
  constructor
  · rintro ⟨i, ⟨h1, h2⟩, rfl⟩; exact ⟨i, h1, h2, rfl⟩
  · rintro ⟨i, h1, h2, rfl⟩; exact ⟨i, ⟨h1, h2⟩, rfl⟩

theorem wordValues_pairwise (E : Collab)
    (hmono : ∀ i j, i < j → j < 64 → E.bitValue i < E.bitValue j) (base bits : Nat) :
    (wordValues E base bits).Pairwise (· < ·) := by
  unfold wordValues
  rw [List.pairwise_map]
  have h1 : ((List.range 64).filter (fun i => bits.testBit i)).Pairwise (· < ·) :=
    List.Pairwise.filter _ (List.pairwise_lt_range 64)
  refine List.Pairwise.imp_of_mem ?_ h1
  intro a b _ hb hab
  have hb64 : b < 64 := List.mem_range.mp (List.mem_filter.mp hb).1
  have := hmono a b hab hb64
  omega

theorem bitValue_bounds (E : Collab)
    (hmono : ∀ i j, i < j → j < 64 → E.bitValue i < E.bitValue j) (i : Nat) (hi : i < 64) :
    E.bitValue 0 ≤ E.bitValue i ∧ E.bitValue i ≤ E.bitValue 63 := by
  constructor
  · by_cases h0 : i = 0
    · subst h0; exact le_refl _
    · exact Nat.le_of_lt (hmono 0 i (by omega) hi)
  · by_cases h63 : i = 63
    · subst h63; exact le_refl _
    · exact Nat.le_of_lt (hmono i 63 (by omega) (by decide))

theorem segmentValues_pairwise (E : Collab)
    (hmono : ∀ i j, i < j → j < 64 → E.bitValue i < E.bitValue j)
    (hblock : E.bitValue 63 < E.bitValue 0 + 240) (seg : Segment) :
    (segmentValues E seg).Pairwise (· < ·) := by
  rw [segmentValues_eq, List.pairwise_flatMap]
  refine ⟨fun j _ => wordValues_pairwise E hmono _ _, ?_⟩
  refine List.Pairwise.imp ?_ (List.pairwise_lt_range _)
  intro j₁ j₂ hj x hx y hy
  unfold segmentWord at hx hy
  rw [mem_wordValues] at hx hy
  obtain ⟨i₁, h1, _, rfl⟩ := hx
  obtain ⟨i₂, h2, _, rfl⟩ := hy
  have b1 := (bitValue_bounds E hmono i₁ h1).2
  have b2 := (bitValue_bounds E hmono i₂ h2).1
  omega

/-- The fresh engine after the table-prefix step and `init` of its first call. -/
theorem atBoundary_init (E : Collab) (start stop : Nat) :
    AtBoundary (E.segments (max start 312) stop)
      (init E { fresh start stop with
        isInit_ := true, trace := (fresh start stop).trace ++ [Event.tableStep] }) := by
  refine ⟨rfl, rfl, ?_, ?_⟩
  · show E.initSieveSize _ _ % U64 ≤ U64 - 1
    exact Nat.le_sub_one_of_lt (Nat.mod_lt _ (show U64 > 0 by decide))
  · show E.segments (max start ((smallPrimesBack + 1) % U64)) stop = _
    rw [minStart_eq]

/-- The first turn of the loop on a fresh engine: either the table prefix is
delivered and the turn ends, or the prefix is empty and the turn goes on as a
turn of the initialised engine. -/
theorem fill_fresh (E : Collab) (start stop : Nat) (h : start ≤ stop)
    (hd : 311 < start ∨ stop < 311) (n : Nat) :
    fill E (n + 1) (fresh start stop) []
      = fill E n (init E { fresh start stop with
          isInit_ := true, trace := (fresh start stop).trace ++ [Event.tableStep] })
          (primesIn start (min stop 311)) ∨
    fill E (n + 1) (fresh start stop) []
      = fill E (n + 1) (init E { fresh start stop with
          isInit_ := true, trace := (fresh start stop).trace ++ [Event.tableStep] })
          (primesIn start (min stop 311)) := by
  have hb := atBoundary_init E start stop
  have hT := initSmallPrimesVec_nil start stop h hd
  have hc : (fresh start stop).sieveIdx_ ≥ (fresh start stop).sieveSize_ := Nat.zero_le _
  by_cases he : (primesIn start (min stop 311)).isEmpty = true
  · right
    have hbody : fillBody E (fresh start stop) []
        = fillBody E (init E { fresh start stop with
            isInit_ := true, trace := (fresh start stop).trace ++ [Event.tableStep] })
            (primesIn start (min stop 311)) := by
      unfold fillBody
      rw [if_pos hc, if_pos hb.cursor]
      have hs : sieveSegmentVec E (fresh start stop) []
          = sieveSegmentVec E (init E { fresh start stop with
              isInit_ := true, trace := (fresh start stop).trace ++ [Event.tableStep] })
              (primesIn start (min stop 311)) := by
        have hi : (fresh start stop).isInit_ = false := rfl
        have hT2 : initSmallPrimesVec (fresh start stop).start_ (fresh start stop).stop_ []
            = some (primesIn start (min stop 311)) := hT
        conv_lhs => simp only [sieveSegmentVec, hi, hT2, he,
          Bool.not_false, Bool.not_true, Bool.false_eq_true, if_true, if_false]
        conv_rhs => simp only [sieveSegmentVec, hb.isInit_eq,
          Bool.not_true, Bool.false_eq_true, if_false]
      rw [hs]
    simp only [fill, finished]
    rw [hbody]
    simp [fresh, init]
  · left
    apply fill_step E n _ _ _ _ rfl
    unfold fillBody
    rw [if_pos hc]
    have hi : (fresh start stop).isInit_ = false := rfl
    have hT2 : initSmallPrimesVec (fresh start stop).start_ (fresh start stop).stop_ []
        = some (primesIn start (min stop 311)) := hT
    simp only [sieveSegmentVec, hi, hT2, he, Bool.not_false, if_true]

theorem segmentOk_of_contract (E : Collab) (lo stop : Nat) (hstop : stop < U64)
    (hE : EratContract E lo stop) : ∀ seg ∈ E.segments lo stop, SegmentOk E seg := by
  intro seg hseg
  obtain ⟨h1, h2, h3⟩ := hE.size_ok seg hseg
  exact ⟨h1, h2, h3, hE.buffer_ok seg hseg,
    fun v hv => lt_of_le_of_lt (hE.sound seg hseg v hv).2.2 hstop⟩

/-- The table prefix followed by the decoded segments is the list of the primes
of `[start, stop]`. -/
theorem prefix_append_segments (E : Collab) (start stop : Nat)
    (hE : EratContract E (max start 312) stop) :
    primesIn start (min stop 311) ++ (E.segments (max start 312) stop).flatMap (segmentValues E)
      = primesIn start stop := by
  apply eq_of_pairwise_lt_of_mem_iff
  · rw [List.pairwise_append]
    refine ⟨primesIn_sorted _ _, ?_, ?_⟩
    · rw [List.pairwise_flatMap]
      exact ⟨fun seg _ => segmentValues_pairwise E hE.bitValue_mono hE.bitValue_block seg,
        hE.ordered⟩
    · intro a ha b hb
      rw [mem_primesIn] at ha
      rw [List.mem_flatMap] at hb
      obtain ⟨seg, hseg, hv⟩ := hb
      have := hE.sound seg hseg b hv
      omega
  · exact primesIn_sorted _ _
  · intro p
    rw [List.mem_append, mem_primesIn, mem_primesIn, List.mem_flatMap]
    constructor
    · rintro (⟨hp, h1, h2⟩ | ⟨seg, hseg, hv⟩)
      · exact ⟨hp, h1, by omega⟩
      · have := hE.sound seg hseg p hv
        exact ⟨this.1, by omega, this.2.2⟩
    · rintro ⟨hp, h1, h2⟩
      by_cases h311 : p ≤ 311
      · exact Or.inl ⟨hp, h1, by omega⟩
      · exact Or.inr (hE.complete p hp (by omega) h2)

/-- The whole of `fill` on the ranges that do not reach across the end of the
table: for `start <= stop` with `start > 311` or `stop < 311`, `fill` on a
fresh engine with an empty container returns, with `finished()` true and the
container equal to the strictly increasing list of exactly the primes `p` with
`start <= p <= stop`, whenever the wheel sieve keeps its contract on the range
`[max(start, 312), stop]` it is handed. -/
theorem fill_primes_defined (E : Collab) (start stop : Nat) (h : start ≤ stop)
    (hd : 311 < start ∨ stop < 311) (hstop : stop < U64)
    (hE : EratContract E (max start 312) stop) :
    (∃ N, ∀ fuel, N ≤ fuel →
      ∃ t, fill E fuel (fresh start stop) [] = some (t, primesIn start stop) ∧
        t.finished_ = true) ∧
    (primesIn start stop).Pairwise (· < ·) ∧
    ∀ p, p ∈ primesIn start stop ↔ Nat.Prime p ∧ start ≤ p ∧ p ≤ stop := by
  refine ⟨?_, primesIn_sorted _ _, fun p => mem_primesIn _ _ p⟩
  obtain ⟨N, hN⟩ := fill_segments E hE.nextPrime_mono (E.segments (max start 312) stop) _
    (primesIn start (min stop 311)) (atBoundary_init E start stop)
    (segmentOk_of_contract E _ stop hstop hE)
  rw [prefix_append_segments E start stop hE] at hN
  refine ⟨N + 1, fun fuel hfuel => ?_⟩
  obtain ⟨n, rfl⟩ : ∃ n, fuel = n + 1 := ⟨fuel - 1, by omega⟩
  rcases fill_fresh E start stop h hd n with hf | hf
  · rw [hf]; exact hN n (by omega)
  · rw [hf]; exact hN (n + 1) (by omega)

/-- Across the end of the table the first turn of the loop of `fill` is
undefined: the table-prefix step of its `sieveSegment` call subscripts
`smallPrimes[64]`. -/
theorem fill_undefined (E : Collab) (start stop : Nat) (h1 : start ≤ 311) (h2 : 311 ≤ stop)
    (fuel : Nat) : fill E fuel (fresh start stop) [] = none := by
  cases fuel with
  | zero => rfl
  | succ n =>
    have hs : sieveSegmentVec E (fresh start stop) [] = none :=
      sieveSegmentVec_undefined E (fresh start stop) [] rfl h1 h2
    have hc : (fresh start stop).sieveIdx_ ≥ (fresh start stop).sieveSize_ := Nat.zero_le _
    have hb : fillBody E (fresh start stop) [] = none := by
      unfold fillBody
      rw [if_pos hc, hs]
    simp only [fill, hb]
    rfl

/-! ## The reference wheel sieve on `[312, 320]` -/

theorem refBitValue_mono : ∀ i j, i < j → j < 64 → refBitValue i < refBitValue j := by
  have h : ∀ j, j < 64 → ∀ i, i < j → refBitValue i < refBitValue j := by decide!
  exact fun i j hij hj => h j hj i hij

theorem refSegments_312_320 : refSegments 312 320 = [refSegment 312 320 300] := by decide!

theorem refValues_312_320 : segmentValues refCollab (refSegment 312 320 300) = [313, 317] := by
  decide!

theorem refContract_312_320 : EratContract refCollab 312 320 where
  bitValue_mono := refBitValue_mono
  bitValue_block := by decide!
  size_ok := by
    show ∀ seg ∈ refSegments 312 320, _
    rw [refSegments_312_320]
    decide!
  buffer_ok := by
    show ∀ seg ∈ refSegments 312 320, _
    rw [refSegments_312_320]
    decide!
  sound := by
    show ∀ seg ∈ refSegments 312 320, _
    rw [refSegments_312_320]
    intro seg hseg v hv
    rw [List.mem_singleton] at hseg
    subst hseg
    rw [refValues_312_320] at hv
    simp only [List.mem_cons, List.mem_singleton, List.not_mem_nil, or_false] at hv
    rcases hv with rfl | rfl <;> norm_num
  complete := by
    intro p hp h1 h2
    refine ⟨refSegment 312 320 300, ?_, ?_⟩
    · show _ ∈ refSegments 312 320
      rw [refSegments_312_320]; exact List.mem_singleton.mpr rfl
    · rw [refValues_312_320]
      interval_cases p <;> first | (simp; done) | (exfalso; revert hp; norm_num)
  ordered := by
    show (refSegments 312 320).Pairwise _
    rw [refSegments_312_320]
    exact List.pairwise_singleton _ _
  nextPrime_mono := refNextPrime_strictMono

/-- The whole of `fill` with the reference wheel sieve on `[312, 320]`. -/
theorem fill_primes_312_320 :
    (∃ N, ∀ fuel, N ≤ fuel →
      ∃ t, fill refCollab fuel (fresh 312 320) [] = some (t, primesIn 312 320) ∧
        t.finished_ = true) ∧
    (primesIn 312 320).Pairwise (· < ·) ∧
    ∀ p, p ∈ primesIn 312 320 ↔ Nat.Prime p ∧ 312 ≤ p ∧ p ≤ 320 :=
  fill_primes_defined refCollab 312 320 (by decide) (Or.inl (by decide)) (by decide)
    refContract_312_320

/-- The scenarios `[10, 50]`, all of it from the table, and `[312, 320]`, all of
it from the sieve: two turns of the loop each. -/
theorem fill_10_50_312_320 :
    (fill refCollab 2 (fresh 10 50) []).map (fun r => (r.1.finished_, r.2))
      = some (true, [11, 13, 17, 19, 23, 29, 31, 37, 41, 43, 47]) ∧
    (fill refCollab 3 (fresh 312 320) []).map (fun r => (r.1.finished_, r.2))
      = some (true, [313, 317]) := by
  refine ⟨by decide!, by decide!⟩

/-- C1: `fill` on `[300, 320]`, where the claim has it leave the container equal
to `[307, 311, 313, 317]`.  The first turn of the loop calls `sieveSegment`,
whose table-prefix step is to copy 307 and 311, the slice `[62, 64)` of the
table; `getStopIdx` returns 64 and the end of the copy range is formed as
`&smallPrimes[64]`, a subscript out of the range of the 64-entry table.  The
step is undefined, and with it the call and `fill`, for any sieve buffer and
however many turns are allowed. -/
theorem fill_undefined_300_320 :
    tablePrimesIn 300 320 = [307, 311] ∧
    segmentValues refCollab (refSegment 312 320 300) = [313, 317] ∧
    getStartIdx 300 = some 62 ∧ getStopIdx 320 = some 64 ∧ smallPrimes[64]? = none ∧
    initSmallPrimesVec 300 320 [] = none ∧
    sieveSegmentVec refCollab (fresh 300 320) [] = none ∧
    ∀ fuel, fill refCollab fuel (fresh 300 320) [] = none :=
  ⟨by decide!, refValues_312_320, by decide!, by decide!, by decide!, by decide!, by decide!,
    fun fuel => fill_undefined refCollab 300 320 (by decide) (by decide) fuel⟩

/-! ## The branches of the two `sieveSegment` overloads -/

theorem sieveSegmentVec_exhausted (E : Collab) (s : State) (primes : List Nat)
    (hi : s.isInit_ = true) (hp : s.pending = []) :
    sieveSegmentVec E s primes = some (false, exhaustedVec s, primes) := by
  rcases s with ⟨st, sp, ii, fin, lo, si, cur, ss, sv, pend, gen, tr⟩
  simp only at hi hp
  subst hi
  subst hp
  rfl

theorem sieveSegmentBuf_exhausted (E : Collab) (s : State) (buf : List Nat) (size : Nat)
    (hi : s.isInit_ = true) (hp : s.pending = []) :
    sieveSegmentBuf E s buf size
      = some (false, exhaustedBuf s, (U64 - 1) :: buf.drop 1, 1) := by
  rcases s with ⟨st, sp, ii, fin, lo, si, cur, ss, sv, pend, gen, tr⟩
  simp only at hi hp
  subst hi
  subst hp
  simp only [sieveSegmentBuf, queryNextSegment, hasNextSegment, List.isEmpty_nil, Bool.not_true,
    Bool.false_eq_true, if_false, Bool.not_false, if_true, writeBuf, exhaustedBuf,
    List.headD_cons, List.singleton_append, List.length_singleton, gt_iff_lt]

theorem sieveSegmentVec_more (E : Collab) (s : State) (primes : List Nat)
    (hi : s.isInit_ = true) (hp : s.pending ≠ []) :
    sieveSegmentVec E s primes
      = (sieveSegment E (queryNextSegment s).2).map (fun t => (true, t, primes)) := by
  have hq : hasNextSegment s = true := by
    cases hs : s.pending with
    | nil => exact absurd hs hp
    | cons a l => simp [hasNextSegment, hs]
  simp only [sieveSegmentVec, hi, Bool.not_true, Bool.false_eq_true, if_false,
    queryNextSegment, hq]

theorem sieveSegmentBuf_more (E : Collab) (s : State) (buf : List Nat) (size : Nat)
    (hi : s.isInit_ = true) (hp : s.pending ≠ []) :
    sieveSegmentBuf E s buf size
      = (sieveSegment E (queryNextSegment s).2).map (fun t => (true, t, buf, size)) := by
  have hq : hasNextSegment s = true := by
    cases hs : s.pending with
    | nil => exact absurd hs hp
    | cons a l => simp [hasNextSegment, hs]
  simp only [sieveSegmentBuf, hi, Bool.not_true, Bool.false_eq_true, if_false,
    queryNextSegment, hq]

theorem init_isInit (E : Collab) (s : State) : (init E (enterTableStep s)).isInit_ = true := rfl

/-- A first call of the vector overload: `none` when the table-prefix step is
undefined, the early return when the container is not empty after it, else
the call goes on as a call of the initialised engine. -/
theorem sieveSegmentVec_uninit (E : Collab) (s : State) (primes : List Nat)
    (hi : s.isInit_ = false) :
    sieveSegmentVec E s primes =
      match initSmallPrimesVec s.start_ s.stop_ primes with
      | none => none
      | some primes1 =>
        if primes1 = [] then sieveSegmentVec E (init E (enterTableStep s)) primes1
        else some (false, init E (enterTableStep s), primes1) := by
  cases hT : initSmallPrimesVec s.start_ s.stop_ primes with
  | none => simp only [sieveSegmentVec, hi, enterTableStep, hT, Bool.not_false, if_true]
  | some primes1 =>
    by_cases he : primes1 = []
    · subst he
      have h2 : sieveSegmentVec E (init E (enterTableStep s)) []
          = sieveSegmentVec E (init E (enterTableStep s)) [] := rfl
      conv_rhs => simp only [if_true, sieveSegmentVec, init_isInit,
        Bool.not_true, Bool.false_eq_true, if_false]
      simp only [sieveSegmentVec, hi, hT, Bool.not_false, if_true, List.isEmpty_nil,
        Bool.not_true, Bool.false_eq_true, if_false]
      rfl
    · have he2 : primes1.isEmpty = false := by
        cases primes1 with
        | nil => exact absurd rfl he
        | cons a l => rfl
      simp only [sieveSegmentVec, hi, hT, he, he2, Bool.not_false, if_true, if_false]
      rfl

/-- A first call of the buffer overload: `none` when the table-prefix step is
undefined, the early return when `*size > 0` after it, else the call goes on as
a call of the initialised engine. -/
theorem sieveSegmentBuf_uninit (E : Collab) (s : State) (buf : List Nat) (size : Nat)
    (hi : s.isInit_ = false) :
    sieveSegmentBuf E s buf size =
      match initSmallPrimesBuf s.start_ s.stop_ buf size with
      | none => none
      | some (buf1, size1) =>
        if size1 > 0 then some (false, init E (enterTableStep s), buf1, size1)
        else sieveSegmentBuf E (init E (enterTableStep s)) buf1 size1 := by
  cases hT : initSmallPrimesBuf s.start_ s.stop_ buf size with
  | none => simp only [sieveSegmentBuf, hi, enterTableStep, hT, Bool.not_false, if_true]
  | some r =>
    obtain ⟨buf1, size1⟩ := r
    by_cases he : size1 > 0
    · simp only [sieveSegmentBuf, hi, hT, he, Bool.not_false, if_true]
      rfl
    · conv_rhs => simp only [he, if_false, sieveSegmentBuf, init_isInit,
        Bool.not_true, Bool.false_eq_true]
      simp only [sieveSegmentBuf, hi, hT, he, Bool.not_false, if_true, if_false]
      rfl

/-! ## The end of the range in the buffer protocol (C11, C12, C13) -/

theorem sentinel_not_prime : ¬ Nat.Prime (U64 - 1) := by
  have h : U64 - 1 = 3 * 6148914691236517205 := by decide
  rw [h]
  exact Nat.not_prime_mul (by decide) (by decide)

theorem queryState_isInit (E : Collab) (s : State) : (queryState E s).isInit_ = true := by
  unfold queryState
  by_cases hi : s.isInit_ = true
  · rw [if_pos hi]; exact hi
  · rw [if_neg hi]; rfl

theorem queryState_stop (E : Collab) (s : State) : (queryState E s).stop_ = s.stop_ := by
  unfold queryState
  by_cases hi : s.isInit_ = true
  · rw [if_pos hi]
  · rw [if_neg hi]; rfl

/-- The call that finds no segment left, from either way of reaching the query. -/
theorem sieveSegmentBuf_no_segment (E : Collab) (s : State) (buf : List Nat) (size : Nat)
    (hreach : s.isInit_ = true ∨
      ∃ buf1, initSmallPrimesBuf s.start_ s.stop_ buf size = some (buf1, 0))
    (hno : (queryState E s).pending = []) :
    ∃ out, sieveSegmentBuf E s buf size
        = some (false, exhaustedBuf (queryState E s), (U64 - 1) :: out, 1) := by
  by_cases hi : s.isInit_ = true
  · have hq : queryState E s = s := by unfold queryState; rw [if_pos hi]
    rw [hq] at hno ⊢
    exact ⟨_, sieveSegmentBuf_exhausted E s buf size hi hno⟩
  · have hi2 : s.isInit_ = false := by simpa using hi
    have hq : queryState E s = init E (enterTableStep s) := by
      unfold queryState; rw [if_neg hi]
    rw [hq] at hno ⊢
    rcases hreach with h | ⟨buf1, hb⟩
    · exact absurd h hi
    · refine ⟨buf1.drop 1, ?_⟩
      rw [sieveSegmentBuf_uninit E s buf size hi2, hb]
      simp only [gt_iff_lt, Nat.lt_irrefl, if_false]
      exact sieveSegmentBuf_exhausted E _ buf1 0 rfl hno

/-- C11: whenever the buffer overload finds that no segment remains, it hands
back `*size = 1` and `primes[0] = 2^64 - 1`, returns false, records nothing but
the query (no sieve call, no registration), and leaves `finished_` equal to
`stop < 2^64 - 1`. -/
theorem sentinel_when_no_segment (E : Collab) (s : State) (buf : List Nat) (size : Nat)
    (hreach : s.isInit_ = true ∨
      ∃ buf1, initSmallPrimesBuf s.start_ s.stop_ buf size = some (buf1, 0))
    (hno : hasNextSegment (queryState E s) = false) :
    ∃ t out, sieveSegmentBuf E s buf size = some (false, t, out, 1) ∧
      out.head? = some (U64 - 1) ∧
      (t.finished_ = true ↔ s.stop_ < U64 - 1) ∧
      t.finished_ = decide (U64 - 1 > s.stop_) ∧
      t.trace = (queryState E s).trace ++ [Event.hasNextSegment false] ∧
      sieveCalls t = sieveCalls (queryState E s) ∧
      registered t = registered (queryState E s) ∧
      t.generated = (queryState E s).generated ∧
      t.pending = [] := by
  have hp := (hasNextSegment_false_iff _).mp hno
  obtain ⟨out, hout⟩ := sieveSegmentBuf_no_segment E s buf size hreach hp
  refine ⟨_, _, hout, rfl, ?_, ?_, rfl, ?_, ?_, rfl, hp⟩
  · simp [exhaustedBuf, queryState_stop]
  · simp [exhaustedBuf, queryState_stop]
  · simp [sieveCalls, exhaustedBuf, List.filter_append]
  · simp [registered, exhaustedBuf, List.filterMap_append]

theorem sentinel_when_no_segment_witness :
    ((fresh 1 1).isInit_ = true ∨
      ∃ buf1, initSmallPrimesBuf (fresh 1 1).start_ (fresh 1 1).stop_ [0, 0] 0
        = some (buf1, 0)) ∧
    hasNextSegment (queryState refCollab (fresh 1 1)) = false ∧
    ∃ t out, sieveSegmentBuf refCollab (fresh 1 1) [0, 0] 0 = some (false, t, out, 1) ∧
      out.head? = some (U64 - 1) ∧
      (t.finished_ = true ↔ (fresh 1 1).stop_ < U64 - 1) ∧
      t.finished_ = decide (U64 - 1 > (fresh 1 1).stop_) ∧
      t.trace = (queryState refCollab (fresh 1 1)).trace ++ [Event.hasNextSegment false] ∧
      sieveCalls t = sieveCalls (queryState refCollab (fresh 1 1)) ∧
      registered t = registered (queryState refCollab (fresh 1 1)) ∧
      t.generated = (queryState refCollab (fresh 1 1)).generated ∧
      t.pending = [] :=
  ⟨Or.inr ⟨[0, 0], by decide!⟩, by decide!,
    sentinel_when_no_segment refCollab (fresh 1 1) [0, 0] 0
      (Or.inr ⟨[0, 0], by decide!⟩) (by decide!)⟩

/-- The scenario `[1, 1]` in the buffer protocol: the first call hands back the
sentinel. -/
theorem sentinel_1_1 :
    (sieveSegmentBuf refCollab (fresh 1 1) [0, 0] 0).map
        (fun r => (r.1, r.2.1.finished_, r.2.1.trace, r.2.2))
      = some (false, true,
          [Event.tableStep, Event.eratInit 312 1, Event.sievingPrimesInit,
            Event.hasNextSegment false],
          [18446744073709551615, 0], 1) := by
  decide!

theorem exhaustedBuf_isInit (s : State) : (exhaustedBuf s).isInit_ = s.isInit_ := rfl

theorem exhaustedBuf_pending (s : State) : (exhaustedBuf s).pending = s.pending := rfl

/-- Calls of the buffer overload on an initialised engine with no segment left:
each hands back the sentinel and records the query alone. -/
theorem runBuf_exhausted (E : Collab) (calls : List (List Nat × Nat)) :
    ∀ u : State, u.isInit_ = true → u.pending = [] →
      ∃ t, runBuf E u calls
          = some (t, calls.map (fun c => (false, (U64 - 1) :: c.1.drop 1, 1))) ∧
        t.trace = u.trace ++ List.replicate calls.length (Event.hasNextSegment false) ∧
        t.isInit_ = true ∧ t.pending = [] ∧ t.sieve_ = u.sieve_ ∧ t.sieveSize_ = u.sieveSize_ ∧
        t.generated = u.generated ∧ t.sievingPrime_ = u.sievingPrime_ ∧ t.stop_ = u.stop_ := by
  induction calls with
  | nil =>
    intro u hi hp
    exact ⟨u, rfl, by simp, hi, hp, rfl, rfl, rfl, rfl, rfl⟩
  | cons c cs ih =>
    intro u hi hp
    obtain ⟨buf, size⟩ := c
    obtain ⟨t, ht, h1, h2, h3, h4, h5, h6, h7, h8⟩ := ih (exhaustedBuf u) hi hp
    refine ⟨t, ?_, ?_, h2, h3, h4, h5, h6, h7, h8⟩
    · simp only [runBuf, sieveSegmentBuf_exhausted E u buf size hi hp, ht, List.map_cons]
    · rw [h1]
      simp [exhaustedBuf, List.replicate_succ]

theorem sieveCalls_append_queries (tr : List Event) (n : Nat) :
    ((tr ++ List.replicate n (Event.hasNextSegment false)).filter (fun e => match e with
      | Event.eratSieveSegment _ _ => true
      | _ => false)).length
    = (tr.filter (fun e => match e with
      | Event.eratSieveSegment _ _ => true
      | _ => false)).length := by
  induction n with
  | zero => simp
  | succ n ih =>
    rw [List.replicate_succ', ← List.append_assoc, List.filter_append, List.length_append, ih]
    simp

theorem registered_append_queries (tr : List Event) (n : Nat) :
    (tr ++ List.replicate n (Event.hasNextSegment false)).filterMap (fun e => match e with
      | Event.addSievingPrime p => some p
      | _ => none)
    = tr.filterMap (fun e => match e with
      | Event.addSievingPrime p => some p
      | _ => none) := by
  induction n with
  | zero => simp
  | succ n ih =>
    rw [List.replicate_succ', ← List.append_assoc, List.filterMap_append, ih]
    simp

/-- C13: the end of the stream is absorbing in the buffer protocol: once a call
has found no segment left and handed back the sentinel, every later call again
returns false with `*size = 1` and `primes[0] = 2^64 - 1`; the later calls
record nothing but their query `hasNextSegment()`: no sieve call, no
registration, no request to the generator, the sieve buffer untouched; and the
entry they hand back is not a prime. -/
theorem end_of_stream_absorbing (E : Collab) (s : State) (buf : List Nat) (size : Nat)
    (hreach : s.isInit_ = true ∨
      ∃ buf1, initSmallPrimesBuf s.start_ s.stop_ buf size = some (buf1, 0))
    (hno : hasNextSegment (queryState E s) = false) (calls : List (List Nat × Nat)) :
    ∃ t0 out, sieveSegmentBuf E s buf size = some (false, t0, (U64 - 1) :: out, 1) ∧
      ∃ t, runBuf E t0 calls
          = some (t, calls.map (fun c => (false, (U64 - 1) :: c.1.drop 1, 1))) ∧
        t.trace = t0.trace ++ List.replicate calls.length (Event.hasNextSegment false) ∧
        sieveCalls t = sieveCalls t0 ∧ registered t = registered t0 ∧
        t.generated = t0.generated ∧ t.sievingPrime_ = t0.sievingPrime_ ∧
        t.sieve_ = t0.sieve_ ∧ t.pending = [] ∧ ¬ Nat.Prime (U64 - 1) := by
  have hp := (hasNextSegment_false_iff _).mp hno
  obtain ⟨out, hout⟩ := sieveSegmentBuf_no_segment E s buf size hreach hp
  obtain ⟨t, ht, h1, _, h3, h4, _, h6, h7, _⟩ :=
    runBuf_exhausted E calls (exhaustedBuf (queryState E s)) (queryState_isInit E s) hp
  refine ⟨_, out, hout, t, ht, h1, ?_, ?_, h6, h7, h4, h3, sentinel_not_prime⟩
  · unfold sieveCalls; rw [h1]; exact sieveCalls_append_queries _ _
  · unfold registered; rw [h1]; exact registered_append_queries _ _

theorem end_of_stream_absorbing_witness :
    ((fresh 1 1).isInit_ = true ∨
      ∃ buf1, initSmallPrimesBuf (fresh 1 1).start_ (fresh 1 1).stop_ [0, 0] 0
        = some (buf1, 0)) ∧
    hasNextSegment (queryState refCollab (fresh 1 1)) = false ∧
    ∃ t0 out, sieveSegmentBuf refCollab (fresh 1 1) [0, 0] 0
        = some (false, t0, (U64 - 1) :: out, 1) ∧
      ∃ t, runBuf refCollab t0 [([7, 7], 2), ([], 0)]
          = some (t, [([7, 7], 2), ([], 0)].map (fun c => (false, (U64 - 1) :: c.1.drop 1, 1))) ∧
        t.trace = t0.trace
          ++ List.replicate [([7, 7], 2), ([], 0)].length (Event.hasNextSegment false) ∧
        sieveCalls t = sieveCalls t0 ∧ registered t = registered t0 ∧
        t.generated = t0.generated ∧ t.sievingPrime_ = t0.sievingPrime_ ∧
        t.sieve_ = t0.sieve_ ∧ t.pending = [] ∧ ¬ Nat.Prime (U64 - 1) :=
  ⟨Or.inr ⟨[0, 0], by decide!⟩, by decide!,
    end_of_stream_absorbing refCollab (fresh 1 1) [0, 0] 0
      (Or.inr ⟨[0, 0], by decide!⟩) (by decide!) [([7, 7], 2), ([], 0)]⟩

/-- Three calls of the buffer overload on `[1, 1]`: the sentinel each time. -/
theorem sentinel_again_1_1 :
    (runBuf refCollab (fresh 1 1) [([0, 0], 0), ([7, 7], 2), ([], 0)]).map
        (fun r => (r.1.trace, r.2))
      = some ([Event.tableStep, Event.eratInit 312 1, Event.sievingPrimesInit,
            Event.hasNextSegment false, Event.hasNextSegment false,
            Event.hasNextSegment false],
          [(false, [18446744073709551615, 0], 1), (false, [18446744073709551615, 7], 1),
            (false, [18446744073709551615], 1)]) := by
  decide!

theorem init_stop (E : Collab) (s : State) : (init E (enterTableStep s)).stop_ = s.stop_ := rfl

/-- Every call returns, leaves the engine initialised and keeps `stop_`. -/
theorem runCall_stop (E : Collab) (hE : StrictMono E.nextPrime) (s : State) (c : Call)
    (h : s.isInit_ = true ∨ (s.start_ ≤ s.stop_ ∧ (311 < s.start_ ∨ s.stop_ < 311))) :
    ∃ t, runCall E s c = some t ∧ t.isInit_ = true ∧ t.stop_ = s.stop_ := by
  by_cases hi : s.isInit_ = true
  · cases c with
    | vec primes =>
      obtain ⟨ok, t, ht, h1, _, h2, _, _⟩ := sieveSegmentVec_later E hE s primes hi
      exact ⟨t, by simp [runCall, ht], h1, h2⟩
    | buf primes size =>
      obtain ⟨ok, t, out, size1, ht, _, h1, _, h2, _, _⟩ :=
        sieveSegmentBuf_later E hE s primes size hi
      exact ⟨t, by simp [runCall, ht], h1, h2⟩
  · have hi2 : s.isInit_ = false := by simpa using hi
    have hle : s.start_ ≤ s.stop_ ∧ (311 < s.start_ ∨ s.stop_ < 311) := by
      rcases h with h | h
      · exact absurd h hi
      · exact h
    obtain ⟨hle, hd⟩ := hle
    cases c with
    | vec primes =>
      simp only [runCall]
      rw [sieveSegmentVec_uninit E s primes hi2, initSmallPrimesVec_any _ _ primes hle hd]
      simp only
      split
      · obtain ⟨ok, t, ht, h1, _, h2, _, _⟩ := sieveSegmentVec_later E hE
          (init E (enterTableStep s)) (primes ++ primesIn s.start_ (min s.stop_ 311)) rfl
        exact ⟨t, by simp [ht], h1, h2⟩
      · exact ⟨_, rfl, rfl, rfl⟩
    | buf primes size =>
      simp only [runCall]
      obtain ⟨⟨buf1, size1⟩, hr⟩ := initSmallPrimesBuf_any s.start_ s.stop_ primes size hle hd
      rw [sieveSegmentBuf_uninit E s primes size hi2, hr]
      simp only
      split
      · exact ⟨_, rfl, rfl, rfl⟩
      · obtain ⟨ok, t, out, size2, ht, _, h1, _, h2, _, _⟩ := sieveSegmentBuf_later E hE
          (init E (enterTableStep s)) buf1 size1 rfl
        exact ⟨t, by simp [ht], h1, h2⟩

theorem runCalls_stop (E : Collab) (hE : StrictMono E.nextPrime) (calls : List Call) :
    ∀ s : State, (s.isInit_ = true ∨ (s.start_ ≤ s.stop_ ∧ (311 < s.start_ ∨ s.stop_ < 311))) →
      ∃ t, runCalls E s calls = some t ∧ t.stop_ = s.stop_ := by
  induction calls with
  | nil => intro s _; exact ⟨s, rfl, rfl⟩
  | cons c cs ih =>
    intro s h
    obtain ⟨t, ht, h1, h2⟩ := runCall_stop E hE s c h
    obtain ⟨u, hu, h3⟩ := ih t (Or.inl h1)
    refine ⟨u, ?_, h3.trans h2⟩
    simp only [runCalls, ht]
    exact hu

/-- A run of calls on a fresh engine keeps `stop_`. -/
theorem runCalls_fresh_stop (E : Collab) (hE : StrictMono E.nextPrime) (start stop : Nat)
    (h : start ≤ stop) (calls : List Call) (t : State)
    (ht : runCalls E (fresh start stop) calls = some t) : t.stop_ = stop := by
  by_cases hd : 311 < start ∨ stop < 311
  · obtain ⟨u, hu, hstop⟩ := runCalls_stop E hE calls (fresh start stop) (Or.inr ⟨h, hd⟩)
    have htu : t = u := Option.some.inj (ht.symm.trans hu)
    rw [htu, hstop]
    rfl
  · cases calls with
    | nil =>
      have htf : fresh start stop = t := Option.some.inj ht
      rw [← htf]
      rfl
    | cons c cs =>
      rw [runCalls_undefined E start stop c cs (by omega) (by omega)] at ht
      cases ht

/-- C12, amended: in the buffer protocol, for every range with `start <= stop`,
after every run of calls the call that finds the range exhausted hands back a
single entry equal to the sentinel, and `finished()` is true after that call
exactly when `stop < 2^64 - 1`; for `stop = 2^64 - 1` the sentinel does not
exceed `stop` and `finished()` is false.  Every sequence of calls runs to its
end when `start > 311` or `stop < 311`; for `start <= 311 <= stop` the
table-prefix step of the first call is undefined. -/
theorem finished_after_exhaustion (E : Collab) (hE : StrictMono E.nextPrime) (start stop : Nat)
    (h : start ≤ stop) (calls : List Call) :
    (311 < start ∨ stop < 311 → ∃ t, runCalls E (fresh start stop) calls = some t) ∧
    ∀ t, runCalls E (fresh start stop) calls = some t →
      ∀ buf size,
        (t.isInit_ = true ∨
          ∃ buf1, initSmallPrimesBuf t.start_ t.stop_ buf size = some (buf1, 0)) →
        hasNextSegment (queryState E t) = false →
        ∃ u out, sieveSegmentBuf E t buf size = some (false, u, (U64 - 1) :: out, 1) ∧
          (finished u = true ↔ stop < U64 - 1) ∧
          (stop = U64 - 1 → finished u = false) := by
  refine ⟨fun hd => ?_, fun t ht buf size hreach hno => ?_⟩
  · obtain ⟨t, ht, _⟩ := runCalls_stop E hE calls (fresh start stop) (Or.inr ⟨h, hd⟩)
    exact ⟨t, ht⟩
  · have hstop := runCalls_fresh_stop E hE start stop h calls t ht
    have hp := (hasNextSegment_false_iff _).mp hno
    obtain ⟨out, hout⟩ := sieveSegmentBuf_no_segment E t buf size hreach hp
    have hs : (queryState E t).stop_ = stop := by
      rw [queryState_stop, hstop]
    refine ⟨_, out, hout, ?_, ?_⟩
    · simp [finished, exhaustedBuf, hs]
    · intro he
      simp [finished, exhaustedBuf, hs, he]

theorem finished_after_exhaustion_witness :
    StrictMono refCollab.nextPrime ∧ 1 ≤ 1 ∧
    (∃ t, runCalls refCollab (fresh 1 1) [Call.buf [0, 0] 0] = some t) ∧
    ∀ t, runCalls refCollab (fresh 1 1) [Call.buf [0, 0] 0] = some t →
      ∀ buf size,
        (t.isInit_ = true ∨
          ∃ buf1, initSmallPrimesBuf t.start_ t.stop_ buf size = some (buf1, 0)) →
        hasNextSegment (queryState refCollab t) = false →
        ∃ u out, sieveSegmentBuf refCollab t buf size = some (false, u, (U64 - 1) :: out, 1) ∧
          (finished u = true ↔ 1 < U64 - 1) ∧
          (1 = U64 - 1 → finished u = false) :=
  ⟨refNextPrime_strictMono, by decide,
    (finished_after_exhaustion refCollab refNextPrime_strictMono 1 1 (by decide)
      [Call.buf [0, 0] 0]).1 (Or.inr (by decide)),
    (finished_after_exhaustion refCollab refNextPrime_strictMono 1 1 (by decide)
      [Call.buf [0, 0] 0]).2⟩

theorem refSegments_max : ∃ seg, refSegments (U64 - 1) (U64 - 1) = [seg] := by
  refine ⟨refSegment (U64 - 1) (U64 - 1) (U64 - 16), ?_⟩
  decide!

/-- C12 fails at `stop = 2^64 - 1`: on the range `[2^64 - 1, 2^64 - 1]` the first
call of the buffer overload sieves the only segment, the second finds the
range exhausted and hands back the single sentinel, and `finished()` is false
after it. -/
theorem not_finished_at_max_stop :
    (U64 - 1 ≤ U64 - 1) ∧
    ∃ t1 t2, sieveSegmentBuf refCollab (fresh (U64 - 1) (U64 - 1)) [0] 0
        = some (true, t1, [0], 0) ∧
      hasNextSegment t1 = false ∧
      sieveSegmentBuf refCollab t1 [0] 0 = some (false, t2, [U64 - 1], 1) ∧
      finished t2 = false := by
  refine ⟨le_refl _, ?_⟩
  obtain ⟨seg, hseg⟩ := refSegments_max
  have hi : (fresh (U64 - 1) (U64 - 1)).isInit_ = false := rfl
  have hT : initSmallPrimesBuf (fresh (U64 - 1) (U64 - 1)).start_
      (fresh (U64 - 1) (U64 - 1)).stop_ [0] 0 = some ([0], 0) :=
    initSmallPrimesBuf_skip _ _ _ _ (by decide)
  have hpend : (init refCollab (enterTableStep (fresh (U64 - 1) (U64 - 1)))).pending
      = [seg] := by
    rw [← hseg]
    simp only [init, enterTableStep, fresh, minStart_eq, refCollab]
    congr 1
  obtain ⟨t1, ht1, hs⟩ := sieveSegment_sieved refCollab refNextPrime_strictMono
    (queryNextSegment (init refCollab (enterTableStep (fresh (U64 - 1) (U64 - 1))))).2 seg []
    (by simpa [queryNextSegment] using hpend)
  have hcall : sieveSegmentBuf refCollab (fresh (U64 - 1) (U64 - 1)) [0] 0
      = some (true, t1, [0], 0) := by
    rw [sieveSegmentBuf_uninit _ _ _ _ hi, hT]
    simp only [gt_iff_lt, Nat.lt_irrefl, if_false]
    rw [sieveSegmentBuf_more _ _ _ _ rfl (by rw [hpend]; simp), ht1]
    rfl
  have hi1 : t1.isInit_ = true := by rw [hs.isInit_eq]; rfl
  have hstop : t1.stop_ = U64 - 1 := by rw [hs.stop_eq]; rfl
  refine ⟨t1, exhaustedBuf t1, hcall, (hasNextSegment_false_iff _).mpr hs.pending_eq, ?_, ?_⟩
  · rw [sieveSegmentBuf_exhausted _ _ _ _ hi1 hs.pending_eq]
    rfl
  · simp [finished, exhaustedBuf, hstop]

/-! ## The `bool` result of the two overloads (C14) -/

theorem sieveCalls_fetch (E : Collab) (s : State) :
    sieveCalls (fetchSievingPrime E s) = sieveCalls s := by
  simp [sieveCalls, fetchSievingPrime, List.filter_append]

theorem sieveCalls_add (s : State) (p : Nat) :
    sieveCalls { s with trace := s.trace ++ [Event.addSievingPrime p] } = sieveCalls s := by
  simp [sieveCalls, List.filter_append]

theorem registerLoop_sieveCalls (E : Collab) (q : Nat) :
    ∀ (fuel : Nat) (s t : State), registerLoop E q fuel s = some t →
      sieveCalls t = sieveCalls s := by
  intro fuel
  induction fuel with
  | zero =>
    intro s t h
    unfold registerLoop at h
    split at h
    · cases h
    · cases h; rfl
  | succ f ih =>
    intro s t h
    unfold registerLoop at h
    split at h
    · rw [ih _ _ h, sieveCalls_fetch, sieveCalls_add]
    · cases h; rfl

/-- A return of `sieveSegment()` is one more call of `Erat::sieveSegment()`. -/
theorem sieveSegment_sieveCalls (E : Collab) (s t : State) (h : sieveSegment E s = some t) :
    sieveCalls t = sieveCalls s + 1 := by
  rcases s with ⟨st, sp, ii, fin, lo, si, cur, ss, sv, pend, gen, tr⟩
  cases pend with
  | nil => simp [sieveSegment] at h
  | cons seg rest =>
    simp only [sieveSegment] at h
    generalize hs2 : (ite (cur = 0) _ _ : State) = s2 at h
    have h2 : sieveCalls s2 = sieveCalls ⟨st, sp, ii, fin, lo, si, cur, ss, sv, seg :: rest, gen, tr⟩ := by
      rw [← hs2]
      split
      · rw [sieveCalls_fetch]; rfl
      · rfl
    cases hr : registerLoop E (isqrt (min seg.segmentHigh sp))
        (isqrt (min seg.segmentHigh sp) + 2) s2 with
    | none => rw [hr] at h; cases h
    | some s3 =>
      rw [hr] at h
      cases h
      have h3 := registerLoop_sieveCalls E _ _ _ _ hr
      simp only [sieveCalls] at h2 h3 ⊢
      simp [List.filter_append, h3, h2]

theorem sieveCalls_query (s : State) : sieveCalls (queryNextSegment s).2 = sieveCalls s := by
  simp [sieveCalls, queryNextSegment, List.filter_append]

theorem sieveCalls_init (E : Collab) (s : State) :
    sieveCalls (init E (enterTableStep s)) = sieveCalls s := by
  simp [sieveCalls, init, enterTableStep, List.filter_append]

theorem sieveCalls_exhaustedVec (s : State) : sieveCalls (exhaustedVec s) = sieveCalls s := by
  simp [sieveCalls, exhaustedVec, List.filter_append]

theorem sieveCalls_exhaustedBuf (s : State) : sieveCalls (exhaustedBuf s) = sieveCalls s := by
  simp [sieveCalls, exhaustedBuf, List.filter_append]

/-- The vector overload on an initialised engine: true with one more sieve
call, or false with none when no segment remains; the container is untouched. -/
theorem sieveSegmentVec_init_result (E : Collab) (hE : StrictMono E.nextPrime) (s : State)
    (primes : List Nat) (hi : s.isInit_ = true) :
    ∃ ok t, sieveSegmentVec E s primes = some (ok, t, primes) ∧
      (ok = true → sieveCalls t = sieveCalls s + 1) ∧
      (ok = false → sieveCalls t = sieveCalls s ∧ hasNextSegment s = false) := by
  cases hp : s.pending with
  | nil =>
    refine ⟨false, _, sieveSegmentVec_exhausted E s primes hi hp, (fun h => by cases h),
      fun _ => ⟨sieveCalls_exhaustedVec s, (hasNextSegment_false_iff s).mpr hp⟩⟩
  | cons seg rest =>
    obtain ⟨t, ht, _⟩ := sieveSegment_sieved E hE (queryNextSegment s).2 seg rest
      (by simpa [queryNextSegment] using hp)
    refine ⟨true, t, ?_, fun _ => ?_, (fun h => by cases h)⟩
    · rw [sieveSegmentVec_more E s primes hi (by rw [hp]; simp), ht]; rfl
    · rw [sieveSegment_sieveCalls E _ _ ht, sieveCalls_query]

/-- The buffer overload on an initialised engine: true with one more sieve
call and the caller's output untouched, or false with none when no segment
remains. -/
theorem sieveSegmentBuf_init_result (E : Collab) (hE : StrictMono E.nextPrime) (s : State)
    (buf : List Nat) (size : Nat) (hi : s.isInit_ = true) :
    ∃ ok t out size1, sieveSegmentBuf E s buf size = some (ok, t, out, size1) ∧
      (ok = true → sieveCalls t = sieveCalls s + 1 ∧ out = buf ∧ size1 = size) ∧
      (ok = false → sieveCalls t = sieveCalls s ∧ hasNextSegment s = false) := by
  cases hp : s.pending with
  | nil =>
    refine ⟨false, _, _, _, sieveSegmentBuf_exhausted E s buf size hi hp, (fun h => by cases h),
      fun _ => ⟨sieveCalls_exhaustedBuf s, (hasNextSegment_false_iff s).mpr hp⟩⟩
  | cons seg rest =>
    obtain ⟨t, ht, _⟩ := sieveSegment_sieved E hE (queryNextSegment s).2 seg rest
      (by simpa [queryNextSegment] using hp)
    refine ⟨true, t, buf, size, ?_, fun _ => ⟨?_, rfl, rfl⟩, (fun h => by cases h)⟩
    · rw [sieveSegmentBuf_more E s buf size hi (by rw [hp]; simp), ht]; rfl
    · rw [sieveSegment_sieveCalls E _ _ ht, sieveCalls_query]

theorem queryState_of_init (E : Collab) (s : State) (hi : s.isInit_ = true) :
    queryState E s = s := by
  unfold queryState; rw [if_pos hi]

theorem queryState_of_uninit (E : Collab) (s : State) (hi : s.isInit_ = false) :
    queryState E s = init E (enterTableStep s) := by
  unfold queryState; rw [hi]; rfl

/-- The `bool` result of the vector overload. -/
theorem sieveSegmentVec_result (E : Collab) (hE : StrictMono E.nextPrime) (s : State)
    (h : s.isInit_ = true ∨ (s.start_ ≤ s.stop_ ∧ (311 < s.start_ ∨ s.stop_ < 311)))
    (primes : List Nat) :
    ∃ ok t out, sieveSegmentVec E s primes = some (ok, t, out) ∧
      (ok = true → sieveCalls t = sieveCalls s + 1) ∧
      (ok = false → sieveCalls t = sieveCalls s) ∧
      (ok = false → hasNextSegment (queryState E s) = false ∨
        (s.isInit_ = false ∧ out ≠ [] ∧
          (primes ≠ [] ∨ primesIn s.start_ (min s.stop_ 311) ≠ []))) := by
  by_cases hi : s.isInit_ = true
  · obtain ⟨ok, t, ht, h1, h2⟩ := sieveSegmentVec_init_result E hE s primes hi
    refine ⟨ok, t, primes, ht, h1, fun hf => (h2 hf).1, fun hf => Or.inl ?_⟩
    rw [queryState_of_init E s hi]; exact (h2 hf).2
  · have hi2 : s.isInit_ = false := by simpa using hi
    have hle : s.start_ ≤ s.stop_ ∧ (311 < s.start_ ∨ s.stop_ < 311) := by
      rcases h with h | h
      · exact absurd h hi
      · exact h
    obtain ⟨hle, hd⟩ := hle
    rw [sieveSegmentVec_uninit E s primes hi2, initSmallPrimesVec_any _ _ primes hle hd,
      queryState_of_uninit E s hi2]
    simp only
    by_cases he : primes ++ primesIn s.start_ (min s.stop_ 311) = []
    · rw [if_pos he]
      obtain ⟨ok, t, ht, h1, h2⟩ := sieveSegmentVec_init_result E hE
        (init E (enterTableStep s)) (primes ++ primesIn s.start_ (min s.stop_ 311)) rfl
      refine ⟨ok, t, _, ht, fun hf => ?_, fun hf => ?_, fun hf => Or.inl (h2 hf).2⟩
      · rw [h1 hf, sieveCalls_init]
      · rw [(h2 hf).1, sieveCalls_init]
    · rw [if_neg he]
      refine ⟨false, _, _, rfl, (fun hf => by cases hf), fun _ => sieveCalls_init E s,
        fun _ => Or.inr ⟨hi2, he, ?_⟩⟩
      by_contra hcon
      rw [not_or, not_not, not_not] at hcon
      exact he (by rw [hcon.1, hcon.2]; rfl)

/-- The `bool` result of the buffer overload. -/
theorem sieveSegmentBuf_result (E : Collab) (hE : StrictMono E.nextPrime) (s : State)
    (h : s.isInit_ = true ∨ (s.start_ ≤ s.stop_ ∧ (311 < s.start_ ∨ s.stop_ < 311)))
    (buf : List Nat) (size : Nat) :
    ∃ ok t out size1, sieveSegmentBuf E s buf size = some (ok, t, out, size1) ∧
      (ok = true → sieveCalls t = sieveCalls s + 1) ∧
      (ok = false → sieveCalls t = sieveCalls s) ∧
      (ok = false → hasNextSegment (queryState E s) = false ∨
        (s.isInit_ = false ∧ size1 > 0 ∧
          ((s.start_ ≤ 311 ∧ primesIn s.start_ (min s.stop_ 311) ≠ []) ∨
            (311 < s.start_ ∧ size > 0)))) := by
  by_cases hi : s.isInit_ = true
  · obtain ⟨ok, t, out, size1, ht, h1, h2⟩ := sieveSegmentBuf_init_result E hE s buf size hi
    refine ⟨ok, t, out, size1, ht, fun hf => (h1 hf).1, fun hf => (h2 hf).1,
      fun hf => Or.inl ?_⟩
    rw [queryState_of_init E s hi]; exact (h2 hf).2
  · have hi2 : s.isInit_ = false := by simpa using hi
    have hle : s.start_ ≤ s.stop_ ∧ (311 < s.start_ ∨ s.stop_ < 311) := by
      rcases h with h | h
      · exact absurd h hi
      · exact h
    obtain ⟨hle, hd⟩ := hle
    have hT : ∃ buf1 size1, initSmallPrimesBuf s.start_ s.stop_ buf size = some (buf1, size1) ∧
        (size1 > 0 → (s.start_ ≤ 311 ∧ primesIn s.start_ (min s.stop_ 311) ≠ []) ∨
          (311 < s.start_ ∧ size > 0)) := by
      by_cases h311 : s.start_ ≤ 311
      · refine ⟨_, _, initSmallPrimesBuf_table _ _ buf size hle (by omega),
          fun hpos => Or.inl ⟨h311, ?_⟩⟩
        intro hnil
        rw [hnil] at hpos
        exact absurd hpos (by simp)
      · exact ⟨_, _, initSmallPrimesBuf_skip _ _ buf size (by omega),
          fun hpos => Or.inr ⟨by omega, hpos⟩⟩
    obtain ⟨buf1, size1, hr, hpos⟩ := hT
    rw [sieveSegmentBuf_uninit E s buf size hi2, hr, queryState_of_uninit E s hi2]
    simp only
    by_cases he : size1 > 0
    · rw [if_pos he]
      exact ⟨false, _, _, _, rfl, (fun hf => by cases hf), fun _ => sieveCalls_init E s,
        fun _ => Or.inr ⟨hi2, he, hpos he⟩⟩
    · rw [if_neg he]
      obtain ⟨ok, t, out, size2, ht, h1, h2⟩ := sieveSegmentBuf_init_result E hE
        (init E (enterTableStep s)) buf1 size1 rfl
      refine ⟨ok, t, out, size2, ht, fun hf => ?_, fun hf => ?_, fun hf => Or.inl (h2 hf).2⟩
      · rw [(h1 hf).1, sieveCalls_init]
      · rw [(h2 hf).1, sieveCalls_init]

/-- The `bool` result of the two overloads, on an initialised engine and in a
first call whose table-prefix step is defined. -/
theorem result_of_defined_call (E : Collab) (hE : StrictMono E.nextPrime) (s : State)
    (h : s.isInit_ = true ∨ (s.start_ ≤ s.stop_ ∧ (311 < s.start_ ∨ s.stop_ < 311)))
    (primes buf : List Nat) (size : Nat) :
    (∃ ok t out, sieveSegmentVec E s primes = some (ok, t, out) ∧
      (ok = true ↔ sieveCalls t = sieveCalls s + 1) ∧
      (ok = false ↔ sieveCalls t = sieveCalls s) ∧
      (ok = false → hasNextSegment (queryState E s) = false ∨
        (s.isInit_ = false ∧ out ≠ [] ∧
          (primes ≠ [] ∨ primesIn s.start_ (min s.stop_ 311) ≠ []))) ∧
      (primes = [] → ok = false → hasNextSegment (queryState E s) = false ∨
        (s.isInit_ = false ∧ primesIn s.start_ (min s.stop_ 311) ≠ []))) ∧
    (∃ ok t out size1, sieveSegmentBuf E s buf size = some (ok, t, out, size1) ∧
      (ok = true ↔ sieveCalls t = sieveCalls s + 1) ∧
      (ok = false ↔ sieveCalls t = sieveCalls s) ∧
      (ok = false → hasNextSegment (queryState E s) = false ∨
        (s.isInit_ = false ∧ size1 > 0 ∧
          ((s.start_ ≤ 311 ∧ primesIn s.start_ (min s.stop_ 311) ≠ []) ∨
            (311 < s.start_ ∧ size > 0)))) ∧
      (size = 0 ∨ s.start_ ≤ 311 → ok = false → hasNextSegment (queryState E s) = false ∨
        (s.isInit_ = false ∧ primesIn s.start_ (min s.stop_ 311) ≠ []))) := by
  constructor
  · obtain ⟨ok, t, out, ht, h1, h2, h3⟩ := sieveSegmentVec_result E hE s h primes
    refine ⟨ok, t, out, ht, ⟨h1, fun hc => ?_⟩, ⟨h2, fun hc => ?_⟩, h3, fun hp hf => ?_⟩
    · cases ok with
      | true => rfl
      | false => have := h2 rfl; omega
    · cases ok with
      | false => rfl
      | true => have := h1 rfl; omega
    · rcases h3 hf with h4 | ⟨h4, _, h5 | h5⟩
      · exact Or.inl h4
      · exact absurd hp h5
      · exact Or.inr ⟨h4, h5⟩
  · obtain ⟨ok, t, out, size1, ht, h1, h2, h3⟩ := sieveSegmentBuf_result E hE s h buf size
    refine ⟨ok, t, out, size1, ht, ⟨h1, fun hc => ?_⟩, ⟨h2, fun hc => ?_⟩, h3,
      fun hp hf => ?_⟩
    · cases ok with
      | true => rfl
      | false => have := h2 rfl; omega
    · cases ok with
      | false => rfl
      | true => have := h1 rfl; omega
    · rcases h3 hf with h4 | ⟨h4, _, h5 | h5⟩
      · exact Or.inl h4
      · exact Or.inr ⟨h4, h5.2⟩
      · rcases hp with hp | hp
        · omega
        · omega

/-- C14, amended: in both protocols a `sieveSegment` call returns true exactly
when it sieved a new segment, and returns false only when no segment remains
or it is the first call and the caller's output is not empty after the
table-prefix step (a non-empty container, `*size > 0`).  For an empty incoming
container, and for an incoming `*size` of 0 or `start <= 311`, that is when the
table-prefix step of this call emitted at least one prime.  The call returns on
an initialised engine and, as a first call, when `start > 311` or `stop < 311`;
a first call with `start <= 311 <= stop` is undefined in its table-prefix
step. -/
theorem bool_result (E : Collab) (hE : StrictMono E.nextPrime) (s : State)
    (h : s.isInit_ = true ∨ s.start_ ≤ s.stop_) (primes buf : List Nat) (size : Nat) :
    (s.isInit_ = true ∨ 311 < s.start_ ∨ s.stop_ < 311 →
      (∃ r, sieveSegmentVec E s primes = some r) ∧
      (∃ r, sieveSegmentBuf E s buf size = some r)) ∧
    (∀ ok t out, sieveSegmentVec E s primes = some (ok, t, out) →
      (ok = true ↔ sieveCalls t = sieveCalls s + 1) ∧
      (ok = false ↔ sieveCalls t = sieveCalls s) ∧
      (ok = false → hasNextSegment (queryState E s) = false ∨
        (s.isInit_ = false ∧ out ≠ [] ∧
          (primes ≠ [] ∨ primesIn s.start_ (min s.stop_ 311) ≠ []))) ∧
      (primes = [] → ok = false → hasNextSegment (queryState E s) = false ∨
        (s.isInit_ = false ∧ primesIn s.start_ (min s.stop_ 311) ≠ []))) ∧
    (∀ ok t out size1, sieveSegmentBuf E s buf size = some (ok, t, out, size1) →
      (ok = true ↔ sieveCalls t = sieveCalls s + 1) ∧
      (ok = false ↔ sieveCalls t = sieveCalls s) ∧
      (ok = false → hasNextSegment (queryState E s) = false ∨
        (s.isInit_ = false ∧ size1 > 0 ∧
          ((s.start_ ≤ 311 ∧ primesIn s.start_ (min s.stop_ 311) ≠ []) ∨
            (311 < s.start_ ∧ size > 0)))) ∧
      (size = 0 ∨ s.start_ ≤ 311 → ok = false → hasNextSegment (queryState E s) = false ∨
        (s.isInit_ = false ∧ primesIn s.start_ (min s.stop_ 311) ≠ []))) := by
  by_cases hd : s.isInit_ = true ∨ 311 < s.start_ ∨ s.stop_ < 311
  · have h2 : s.isInit_ = true ∨ (s.start_ ≤ s.stop_ ∧ (311 < s.start_ ∨ s.stop_ < 311)) := by
      rcases hd with hd | hd
      · exact Or.inl hd
      · rcases h with h | h
        · exact Or.inl h
        · exact Or.inr ⟨h, hd⟩
    obtain ⟨⟨ok1, t1, out1, hv, hv1, hv2, hv3, hv4⟩, ⟨ok2, t2, out2, size2, hb, hb1, hb2, hb3, hb4⟩⟩ :=
      result_of_defined_call E hE s h2 primes buf size
    refine ⟨fun _ => ⟨⟨_, hv⟩, ⟨_, hb⟩⟩, fun ok t out hr => ?_, fun ok t out size1 hr => ?_⟩
    · have he := Option.some.inj (hr.symm.trans hv)
      simp only [Prod.mk.injEq] at he
      obtain ⟨e1, e2, e3⟩ := he
      subst e1 e2 e3
      exact ⟨hv1, hv2, hv3, hv4⟩
    · have he := Option.some.inj (hr.symm.trans hb)
      simp only [Prod.mk.injEq] at he
      obtain ⟨e1, e2, e3, e4⟩ := he
      subst e1 e2 e3 e4
      exact ⟨hb1, hb2, hb3, hb4⟩
  · have hi : s.isInit_ = false := by
      cases hs : s.isInit_ with
      | true => exact absurd (Or.inl hs) hd
      | false => rfl
    have h1 : s.start_ ≤ 311 := by
      by_contra hc
      exact hd (Or.inr (Or.inl (by omega)))
    have h2 : 311 ≤ s.stop_ := by
      by_contra hc
      exact hd (Or.inr (Or.inr (by omega)))
    refine ⟨fun hd2 => absurd hd2 hd, fun ok t out hr => ?_, fun ok t out size1 hr => ?_⟩
    · rw [sieveSegmentVec_undefined E s primes hi h1 h2] at hr
      cases hr
    · rw [sieveSegmentBuf_undefined E s buf size hi h1 h2] at hr
      cases hr

theorem bool_result_witness :
    StrictMono refCollab.nextPrime ∧
    ((fresh 10 50).isInit_ = true ∨ (fresh 10 50).start_ ≤ (fresh 10 50).stop_) ∧
    ((∃ r, sieveSegmentVec refCollab (fresh 10 50) [] = some r) ∧
      (∃ r, sieveSegmentBuf refCollab (fresh 10 50) [0, 0] 0 = some r)) ∧
    (∀ ok t out, sieveSegmentVec refCollab (fresh 10 50) [] = some (ok, t, out) →
      (ok = true ↔ sieveCalls t = sieveCalls (fresh 10 50) + 1) ∧
      (ok = false ↔ sieveCalls t = sieveCalls (fresh 10 50)) ∧
      (ok = false → hasNextSegment (queryState refCollab (fresh 10 50)) = false ∨
        ((fresh 10 50).isInit_ = false ∧ out ≠ [] ∧
          (([] : List Nat) ≠ [] ∨
            primesIn (fresh 10 50).start_ (min (fresh 10 50).stop_ 311) ≠ []))) ∧
      (([] : List Nat) = [] → ok = false →
        hasNextSegment (queryState refCollab (fresh 10 50)) = false ∨
        ((fresh 10 50).isInit_ = false ∧
          primesIn (fresh 10 50).start_ (min (fresh 10 50).stop_ 311) ≠ []))) ∧
    (∀ ok t out size1,
      sieveSegmentBuf refCollab (fresh 10 50) [0, 0] 0 = some (ok, t, out, size1) →
      (ok = true ↔ sieveCalls t = sieveCalls (fresh 10 50) + 1) ∧
      (ok = false ↔ sieveCalls t = sieveCalls (fresh 10 50)) ∧
      (ok = false → hasNextSegment (queryState refCollab (fresh 10 50)) = false ∨
        ((fresh 10 50).isInit_ = false ∧ size1 > 0 ∧
          (((fresh 10 50).start_ ≤ 311 ∧
              primesIn (fresh 10 50).start_ (min (fresh 10 50).stop_ 311) ≠ []) ∨
            (311 < (fresh 10 50).start_ ∧ 0 > 0)))) ∧
      (0 = 0 ∨ (fresh 10 50).start_ ≤ 311 → ok = false →
        hasNextSegment (queryState refCollab (fresh 10 50)) = false ∨
        ((fresh 10 50).isInit_ = false ∧
          primesIn (fresh 10 50).start_ (min (fresh 10 50).stop_ 311) ≠ []))) :=
  ⟨refNextPrime_strictMono, Or.inr (by decide),
    (bool_result refCollab refNextPrime_strictMono (fresh 10 50) (Or.inr (by decide))
      [] [0, 0] 0).1 (Or.inr (Or.inr (by decide))),
    (bool_result refCollab refNextPrime_strictMono (fresh 10 50) (Or.inr (by decide))
      [] [0, 0] 0).2⟩

/-- The `bool` result of a first call on `[10, 50]`, which the table answers, and
on `[312, 320]`, which the sieve answers. -/
theorem bool_10_50_312_320 :
    (sieveSegmentVec refCollab (fresh 10 50) []).map (fun r => (r.1, sieveCalls r.2.1, r.2.2))
      = some (false, 0, [11, 13, 17, 19, 23, 29, 31, 37, 41, 43, 47]) ∧
    (sieveSegmentVec refCollab (fresh 312 320) []).map (fun r => (r.1, sieveCalls r.2.1, r.2.2))
      = some (true, 1, []) := by
  refine ⟨by decide!, by decide!⟩

/-- C14 fails for a caller's output that is not empty: on `[400, 500]` the first
call returns false although a segment remains and the table-prefix step emits
nothing, in the vector overload with the container `[7]` handed in and in the
buffer overload with `*size = 5` handed in. -/
theorem false_without_table_primes :
    initSmallPrimesVec 400 500 [7] = some [7] ∧
    initSmallPrimesBuf 400 500 [0] 5 = some ([0], 5) ∧
    (sieveSegmentVec refCollab (fresh 400 500) [7]).map
        (fun r => (r.1, hasNextSegment r.2.1, sieveCalls r.2.1, r.2.2))
      = some (false, true, 0, [7]) ∧
    (sieveSegmentBuf refCollab (fresh 400 500) [0] 5).map
        (fun r => (r.1, hasNextSegment r.2.1, sieveCalls r.2.1, r.2.2))
      = some (false, true, 0, [0], 5) := by
  refine ⟨by decide!, by decide!, by decide!, by decide!⟩

/-! ## Exhaustion in the container protocol (C15, C18) -/

/-- At a segment boundary with no segment left, one turn of the loop of `fill`
ends it: the container is untouched and the sieve buffer is not read. -/
theorem fill_exhausted (E : Collab) (s : State) (primes : List Nat) (hi : s.isInit_ = true)
    (hf : s.finished_ = false) (hc : s.sieveSize_ ≤ s.sieveIdx_) (hp : s.pending = [])
    (n : Nat) : fill E (n + 1) s primes = some (exhaustedVec s, primes) := by
  have hbody : fillBody E s primes = some (exhaustedVec s, primes) := by
    unfold fillBody
    rw [if_pos hc, sieveSegmentVec_exhausted E s primes hi hp]
    simp
  rw [fill_step E n s _ _ _ hf hbody, fill_done E n _ _ rfl]

theorem fill_fresh_nil (E : Collab) (start stop : Nat) (h : start ≤ stop)
    (hd : 311 < start ∨ stop < 311) (hT : primesIn start (min stop 311) = []) (n : Nat) :
    fill E (n + 1) (fresh start stop) []
      = fill E (n + 1) (init E (enterTableStep (fresh start stop))) [] := by
  have hb : AtBoundary (E.segments (max start 312) stop)
      (init E (enterTableStep (fresh start stop))) := atBoundary_init E start stop
  have hc : (fresh start stop).sieveIdx_ ≥ (fresh start stop).sieveSize_ := Nat.zero_le _
  have hs : sieveSegmentVec E (fresh start stop) []
      = sieveSegmentVec E (init E (enterTableStep (fresh start stop))) [] := by
    rw [sieveSegmentVec_uninit E _ _ rfl]
    have h2 : initSmallPrimesVec (fresh start stop).start_ (fresh start stop).stop_ []
        = some [] := (initSmallPrimesVec_nil start stop h hd).trans (by rw [hT])
    rw [h2]
    simp
  have hbody : fillBody E (fresh start stop) []
      = fillBody E (init E (enterTableStep (fresh start stop))) [] := by
    unfold fillBody
    rw [if_pos hc, if_pos hb.cursor, hs]
  simp only [fill, finished]
  rw [hbody]
  simp [fresh, init, enterTableStep]

theorem fill_fresh_cons (E : Collab) (start stop : Nat) (h : start ≤ stop)
    (hd : 311 < start ∨ stop < 311) (hT : primesIn start (min stop 311) ≠ []) (n : Nat) :
    fill E (n + 1) (fresh start stop) []
      = fill E n (init E (enterTableStep (fresh start stop)))
          (primesIn start (min stop 311)) := by
  apply fill_step E n _ _ _ _ rfl
  have hc : (fresh start stop).sieveIdx_ ≥ (fresh start stop).sieveSize_ := Nat.zero_le _
  unfold fillBody
  rw [if_pos hc, sieveSegmentVec_uninit E _ _ rfl]
  have h2 : initSmallPrimesVec (fresh start stop).start_ (fresh start stop).stop_ []
      = some (primesIn start (min stop 311)) := initSmallPrimesVec_nil start stop h hd
  rw [h2]
  simp [hT]

/-- Below the last table prime no sieving is used: for `start <= stop < 311`,
with a wheel sieve that reports no segment when initialised with `312 > stop`,
`fill` returns with `finished()` true and the table slice alone in the
container; the engine records the table step, `Erat::init(312, stop)`, the
generator's `init` and one segment query answered false: no sieve call, no
sieving prime requested or registered.  When the table slice is empty the first
turn of the loop already finishes. -/
theorem no_sieving_below_311 (E : Collab) (start stop : Nat) (h : start ≤ stop)
    (h311 : stop < 311) (hE : E.segments 312 stop = []) :
    ∃ t, (∀ fuel, 2 ≤ fuel →
        fill E fuel (fresh start stop) [] = some (t, tablePrimesIn start stop)) ∧
      (tablePrimesIn start stop = [] → fill E 1 (fresh start stop) [] = some (t, [])) ∧
      finished t = true ∧
      t.trace = [Event.tableStep, Event.eratInit 312 stop, Event.sievingPrimesInit,
        Event.hasNextSegment false] ∧
      sieveCalls t = 0 ∧ registered t = [] ∧ t.generated = 0 ∧
      tablePrimesIn start stop = primesIn start stop := by
  have hd : 311 < start ∨ stop < 311 := Or.inr h311
  have hmin : min stop 311 = stop := Nat.min_eq_left (by omega)
  have hb : AtBoundary (E.segments (max start 312) stop)
      (init E (enterTableStep (fresh start stop))) := atBoundary_init E start stop
  have hmax : max start 312 = 312 := by omega
  have hpend : (init E (enterTableStep (fresh start stop))).pending = [] := by
    have := hb.pending_eq
    rw [hmax, hE] at this
    exact this
  have htr : (exhaustedVec (init E (enterTableStep (fresh start stop)))).trace
      = [Event.tableStep, Event.eratInit 312 stop, Event.sievingPrimesInit,
          Event.hasNextSegment false] := by
    simp [exhaustedVec, init, enterTableStep, fresh, minStart_eq, hmax]
  have htab : tablePrimesIn start stop = primesIn start stop := by
    rw [tablePrimesIn_eq, hmin]
  refine ⟨exhaustedVec (init E (enterTableStep (fresh start stop))), ?_, ?_, rfl, htr, ?_, ?_,
    rfl, htab⟩
  · intro fuel hfuel
    obtain ⟨n, rfl⟩ : ∃ n, fuel = n + 2 := ⟨fuel - 2, by omega⟩
    rw [htab]
    by_cases hT : primesIn start (min stop 311) = []
    · rw [fill_fresh_nil E start stop h hd hT (n + 1),
        fill_exhausted E _ _ hb.isInit_eq hb.finished_eq hb.cursor hpend (n + 1)]
      rw [hmin] at hT
      rw [hT]
    · rw [fill_fresh_cons E start stop h hd hT (n + 1),
        fill_exhausted E _ _ hb.isInit_eq hb.finished_eq hb.cursor hpend n, hmin]
  · intro hnil
    have hT : primesIn start (min stop 311) = [] := by rw [hmin, ← htab]; exact hnil
    rw [fill_fresh_nil E start stop h hd hT 0,
      fill_exhausted E _ _ hb.isInit_eq hb.finished_eq hb.cursor hpend 0]
  · unfold sieveCalls; rw [htr]; rfl
  · unfold registered; rw [htr]; rfl

/-- C15: `fill` on `[1, 311]`, a range with `stop <= 311`, where the claim has it
return the 64 primes of the table without sieving.  The wheel sieve indeed has
no segment for `Erat::init(312, 311)`, but `311 < smallPrimes.back()` is false,
so `getStopIdx` returns 64 = `smallPrimes.size()` and the table-prefix step
forms the end of its copy range as `&smallPrimes[64]`, a subscript out of the
range of the 64-entry table: the step is undefined, and with it the first
`sieveSegment` call and `fill`, however many turns are allowed. -/
theorem fill_undefined_1_311 :
    refCollab.segments 312 311 = [] ∧ tablePrimesIn 1 311 = smallPrimes ∧
    getStartIdx 1 = some 0 ∧ getStopIdx 311 = some 64 ∧ smallPrimes[64]? = none ∧
    initSmallPrimesVec 1 311 [] = none ∧
    sieveSegmentVec refCollab (fresh 1 311) [] = none ∧
    ∀ fuel, fill refCollab fuel (fresh 1 311) [] = none :=
  ⟨by decide!, by decide!, by decide!, by decide!, by decide!, by decide!, by decide!,
    fun fuel => fill_undefined refCollab 1 311 (by decide) (by decide) fuel⟩

/-- The scenarios `[308, 310]` and `[250, 310]`, up to the last value below the
last table prime: no sieving is used. -/
theorem fill_308_310 :
    (fill refCollab 1 (fresh 308 310) []).map (fun r => (r.1.finished_, r.1.trace, r.2))
      = some (true, [Event.tableStep, Event.eratInit 312 310, Event.sievingPrimesInit,
          Event.hasNextSegment false], []) ∧
    (fill refCollab 2 (fresh 250 310) []).map (fun r => (r.1.finished_, sieveCalls r.1, r.2))
      = some (true, 0, [251, 257, 263, 269, 271, 277, 281, 283, 293, 307]) := by
  refine ⟨by decide!, by decide!⟩

/-- The scenario `[1, 1]`: the empty sequence, finished in the first turn of the
loop. -/
theorem fill_1_1 :
    (fill refCollab 1 (fresh 1 1) []).map (fun r => (r.1.finished_, r.1.trace, r.2))
      = some (true, [Event.tableStep, Event.eratInit 312 1, Event.sievingPrimesInit,
          Event.hasNextSegment false], []) := by
  decide!

theorem exhaustedVec_runCalls (E : Collab) (calls : List (List Nat)) :
    ∀ u : State, u.isInit_ = true → u.pending = [] → u.finished_ = true →
      ∃ t, runCalls E u (calls.map Call.vec) = some t ∧ t.isInit_ = true ∧ t.pending = [] ∧
        t.finished_ = true ∧
        t.trace = u.trace ++ List.replicate calls.length (Event.hasNextSegment false) := by
  induction calls with
  | nil => intro u hi hp hf; exact ⟨u, rfl, hi, hp, hf, by simp⟩
  | cons c cs ih =>
    intro u hi hp hf
    obtain ⟨t, ht, h1, h2, h3, h4⟩ := ih (exhaustedVec u) hi hp rfl
    refine ⟨t, ?_, h1, h2, h3, ?_⟩
    · simp only [List.map_cons, runCalls, runCall, sieveSegmentVec_exhausted E u c hi hp,
        Option.map_some']
      exact ht
    · rw [h4]
      simp [exhaustedVec, List.replicate_succ]

/-- C18: exhaustion in the container protocol: on an initialised engine with no
segment left, the vector overload sets `finished_`, returns false, leaves the
container as it is and records the query alone (no sieve call, no sieving prime
registered or requested); at a segment boundary `fill` then leaves its loop in
that turn, whatever the sieve buffer holds; and `finished_` stays true under
any later calls of the vector overload and of `fill`, which returns at once. -/
theorem exhaustion_in_container_protocol (E : Collab) (s : State) (primes : List Nat)
    (hi : s.isInit_ = true) (hno : hasNextSegment s = false) :
    sieveSegmentVec E s primes = some (false, exhaustedVec s, primes) ∧
    (exhaustedVec s).finished_ = true ∧
    (exhaustedVec s).trace = s.trace ++ [Event.hasNextSegment false] ∧
    sieveCalls (exhaustedVec s) = sieveCalls s ∧
    registered (exhaustedVec s) = registered s ∧
    (exhaustedVec s).generated = s.generated ∧
    (exhaustedVec s).sieve_ = s.sieve_ ∧
    (s.finished_ = false → s.sieveSize_ ≤ s.sieveIdx_ →
      ∀ n, fill E (n + 1) s primes = some (exhaustedVec s, primes)) ∧
    (∀ calls : List (List Nat), ∃ t,
      runCalls E (exhaustedVec s) (calls.map Call.vec) = some t ∧ finished t = true ∧
        sieveCalls t = sieveCalls s ∧ registered t = registered s ∧
        ∀ n out, fill E n t out = some (t, out)) := by
  have hp := (hasNextSegment_false_iff s).mp hno
  refine ⟨sieveSegmentVec_exhausted E s primes hi hp, rfl, rfl, sieveCalls_exhaustedVec s, ?_,
    rfl, rfl, fun hf hc n => fill_exhausted E s primes hi hf hc hp n, fun calls => ?_⟩
  · simp [registered, exhaustedVec, List.filterMap_append]
  · obtain ⟨t, ht, _, _, h3, h4⟩ := exhaustedVec_runCalls E calls (exhaustedVec s) hi hp rfl
    refine ⟨t, ht, h3, ?_, ?_, fun n out => fill_done E n t out h3⟩
    · unfold sieveCalls
      rw [h4, sieveCalls_append_queries]
      exact sieveCalls_exhaustedVec s
    · unfold registered
      rw [h4, registered_append_queries]
      simp [exhaustedVec, List.filterMap_append]

theorem exhaustion_in_container_protocol_witness :
    (init refCollab (enterTableStep (fresh 1 1))).isInit_ = true ∧
    hasNextSegment (init refCollab (enterTableStep (fresh 1 1))) = false ∧
    sieveSegmentVec refCollab (init refCollab (enterTableStep (fresh 1 1))) [2, 3]
      = some (false, exhaustedVec (init refCollab (enterTableStep (fresh 1 1))), [2, 3]) ∧
    (exhaustedVec (init refCollab (enterTableStep (fresh 1 1)))).finished_ = true ∧
    (exhaustedVec (init refCollab (enterTableStep (fresh 1 1)))).trace
      = (init refCollab (enterTableStep (fresh 1 1))).trace ++ [Event.hasNextSegment false] ∧
    sieveCalls (exhaustedVec (init refCollab (enterTableStep (fresh 1 1))))
      = sieveCalls (init refCollab (enterTableStep (fresh 1 1))) ∧
    registered (exhaustedVec (init refCollab (enterTableStep (fresh 1 1))))
      = registered (init refCollab (enterTableStep (fresh 1 1))) ∧
    (exhaustedVec (init refCollab (enterTableStep (fresh 1 1)))).generated
      = (init refCollab (enterTableStep (fresh 1 1))).generated ∧
    (exhaustedVec (init refCollab (enterTableStep (fresh 1 1)))).sieve_
      = (init refCollab (enterTableStep (fresh 1 1))).sieve_ ∧
    ((init refCollab (enterTableStep (fresh 1 1))).finished_ = false →
      (init refCollab (enterTableStep (fresh 1 1))).sieveSize_
        ≤ (init refCollab (enterTableStep (fresh 1 1))).sieveIdx_ →
      ∀ n, fill refCollab (n + 1) (init refCollab (enterTableStep (fresh 1 1))) [2, 3]
        = some (exhaustedVec (init refCollab (enterTableStep (fresh 1 1))), [2, 3])) ∧
    (∀ calls : List (List Nat), ∃ t,
      runCalls refCollab (exhaustedVec (init refCollab (enterTableStep (fresh 1 1))))
          (calls.map Call.vec) = some t ∧ finished t = true ∧
        sieveCalls t = sieveCalls (init refCollab (enterTableStep (fresh 1 1))) ∧
        registered t = registered (init refCollab (enterTableStep (fresh 1 1))) ∧
        ∀ n out, fill refCollab n t out = some (t, out)) :=
  ⟨rfl, by decide!,
    exhaustion_in_container_protocol refCollab (init refCollab (enterTableStep (fresh 1 1)))
      [2, 3] rfl (by decide!)⟩

/-! ## Bounds of the table lookups (C19) -/

theorem filter_length_le_64 (p : Nat → Bool) : (smallPrimes.filter p).length ≤ 64 := by
  have := List.length_filter_le p smallPrimes
  rw [smallPrimes_length] at this
  exact this

/-- The lookups of the table-prefix step, for every `start` and `stop`,
`start > stop` included.  Past 311 `initSmallPrimes` returns before any lookup.
Up to 311 `getStartIdx` reads `primePi` at `start - 1 <= 310` and only when
`start > 1`; `getStopIdx` reads `primePi` only at `stop < 311`; both reads are
in bounds and both indices are `<= 64`.  The subscript `smallPrimes[a]` is in
bounds, and `smallPrimes[b]` is in bounds when `stop < 311`; for `stop >= 311`
the index `b` is 64 and `smallPrimes[b]` is out of bounds. -/
theorem lookups_in_bounds (start stop : Nat) :
    (311 < start → ∀ primes buf size,
      initSmallPrimesVec start stop primes = some primes ∧
      initSmallPrimesBuf start stop buf size = some (buf, size)) ∧
    (start ≤ 1 → getStartIdx start = some 0) ∧
    (start ≤ 311 → 1 < start →
      start - 1 ≤ 310 ∧ start - 1 < primePi.length ∧
      getStartIdx start = primePi[start - 1]?) ∧
    (start ≤ 311 → ∃ a, getStartIdx start = some a ∧ a < 64 ∧ (smallPrimes[a]?).isSome = true) ∧
    (stop < 311 → stop < primePi.length ∧ getStopIdx stop = primePi[stop]?) ∧
    (stop < 311 → ∃ b, getStopIdx stop = some b ∧ b < 64 ∧ (smallPrimes[b]?).isSome = true) ∧
    (311 ≤ stop → getStopIdx stop = some smallPrimes.length ∧
      smallPrimes[smallPrimes.length]? = none) ∧
    (start ≤ 311 → 311 ≤ stop → ∀ primes buf size,
      initSmallPrimesVec start stop primes = none ∧
      initSmallPrimesBuf start stop buf size = none) := by
  have hlen := smallPrimes_length
  refine ⟨fun h primes buf size => ⟨initSmallPrimesVec_skip start stop primes h,
      initSmallPrimesBuf_skip start stop buf size h⟩, ?_, ?_, ?_, ?_, ?_, ?_,
    fun h1 h2 primes buf size => ⟨initSmallPrimesVec_undefined start stop primes h1 h2,
      initSmallPrimesBuf_undefined start stop buf size h1 h2⟩⟩
  · intro h
    have : ¬ start > 1 := by omega
    simp [getStartIdx, this]
  · intro h1 h2
    rw [primePi_length]
    exact ⟨by omega, by omega, by simp [getStartIdx, h2]⟩
  · intro h
    have ha := startIdx_lt start h
    refine ⟨_, getStartIdx_eq start (by omega), ha, ?_⟩
    rw [List.getElem?_eq_getElem (by omega)]
    rfl
  · intro h
    rw [primePi_length]
    exact ⟨by omega, by simp [getStopIdx, smallPrimesBack_eq, h]⟩
  · intro h
    have hb := stopIdx_lt stop h
    refine ⟨_, getStopIdx_eq stop, hb, ?_⟩
    rw [List.getElem?_eq_getElem (by omega)]
    rfl
  · intro h
    have : ¬ stop < 311 := by omega
    refine ⟨by simp [getStopIdx, smallPrimesBack_eq, this], ?_⟩
    exact List.getElem?_eq_none (le_refl _)

/-- C19: the lookups of the table-prefix step on `[311, 311]`.  `getStartIdx`
reads `primePi[310]`, in bounds, and returns 63; `smallPrimes[63]`, the start of
the copy range, is in bounds and holds 311.  `getStopIdx` reads nothing, as
`311 < smallPrimes.back()` is false, and returns 64 = `smallPrimes.size()`; the
end of the copy range is formed as `&smallPrimes[64]`, a lookup out of the
bounds of the 64-entry table, and both overloads of `initSmallPrimes` are
undefined. -/
theorem lookup_out_of_bounds_311 :
    primePi.length = 312 ∧ smallPrimes.length = 64 ∧
    getStartIdx 311 = primePi[310]? ∧ getStartIdx 311 = some 63 ∧
    smallPrimes[63]? = some 311 ∧
    getStopIdx 311 = some smallPrimes.length ∧ getStopIdx 311 = some 64 ∧
    smallPrimes[64]? = none ∧ tableSlice 63 64 = none ∧
    initSmallPrimesVec 311 311 [] = none ∧
    initSmallPrimesBuf 311 311 [0] 0 = none := by
  decide!

/-- The lookups with `start > stop`: both are in bounds, `a = 25` and `b = 15`;
the copy of the reversed range is what is left undefined. -/
theorem lookups_100_50 :
    getStartIdx 100 = some 25 ∧ getStopIdx 50 = some 15 ∧ tableSlice 25 15 = none := by
  decide!

/-! ## The registration of sieving primes (C16) -/

theorem registered_fetch (E : Collab) (s : State) :
    registered (fetchSievingPrime E s) = registered s := by
  simp [registered, fetchSievingPrime, List.filterMap_append]

theorem registered_add (s : State) (p : Nat) :
    registered { s with trace := s.trace ++ [Event.addSievingPrime p] }
      = registered s ++ [p] := by
  simp [registered, List.filterMap_append]

theorem registered_query (s : State) : registered (queryNextSegment s).2 = registered s := by
  simp [registered, queryNextSegment, List.filterMap_append]

theorem registered_init (E : Collab) (s : State) :
    registered (init E (enterTableStep s)) = registered s := by
  simp [registered, init, enterTableStep, List.filterMap_append]

theorem range_initial {m n : Nat} (h : m ≤ n) : List.range m <+: List.range n := by
  obtain ⟨d, rfl⟩ : ∃ d, n = m + d := ⟨n - m, by omega⟩
  rw [List.range_add]
  exact List.prefix_append _ _

/-- One turn of the registration moves the cursor to the next sieving prime of
the stream and registers the one it held. -/
theorem registering_step (E : Collab) (s : State) (k : Nat) (h : Registering E s k) :
    Registering E
      (fetchSievingPrime E { s with trace := s.trace ++ [Event.addSievingPrime s.sievingPrime_] })
      (k + 1) := by
  obtain ⟨h1, h2, h3⟩ := h
  refine ⟨?_, ?_, ?_⟩
  · show s.generated + 1 = k + 1 + 1
    rw [h1]
  · show E.nextPrime s.generated = E.nextPrime (k + 1)
    rw [h1]
  · rw [registered_fetch, registered_add, h3, h2, List.range_succ, List.map_append]
    rfl

/-- The loop of the registration: when it leaves, the cursor is above the bound
and the registered sieving primes are still an initial stretch of the stream. -/
theorem registerLoop_registering (E : Collab) (q : Nat) :
    ∀ (fuel : Nat) (s t : State) (k : Nat), Registering E s k →
      registerLoop E q fuel s = some t →
      ∃ k', k ≤ k' ∧ Registering E t k' ∧ q < t.sievingPrime_ := by
  intro fuel
  induction fuel with
  | zero =>
    intro s t k hk h
    unfold registerLoop at h
    split at h
    · cases h
    · cases h; exact ⟨k, le_refl k, hk, by omega⟩
  | succ f ih =>
    intro s t k hk h
    unfold registerLoop at h
    split at h
    · obtain ⟨k', h1, h2, h3⟩ := ih _ t (k + 1) (registering_step E s k hk) h
      exact ⟨k', by omega, h2, h3⟩
    · cases h; exact ⟨k, le_refl k, hk, by omega⟩

/-- `sieveSegment()` on an engine whose registration is in order: at the
hand-over to `Erat::sieveSegment()` the cursor is above `isqrt(high)`, every
sieving prime of the stream up to `isqrt(high)` is registered, the registered
ones are an initial stretch of the stream that extends the one before, and the
cursor has not decreased. -/
theorem sieveSegment_registration (E : Collab) (hE : StrictMono E.nextPrime) (s : State)
    (seg : Segment) (rest : List Segment) (hinv : RegInv E s) (hp : s.pending = seg :: rest) :
    ∃ t k, sieveSegment E s = some t ∧ Registering E t k ∧
      isqrt (min seg.segmentHigh s.stop_) < t.sievingPrime_ ∧
      (∀ i, E.nextPrime i ≤ isqrt (min seg.segmentHigh s.stop_) →
        E.nextPrime i ∈ registered t) ∧
      registered s <+: registered t ∧
      s.sievingPrime_ ≤ t.sievingPrime_ ∧
      t.trace.getLast? = some (Event.eratSieveSegment seg.segmentLow seg.segmentHigh) := by
  rcases s with ⟨st, sp, ii, fin, lo, si, cur, ss, sv, pend, gen, tr⟩
  simp only at hp
  subst hp
  simp only [sieveSegment]
  generalize hs2 : (ite (cur = 0) _ _ : State) = s2
  have hreg : ∃ k0, Registering E s2 k0 ∧ cur ≤ E.nextPrime k0 ∧
      registered (⟨st, sp, ii, fin, lo, si, cur, ss, sv, seg :: rest, gen, tr⟩ : State)
        <+: (List.range k0).map E.nextPrime := by
    rcases hinv with ⟨h1, h2, h3⟩ | ⟨k, ⟨h1, h2, h3⟩, h4⟩
    · simp only at h1 h2
      subst h1
      subst h2
      rw [← hs2, if_pos rfl]
      refine ⟨0, ⟨rfl, rfl, ?_⟩, Nat.zero_le _, ?_⟩
      · rw [registered_fetch]; exact h3
      · rw [h3]; exact List.nil_prefix
    · simp only at h1 h2 h4
      rw [← hs2, if_neg h4]
      exact ⟨k, ⟨h1, h2, h3⟩, by rw [h2], by rw [h3]⟩
  obtain ⟨k0, hk0, hcur, hpre⟩ := hreg
  obtain ⟨t3, ht3⟩ := registerLoop_total E hE (isqrt (min seg.segmentHigh sp))
    (isqrt (min seg.segmentHigh sp) + 1) s2 (by omega)
  rw [ht3]
  obtain ⟨k, hk, ⟨g1, g2, g3⟩, hq⟩ := registerLoop_registering E _ _ s2 t3 k0 hk0 ht3
  have hregt : registered { t3 with
      sieve_ := seg.sieve, sieveSize_ := seg.sieveSize, pending := rest,
      trace := t3.trace ++ [Event.eratSieveSegment seg.segmentLow seg.segmentHigh] }
      = (List.range k).map E.nextPrime := by
    rw [← g3]
    simp [registered, List.filterMap_append]
  refine ⟨_, k, rfl, ⟨g1, g2, hregt⟩, hq, ?_, ?_, ?_, ?_⟩
  · intro i hi
    rw [hregt, List.mem_map]
    refine ⟨i, List.mem_range.mpr ?_, rfl⟩
    have hlt : E.nextPrime i < E.nextPrime k := by rw [← g2]; omega
    exact hE.lt_iff_lt.mp hlt
  · rw [hregt]
    exact hpre.trans ((range_initial hk).map E.nextPrime)
  · show cur ≤ t3.sievingPrime_
    rw [g2]
    exact le_trans hcur (hE.monotone hk)
  · simp

theorem regInv_of_eq (E : Collab) (s t : State) (h1 : t.sievingPrime_ = s.sievingPrime_)
    (h2 : t.generated = s.generated) (h3 : registered t = registered s) (h : RegInv E s) :
    RegInv E t := by
  rcases h with ⟨a, b, c⟩ | ⟨k, ⟨a, b, c⟩, d⟩
  · exact Or.inl ⟨h1.trans a, h2.trans b, h3.trans c⟩
  · exact Or.inr ⟨k, ⟨h2.trans a, h1.trans b, h3.trans c⟩, by rw [h1]; exact d⟩

theorem regInv_of_registering (E : Collab) (t : State) (k q : Nat) (h : Registering E t k)
    (hq : q < t.sievingPrime_) : RegInv E t :=
  Or.inr ⟨k, h, by omega⟩

theorem regInv_registered (E : Collab) (hE : StrictMono E.nextPrime) (s : State)
    (h : RegInv E s) :
    (∃ k, registered s = (List.range k).map E.nextPrime) ∧
      (registered s).Pairwise (· < ·) := by
  have hk : ∃ k, registered s = (List.range k).map E.nextPrime := by
    rcases h with ⟨_, _, c⟩ | ⟨k, ⟨_, _, c⟩, _⟩
    · exact ⟨0, by rw [c]; rfl⟩
    · exact ⟨k, c⟩
  refine ⟨hk, ?_⟩
  obtain ⟨k, hk⟩ := hk
  rw [hk, List.pairwise_map]
  exact List.Pairwise.imp (fun hab => hE hab) (List.pairwise_lt_range k)

theorem regInv_fresh (E : Collab) (start stop : Nat) : RegInv E (fresh start stop) :=
  Or.inl ⟨rfl, rfl, rfl⟩

theorem regInv_query (E : Collab) (s : State) (h : RegInv E s) :
    RegInv E (queryNextSegment s).2 :=
  regInv_of_eq E s _ rfl rfl (registered_query s) h

/-- A call on an initialised engine keeps the registration in order. -/
theorem runCall_regInv (E : Collab) (hE : StrictMono E.nextPrime) (s : State) (c : Call)
    (hi : s.isInit_ = true) (hinv : RegInv E s) :
    ∃ t, runCall E s c = some t ∧ t.isInit_ = true ∧ RegInv E t := by
  cases hp : s.pending with
  | nil =>
    cases c with
    | vec primes =>
      refine ⟨exhaustedVec s, by simp [runCall, sieveSegmentVec_exhausted E s primes hi hp], hi,
        regInv_of_eq E s _ rfl rfl ?_ hinv⟩
      simp [registered, exhaustedVec, List.filterMap_append]
    | buf primes size =>
      refine ⟨exhaustedBuf s, by simp [runCall, sieveSegmentBuf_exhausted E s primes size hi hp],
        hi, regInv_of_eq E s _ rfl rfl ?_ hinv⟩
      simp [registered, exhaustedBuf, List.filterMap_append]
  | cons seg rest =>
    have hp2 : (queryNextSegment s).2.pending = seg :: rest := by
      simpa [queryNextSegment] using hp
    obtain ⟨t, k, ht, hk, hq, _⟩ := sieveSegment_registration E hE (queryNextSegment s).2
      seg rest (regInv_query E s hinv) hp2
    obtain ⟨t', ht', hs⟩ := sieveSegment_sieved E hE (queryNextSegment s).2 seg rest hp2
    have htt : t' = t := Option.some.inj (ht'.symm.trans ht)
    subst htt
    have hit : t'.isInit_ = true := by rw [hs.isInit_eq]; exact hi
    have hne : s.pending ≠ [] := by rw [hp]; simp
    cases c with
    | vec primes =>
      exact ⟨t', by simp [runCall, sieveSegmentVec_more E s primes hi hne, ht], hit,
        regInv_of_registering E t' k _ hk hq⟩
    | buf primes size =>
      exact ⟨t', by simp [runCall, sieveSegmentBuf_more E s primes size hi hne, ht], hit,
        regInv_of_registering E t' k _ hk hq⟩

theorem regInv_init (E : Collab) (s : State) (h1 : s.sievingPrime_ = 0)
    (h2 : registered s = []) : RegInv E (init E (enterTableStep s)) :=
  Or.inl ⟨h1, rfl, (registered_init E s).trans h2⟩

/-- The first call keeps the registration in order. -/
theorem runCall_regInv_first (E : Collab) (hE : StrictMono E.nextPrime) (s : State) (c : Call)
    (hi : s.isInit_ = false) (hle : s.start_ ≤ s.stop_) (hd : 311 < s.start_ ∨ s.stop_ < 311)
    (h1 : s.sievingPrime_ = 0) (h2 : registered s = []) :
    ∃ t, runCall E s c = some t ∧ t.isInit_ = true ∧ RegInv E t := by
  have hinv := regInv_init E s h1 h2
  cases c with
  | vec primes =>
    simp only [runCall]
    rw [sieveSegmentVec_uninit E s primes hi, initSmallPrimesVec_any _ _ primes hle hd]
    simp only
    split
    · exact runCall_regInv E hE (init E (enterTableStep s)) (Call.vec _) rfl hinv
    · exact ⟨_, rfl, rfl, hinv⟩
  | buf primes size =>
    simp only [runCall]
    obtain ⟨⟨buf1, size1⟩, hr⟩ := initSmallPrimesBuf_any s.start_ s.stop_ primes size hle hd
    rw [sieveSegmentBuf_uninit E s primes size hi, hr]
    simp only
    split
    · exact ⟨_, rfl, rfl, hinv⟩
    · exact runCall_regInv E hE (init E (enterTableStep s)) (Call.buf buf1 size1) rfl hinv

theorem runCalls_regInv_later (E : Collab) (hE : StrictMono E.nextPrime) (calls : List Call) :
    ∀ s : State, s.isInit_ = true → RegInv E s →
      ∃ t, runCalls E s calls = some t ∧ t.isInit_ = true ∧ RegInv E t := by
  induction calls with
  | nil => intro s hi h; exact ⟨s, rfl, hi, h⟩
  | cons c cs ih =>
    intro s hi h
    obtain ⟨t, ht, h1, h2⟩ := runCall_regInv E hE s c hi h
    obtain ⟨u, hu, h3, h4⟩ := ih t h1 h2
    refine ⟨u, ?_, h3, h4⟩
    simp only [runCalls, ht]
    exact hu

/-- After any calls on a fresh engine the registration is in order, at the state
between the calls and at the segment query of the next call. -/
theorem runCalls_regInv (E : Collab) (hE : StrictMono E.nextPrime) (start stop : Nat)
    (h : start ≤ stop) (calls : List Call) (hd : calls = [] ∨ 311 < start ∨ stop < 311) :
    ∃ s, runCalls E (fresh start stop) calls = some s ∧ s.stop_ = stop ∧ RegInv E s ∧
      RegInv E (queryState E s) ∧ registered (queryState E s) = registered s ∧
      (queryState E s).sievingPrime_ = s.sievingPrime_ := by
  cases calls with
  | nil =>
    refine ⟨fresh start stop, rfl, rfl, regInv_fresh E start stop, ?_, ?_, ?_⟩
    · rw [queryState_of_uninit E _ rfl]; exact regInv_init E _ rfl rfl
    · rw [queryState_of_uninit E _ rfl]; exact registered_init E _
    · rw [queryState_of_uninit E _ rfl]; rfl
  | cons c cs =>
    have hd2 : 311 < start ∨ stop < 311 := by
      rcases hd with hd | hd
      · cases hd
      · exact hd
    obtain ⟨t, ht, h1, h2⟩ := runCall_regInv_first E hE (fresh start stop) c rfl h hd2 rfl rfl
    obtain ⟨u, hu, h3, h4⟩ := runCalls_regInv_later E hE cs t h1 h2
    have hrun : runCalls E (fresh start stop) (c :: cs) = some u := by
      simp only [runCalls, ht]
      exact hu
    have hstop := runCalls_fresh_stop E hE start stop h (c :: cs) u hrun
    refine ⟨u, hrun, hstop, h4, ?_, ?_, ?_⟩
    · rw [queryState_of_init E _ h3]; exact h4
    · rw [queryState_of_init E _ h3]
    · rw [queryState_of_init E _ h3]

/-- C16: the registration of sieving primes in `sieveSegment()`, for a strictly
increasing generator: after every run of calls on a fresh engine the registered
sieving primes are an initial stretch of the stream, in order, none twice and
none skipped; and when the next call sieves a segment, with
`high = min(segmentHigh_, stop_) <= stop`, at the hand-over to
`Erat::sieveSegment()` the cursor is above `isqrt(high)`, every sieving prime of
the stream up to `isqrt(high)` is registered, the registered ones are again
such a stretch and extend the one before, and the cursor has not decreased.
Every sequence of calls runs to its end when `start > 311` or `stop < 311`; for
`start <= 311 <= stop` the table-prefix step of the first call is undefined. -/
theorem sieving_prime_registration (E : Collab) (hE : StrictMono E.nextPrime)
    (start stop : Nat) (h : start ≤ stop) (calls : List Call) :
    (311 < start ∨ stop < 311 → ∃ s, runCalls E (fresh start stop) calls = some s) ∧
    ∀ s, runCalls E (fresh start stop) calls = some s →
      (∃ k, registered s = (List.range k).map E.nextPrime) ∧
      (registered s).Pairwise (· < ·) ∧
      ∀ seg rest, (queryState E s).pending = seg :: rest →
        min seg.segmentHigh stop ≤ stop ∧
        ∃ t k, sieveSegment E (queryNextSegment (queryState E s)).2 = some t ∧
          isqrt (min seg.segmentHigh stop) < t.sievingPrime_ ∧
          (∀ i, E.nextPrime i ≤ isqrt (min seg.segmentHigh stop) →
            E.nextPrime i ∈ registered t) ∧
          registered t = (List.range k).map E.nextPrime ∧
          (registered t).Pairwise (· < ·) ∧
          registered s <+: registered t ∧
          s.sievingPrime_ ≤ t.sievingPrime_ ∧
          t.trace.getLast? = some (Event.eratSieveSegment seg.segmentLow seg.segmentHigh) := by
  refine ⟨fun hd => ?_, fun s0 hs0 => ?_⟩
  · obtain ⟨s, hs, _⟩ := runCalls_regInv E hE start stop h calls (Or.inr hd)
    exact ⟨s, hs⟩
  have hd : calls = [] ∨ 311 < start ∨ stop < 311 := by
    cases calls with
    | nil => exact Or.inl rfl
    | cons c cs =>
      by_contra hc
      rw [runCalls_undefined E start stop c cs (by omega) (by omega)] at hs0
      cases hs0
  obtain ⟨s, hs, hstop, hinv, hinvq, hregq, hcurq⟩ := runCalls_regInv E hE start stop h calls hd
  have hss : s0 = s := Option.some.inj (hs0.symm.trans hs)
  rw [hss]
  obtain ⟨hk, hpw⟩ := regInv_registered E hE s hinv
  refine ⟨hk, hpw, fun seg rest hp => ⟨Nat.min_le_right _ _, ?_⟩⟩
  have hp2 : (queryNextSegment (queryState E s)).2.pending = seg :: rest := by
    simpa [queryNextSegment] using hp
  obtain ⟨t, k, ht, hkt, hq, hall, hpre, hcur, hlast⟩ := sieveSegment_registration E hE
    (queryNextSegment (queryState E s)).2 seg rest (regInv_query E _ hinvq) hp2
  have hst : (queryNextSegment (queryState E s)).2.stop_ = stop := by
    show (queryState E s).stop_ = stop
    rw [queryState_stop, hstop]
  rw [hst] at hq hall
  have hrt := regInv_registered E hE t (regInv_of_registering E t k _ hkt hq)
  refine ⟨t, k, ht, hq, hall, hkt.2.2, hrt.2, ?_, ?_, hlast⟩
  · rw [← hregq, ← registered_query (queryState E s)]; exact hpre
  · rw [← hcurq]; exact hcur

theorem sieving_prime_registration_witness :
    StrictMono refCollab.nextPrime ∧ 312 ≤ 320 ∧
    (∃ s, runCalls refCollab (fresh 312 320) [Call.vec [7]] = some s) ∧
    ∀ s, runCalls refCollab (fresh 312 320) [Call.vec [7]] = some s →
      (∃ k, registered s = (List.range k).map refCollab.nextPrime) ∧
      (registered s).Pairwise (· < ·) ∧
      ∀ seg rest, (queryState refCollab s).pending = seg :: rest →
        min seg.segmentHigh 320 ≤ 320 ∧
        ∃ t k, sieveSegment refCollab (queryNextSegment (queryState refCollab s)).2 = some t ∧
          isqrt (min seg.segmentHigh 320) < t.sievingPrime_ ∧
          (∀ i, refCollab.nextPrime i ≤ isqrt (min seg.segmentHigh 320) →
            refCollab.nextPrime i ∈ registered t) ∧
          registered t = (List.range k).map refCollab.nextPrime ∧
          (registered t).Pairwise (· < ·) ∧
          registered s <+: registered t ∧
          s.sievingPrime_ ≤ t.sievingPrime_ ∧
          t.trace.getLast? = some (Event.eratSieveSegment seg.segmentLow seg.segmentHigh) :=
  ⟨refNextPrime_strictMono, by decide,
    (sieving_prime_registration refCollab refNextPrime_strictMono 312 320 (by decide)
      [Call.vec [7]]).1 (Or.inl (by decide)),
    (sieving_prime_registration refCollab refNextPrime_strictMono 312 320 (by decide)
      [Call.vec [7]]).2⟩

/-- The registration on `[312, 320]`: a first call with a container that is not
empty returns before the segment query and registers nothing; the next call
sieves the segment with `high = 320`, `isqrt(high) = 17`; it registers 2, 3, 5,
7, 11, 13, 17 and hands over with the cursor at 19. -/
theorem registration_312_320 :
    (runCalls refCollab (fresh 312 320) [Call.vec [7]]).map
        (fun s => (registered s, s.sievingPrime_, s.generated, hasNextSegment s))
      = some ([], 0, 0, true) ∧
    (runCalls refCollab (fresh 312 320) [Call.vec [7], Call.vec [7]]).map
        (fun s => (registered s, s.sievingPrime_, s.generated))
      = some ([2, 3, 5, 7, 11, 13, 17], 19, 8) ∧
    isqrt (min (refSegment 312 320 300).segmentHigh 320) = 17 := by
  refine ⟨by decide!, by decide!, by decide!⟩

/-! ## Word decoding (C17) -/

theorem mem_setBits (bits i : Nat) : i ∈ setBits bits ↔ i < 64 ∧ bits.testBit i = true := by
  simp [setBits]

theorem setBits_pairwise (bits : Nat) : (setBits bits).Pairwise (· < ·) :=
  List.Pairwise.filter _ (List.pairwise_lt_range 64)

theorem testBit_lt_64 (bits : Nat) (h : bits < 2 ^ 64) (i : Nat) (hi : bits.testBit i = true) :
    i < 64 := by
  by_contra hge
  have h1 : bits < 2 ^ i := lt_of_lt_of_le h (Nat.pow_le_pow_right (by decide) (by omega))
  rw [Nat.testBit_lt_two_pow h1] at hi
  cases hi

/-- The decode step on any engine whose buffer holds a word at the cursor. -/
theorem decodeStep_eq (E : Collab) (s : State) (primes : List Nat) (bits : Nat)
    (hread : readWord s.sieve_ s.sieveIdx_ = some bits) :
    decodeStep E s primes
      = some ({ s with sieveIdx_ := (s.sieveIdx_ + 8) % U64, low_ := (s.low_ + 8 * 30) % U64 },
          primes ++ (setBits bits).map (fun i => (s.low_ + E.bitValue i) % U64)) := by
  unfold decodeStep
  rw [hread]
  simp only
  rw [decodeWord_64 E s.low_ bits (readWord_lt _ _ _ hread)]

/-- A whole segment: from the boundary before it, as many turns of the loop as
the segment has words append the values the segment marks. -/
theorem fill_segment (E : Collab) (hE : StrictMono E.nextPrime) (seg : Segment)
    (rest : List Segment) (s : State) (primes : List Nat) (hb : AtBoundary (seg :: rest) s)
    (hok : SegmentOk E seg) :
    ∃ t, AtBoundary rest t ∧ ∀ n, fill E (n + wordCount seg.sieveSize) s primes
      = fill E n t (primes ++ segmentValues E seg) := by
  obtain ⟨t1, ht1, hd1⟩ := fillBody_segment E hE seg rest s primes hb hok
  have hwc : 0 < wordCount seg.sieveSize := by
    have := hok.size_pos
    unfold wordCount; omega
  obtain ⟨t2, hb2, hfill⟩ := fill_words E seg rest hok (wordCount seg.sieveSize - 1) 1 t1
    (primes ++ segmentWord E seg 0) hd1 (by omega)
  refine ⟨t2, hb2, fun n => ?_⟩
  have hsplit : segmentValues E seg
      = segmentWord E seg 0
        ++ (List.range' 1 (wordCount seg.sieveSize - 1)).flatMap (segmentWord E seg) := by
    rw [segmentValues_eq, List.range_eq_range']
    obtain ⟨m, hm⟩ : ∃ m, wordCount seg.sieveSize = m + 1 :=
      ⟨wordCount seg.sieveSize - 1, by omega⟩
    rw [hm, List.range'_succ, List.flatMap_cons]
    simp
  have hn : n + wordCount seg.sieveSize = (n + (wordCount seg.sieveSize - 1)) + 1 := by omega
  rw [hn, fill_step E _ s t1 _ _ hb.finished_eq ht1, hfill n, hsplit, List.append_assoc]

/-- C17: word decoding in `fill`: for the word read at the decode cursor, one
value per set bit is appended, in ascending bit order, each the segment base
plus the decode offset of the bit (in 64-bit arithmetic); then the base moves
on by 240 and the cursor by 8.  Within a segment whose marked values fit 64
bits the sums are exact, the cursor strictly increases from word to word, and
with a decode offset strictly increasing in the bit position and within one
block of 240 the values appended for the segment are strictly increasing. -/
theorem word_decoding (E : Collab) (s : State) (primes : List Nat) (bits : Nat)
    (hread : readWord s.sieve_ s.sieveIdx_ = some bits) :
    decodeStep E s primes
      = some ({ s with sieveIdx_ := (s.sieveIdx_ + 8) % U64, low_ := (s.low_ + 8 * 30) % U64 },
          primes ++ (setBits bits).map (fun i => (s.low_ + E.bitValue i) % U64)) ∧
    (setBits bits).Pairwise (· < ·) ∧
    (∀ i, i ∈ setBits bits ↔ bits.testBit i = true) ∧
    (s.low_ + 240 < U64 → (s.low_ + 8 * 30) % U64 = s.low_ + 240) ∧
    (s.sieveIdx_ + 8 < U64 → (s.sieveIdx_ + 8) % U64 = s.sieveIdx_ + 8) ∧
    (∀ seg rest j, Decoding seg rest j s → SegmentOk E seg → j < wordCount seg.sieveSize →
      ∃ t, decodeStep E s primes
          = some (t, primes ++ (setBits bits).map
              (fun i => seg.segmentLow + 240 * j + E.bitValue i)) ∧
        t.sieveIdx_ = s.sieveIdx_ + 8 ∧ s.sieveIdx_ < t.sieveIdx_ ∧
        Decoding seg rest (j + 1) t) ∧
    ((∀ i j, i < j → j < 64 → E.bitValue i < E.bitValue j) →
      E.bitValue 63 < E.bitValue 0 + 240 →
      ∀ seg, (segmentValues E seg).Pairwise (· < ·)) ∧
    (StrictMono E.nextPrime → ∀ seg rest u out, AtBoundary (seg :: rest) u → SegmentOk E seg →
      ∃ t, AtBoundary rest t ∧ ∀ n, fill E (n + wordCount seg.sieveSize) u out
        = fill E n t (out ++ segmentValues E seg)) := by
  have hlt := readWord_lt _ _ _ hread
  refine ⟨decodeStep_eq E s primes bits hread, setBits_pairwise bits, ?_, ?_, ?_, ?_, ?_, ?_⟩
  · intro i
    rw [mem_setBits]
    exact ⟨fun h => h.2, fun h => ⟨testBit_lt_64 bits hlt i h, h⟩⟩
  · intro h
    exact Nat.mod_eq_of_lt h
  · intro h
    exact Nat.mod_eq_of_lt h
  · intro seg rest j hd hok hj
    obtain ⟨t, ht, hdt⟩ := decodeStep_word E seg rest j s primes hd hok hj
    have hbits : (readWord seg.sieve (8 * j)).getD 0 = bits := by
      rw [← hd.sieve_eq, ← hd.sieveIdx_eq, hread]; rfl
    refine ⟨t, ?_, ?_, ?_, hdt⟩
    · rw [ht]
      unfold segmentWord wordValues
      rw [hbits]
      rfl
    · rw [hdt.sieveIdx_eq, hd.sieveIdx_eq]; omega
    · rw [hdt.sieveIdx_eq, hd.sieveIdx_eq]; omega
  · intro hmono hblock seg
    exact segmentValues_pairwise E hmono hblock seg
  · intro hE seg rest u out hb hok
    exact fill_segment E hE seg rest u out hb hok

/-- The engine `sieved300` is the engine of the reference sieve on `[312, 320]`
after the call that sieves the segment. -/
theorem sieved300_reached :
    runCalls refCollab (fresh 312 320) [Call.vec []] = some sieved300 ∧
    (refSegment 312 320 300).sieve = sieved300.sieve_ := by
  refine ⟨by decide!, by decide!⟩

theorem word_decoding_witness :
    readWord sieved300.sieve_ sieved300.sieveIdx_ = some 12 ∧
    decodeStep refCollab sieved300 [307, 311]
      = some ({ sieved300 with
            sieveIdx_ := (sieved300.sieveIdx_ + 8) % U64,
            low_ := (sieved300.low_ + 8 * 30) % U64 },
          [307, 311] ++ (setBits 12).map (fun i => (sieved300.low_ + refCollab.bitValue i) % U64)) ∧
    (setBits 12).Pairwise (· < ·) ∧
    (∀ i, i ∈ setBits 12 ↔ Nat.testBit 12 i = true) ∧
    (sieved300.low_ + 240 < U64 → (sieved300.low_ + 8 * 30) % U64 = sieved300.low_ + 240) ∧
    (sieved300.sieveIdx_ + 8 < U64 →
      (sieved300.sieveIdx_ + 8) % U64 = sieved300.sieveIdx_ + 8) ∧
    (∀ seg rest j, Decoding seg rest j sieved300 → SegmentOk refCollab seg →
      j < wordCount seg.sieveSize →
      ∃ t, decodeStep refCollab sieved300 [307, 311]
          = some (t, [307, 311] ++ (setBits 12).map
              (fun i => seg.segmentLow + 240 * j + refCollab.bitValue i)) ∧
        t.sieveIdx_ = sieved300.sieveIdx_ + 8 ∧ sieved300.sieveIdx_ < t.sieveIdx_ ∧
        Decoding seg rest (j + 1) t) ∧
    ((∀ i j, i < j → j < 64 → refCollab.bitValue i < refCollab.bitValue j) →
      refCollab.bitValue 63 < refCollab.bitValue 0 + 240 →
      ∀ seg, (segmentValues refCollab seg).Pairwise (· < ·)) ∧
    (StrictMono refCollab.nextPrime → ∀ seg rest u out, AtBoundary (seg :: rest) u →
      SegmentOk refCollab seg →
      ∃ t, AtBoundary rest t ∧ ∀ n, fill refCollab (n + wordCount seg.sieveSize) u out
        = fill refCollab n t (out ++ segmentValues refCollab seg)) :=
  ⟨by decide!, word_decoding refCollab sieved300 [307, 311] 12 (by decide!)⟩

/-- The word of the segment with base 300: bits 2 and 3 are set, the values 313
and 317 are appended, the base moves from 300 to 540 and the cursor from 0 to 8. -/
theorem decode_300_320 :
    setBits 12 = [2, 3] ∧
    (decodeStep refCollab sieved300 [307, 311]).map
        (fun r => (r.1.low_, r.1.sieveIdx_, r.2))
      = some (540, 8, [307, 311, 313, 317]) := by
  refine ⟨by decide!, by decide!⟩

end NextPrimes
